import Mathlib

/-!
# histLib: contrast normalisation and histogram rendering

A shallow embedding of `CHistLib` (src/src/histLib.cpp): the configuration and
its setters, `NormalizeImageBGR`, `NormalizeClipImageBGR`, `DrawHistogram` with
its helpers and `DrawHistogramBGR`, together with the `double` and `float`
arithmetic they perform.

* A `double` is a `Dbl`: a finite rational, an infinity or NaN.  Every
  arithmetic result is rounded to binary64 (round to nearest, ties to even) by
  `fl`.  Signed zeros are not distinguished: the only divisors in the source are
  converted integers and the constants `100.0f` and `2`, none of which is `-0`.
* The HSV buffer `ImageHSV.data` (three bytes per pixel) is a list of
  `PixelHSV`; the colour conversions `cvtColor` before and after the per-pixel
  loops belong to the image library and are not part of the model.
* `cvRound` belongs to the image library as well; it is a parameter of every
  definition that calls it.
* The pixel count `ImageHSV.rows * ImageHSV.cols` is the length of the list.
* An `unsigned` is a natural number reduced modulo `2 ^ 32` after every
  operation that can leave the range; the members `mHistImageHeight`,
  `mHistImageBorder` and `mBinCount`, which the header declares, are taken to
  be `unsigned` like the setters' arguments.
* A read or write past the end of the bucket array `bins` has no defined
  result: the functions that index it return an `Option`.
-/

namespace HistLib

/-! ## Doubles -/

/-- A value of the C++ type `double`. -/
inductive Dbl where
  | fin (q : ℚ)
  | pinf
  | ninf
  | nan
  deriving DecidableEq

/-- Nearest integer to a rational, ties to the even neighbour. -/
def roundTiesEven (x : ℚ) : ℤ :=
  if x - ⌊x⌋ < 1 / 2 then ⌊x⌋
  else if 1 / 2 < x - ⌊x⌋ then ⌊x⌋ + 1
  else if ⌊x⌋ % 2 = 0 then ⌊x⌋ else ⌊x⌋ + 1

/-- Spacing of the binary64 numbers around `x`: `2 ^ (e - 52)` where
`2 ^ e ≤ |x| < 2 ^ (e + 1)`, with `e` held at `-1022` in the subnormal range. -/
def ulp (x : ℚ) : ℚ := 2 ^ (max (Int.log 2 |x|) (-1022) - 52)

/-- Rounding of an exact result to binary64: round to nearest, ties to even,
overflowing to an infinity from `2 ^ 1024` on. -/
def fl (x : ℚ) : Dbl :=
  let r : ℚ := roundTiesEven (x / ulp x) * ulp x
  if 2 ^ 1024 ≤ |r| then (if 0 < x then .pinf else .ninf) else .fin r

namespace Dbl

/-- Conversion `(double)n` of a 32-bit integer: always exact. -/
def ofInt (n : ℤ) : Dbl := .fin n

/-- Subtraction `a - b` of doubles. -/
def sub : Dbl → Dbl → Dbl
  | .fin a, .fin b => fl (a - b)
  | .fin _, .pinf => .ninf
  | .fin _, .ninf => .pinf
  | .pinf, .fin _ => .pinf
  | .pinf, .ninf => .pinf
  | .ninf, .fin _ => .ninf
  | .ninf, .pinf => .ninf
  | _, _ => .nan

/-- Multiplication `a * b` of doubles; `0 * inf` is NaN. -/
def mul : Dbl → Dbl → Dbl
  | .fin a, .fin b => fl (a * b)
  | .fin a, .pinf => if a = 0 then .nan else if 0 < a then .pinf else .ninf
  | .fin a, .ninf => if a = 0 then .nan else if 0 < a then .ninf else .pinf
  | .pinf, .fin b => if b = 0 then .nan else if 0 < b then .pinf else .ninf
  | .ninf, .fin b => if b = 0 then .nan else if 0 < b then .ninf else .pinf
  | .pinf, .pinf => .pinf
  | .pinf, .ninf => .ninf
  | .ninf, .pinf => .ninf
  | .ninf, .ninf => .pinf
  | _, _ => .nan

/-- Division `a / b` of doubles; `x / 0` is an infinity and `0 / 0` is NaN. -/
def div : Dbl → Dbl → Dbl
  | .fin a, .fin b =>
      if b = 0 then (if a = 0 then .nan else if 0 < a then .pinf else .ninf)
      else fl (a / b)
  | .fin _, .pinf => .fin 0
  | .fin _, .ninf => .fin 0
  | .pinf, .fin b => if 0 ≤ b then .pinf else .ninf
  | .ninf, .fin b => if 0 ≤ b then .ninf else .pinf
  | _, _ => .nan

/-- Comparison `a > b` of doubles; false when either side is NaN. -/
def gt : Dbl → Dbl → Bool
  | .fin a, .fin b => decide (b < a)
  | .fin _, .ninf => true
  | .pinf, .fin _ => true
  | .pinf, .ninf => true
  | _, _ => false

/-- Comparison `a < b` of doubles; false when either side is NaN. -/
def lt (a b : Dbl) : Bool := gt b a

end Dbl

/-! ## Integer conversions -/

/-- Conversion of an `int` to `unsigned char` (reduction modulo 256). -/
def toUChar (n : ℤ) : Fin 256 := ⟨(n % 256).toNat, by omega⟩

/-- Conversion of an `int` to `unsigned` (reduction modulo 2 ^ 32). -/
def toUnsigned (n : ℤ) : Nat := (n % 4294967296).toNat

/-! ## Images -/

/-- One pixel of the HSV buffer: the bytes `data[3*i]`, `data[3*i+1]`,
`data[3*i+2]`. -/
structure PixelHSV where
  h : Fin 256
  s : Fin 256
  v : Fin 256
  deriving DecidableEq

/-- The value-channel remap shared by the per-pixel loops of
`NormalizeImageBGR` and `NormalizeClipImageBGR`:
`newPixelDouble = ((double)v - (double)min) * (255.0f / (double)(max - min))`,
then the two clipping tests, then `cvRound`.  `range` is `max - min` as the
source computes it (an `int` in `NormalizeImageBGR`, an `unsigned` in
`NormalizeClipImageBGR`). -/
def remapValue (cvRound : Dbl → ℤ) (v : Fin 256) (min : ℤ) (range : ℤ) : Fin 256 :=
  let newPixelDouble :=
    Dbl.mul (Dbl.sub (Dbl.ofInt v.val) (Dbl.ofInt min)) (Dbl.div (.fin 255) (Dbl.ofInt range))
  if newPixelDouble.gt (.fin 255) then 255
  else if newPixelDouble.lt (.fin 0) then 0
  else toUChar (cvRound newPixelDouble)

/-- The loop body of both normalisations: hue and saturation are copied, the
value byte is remapped. -/
def remapPixel (cvRound : Dbl → ℤ) (min : ℤ) (range : ℤ) (p : PixelHSV) : PixelHSV :=
  { h := p.h, s := p.s, v := remapValue cvRound p.v min range }

/-! ## NormalizeImageBGR -/

/-- The first loop of `NormalizeImageBGR`, started from `min = 255`,
`max = 0`; the state is `(min, max)`. -/
def findMinMax : List PixelHSV → Fin 256 × Fin 256 → Fin 256 × Fin 256
  | [], st => st
  | p :: rest, (mn, mx) =>
      findMinMax rest (if p.v < mn then p.v else mn, if p.v > mx then p.v else mx)

/-- `CHistLib::NormalizeImageBGR` on the HSV buffer: `ImageHSV` in,
`ImageHSVNorm` out. -/
def NormalizeImageBGR (cvRound : Dbl → ℤ) (ImageHSV : List PixelHSV) : List PixelHSV :=
  let mm := findMinMax ImageHSV (255, 0)
  ImageHSV.map (remapPixel cvRound mm.1.val ((mm.2.val : ℤ) - (mm.1.val : ℤ)))

/-! ## NormalizeClipImageBGR -/

/-- The histogram loop `bins[data[3*i+2]]++` over an array `bins`; `none` when a
value byte indexes past the end of the array. -/
def countValues : List PixelHSV → List Nat → Option (List Nat)
  | [], bins => some bins
  | p :: rest, bins =>
      match bins[p.v.val]? with
      | some c => countValues rest (bins.set p.v.val ((c + 1) % 4294967296))
      | none => none

/-- The threshold `pixelsToClipHalf` for an image of `n` pixels. -/
def pixelsToClipHalf (cvRound : Dbl → ℤ) (n : Nat) (clipPercent : Dbl) : Nat :=
  let clipFraction := clipPercent.div (.fin 100)
  let pixelsToClip := toUnsigned (cvRound (clipFraction.mul (Dbl.ofInt n)))
  toUnsigned (cvRound ((Dbl.ofInt pixelsToClip).div (.fin 2)))

/-- The loop `for (unsigned i = 1; i < 255; i++)` of the lower bound with `n`
iterations left, at index `i` with running sum `binSum`; the result is the
final `min` (`0` when the loop ends without a `break`). -/
def lowerScan (bins : List Nat) (half : Nat) : Nat → Nat → Nat → Option Nat
  | 0, _, _ => some 0
  | n + 1, i, binSum =>
      match bins[i]? with
      | some b =>
          if (binSum + b) % 4294967296 > half then some i
          else lowerScan bins half n (i + 1) ((binSum + b) % 4294967296)
      | none => none

/-- The block "Find the lower pixel bound": the final value of `min`. -/
def lowerBound (bins : List Nat) (half : Nat) : Option Nat :=
  match bins[0]? with
  | some b0 => if b0 < half then lowerScan bins half 254 1 b0 else some 0
  | none => none

/-- The loop `for (unsigned i = 255; i > 1; i--)` of the upper bound with `n`
iterations left, at index `i` with running sum `binSum`; the result is the
final `max` (`max0`, its initial value, when the loop ends without a `break`). -/
def upperScan (bins : List Nat) (half max0 : Nat) : Nat → Nat → Nat → Option Nat
  | 0, _, _ => some max0
  | n + 1, i, binSum =>
      match bins[i]? with
      | some b =>
          if (binSum + b) % 4294967296 > half then some i
          else upperScan bins half max0 n (i - 1) ((binSum + b) % 4294967296)
      | none => none

/-- The block "Find the upper pixel bound": the final value of `max`, whose
initial value is `max0 = mBinCount - 1`. -/
def upperBound (bins : List Nat) (half max0 : Nat) : Option Nat :=
  match bins[255]? with
  | some b255 => if b255 < half then upperScan bins half max0 254 255 b255 else some max0
  | none => none

/-- The bounds `(min, max)` that `NormalizeClipImageBGR` computes for a
configured bin count `mBinCount`; `none` when a bucket access is out of range. -/
def clipBounds (cvRound : Dbl → ℤ) (mBinCount : Nat) (ImageHSV : List PixelHSV)
    (clipPercent : Dbl) : Option (Nat × Nat) :=
  match countValues ImageHSV (List.replicate mBinCount 0) with
  | some bins =>
      let half := pixelsToClipHalf cvRound ImageHSV.length clipPercent
      match lowerBound bins half with
      | some min =>
          match upperBound bins half ((mBinCount + 4294967295) % 4294967296) with
          | some max => some (min, max)
          | none => none
      | none => none
  | none => none

/-- `CHistLib::NormalizeClipImageBGR` on the HSV buffer for a configured bin
count `mBinCount`.  `max - min` is an `unsigned` subtraction. -/
def NormalizeClipImageBGR (cvRound : Dbl → ℤ) (mBinCount : Nat) (ImageHSV : List PixelHSV)
    (clipPercent : Dbl) : Option (List PixelHSV) :=
  match clipBounds cvRound mBinCount ImageHSV clipPercent with
  | some (min, max) =>
      some (ImageHSV.map
        (remapPixel cvRound min (((max : ℤ) - (min : ℤ)) % 4294967296)))
  | none => none

/-! ## The histogram renderer

`cv::Mat::create`, `cv::Mat::setTo` are modelled below; `cv::line` and
`cv::putText` belong to the image library and are parameters of the drawing
functions.  An element of the target image is recorded as the `Scalar` last
written to it. -/

/-- A `cv::Scalar`: four doubles. -/
structure Scalar where
  v0 : Dbl
  v1 : Dbl
  v2 : Dbl
  v3 : Dbl
  deriving DecidableEq

/-- The element types that `DrawHistogram` tells apart, and the one it creates
the target with. -/
inductive MatType where
  | CV_8UC3
  | CV_32F
  | CV_64F
  | CV_32S
  | other (code : ℕ)
  deriving DecidableEq

/-- A target image: its dimensions, its element type and its elements. -/
structure Mat where
  rows : ℕ
  cols : ℕ
  type : MatType
  data : ℕ → ℕ → Scalar

/-- A histogram matrix `Hist`: its dimensions, its element type and the element
access `Hist.at<float>(r, c)`, `Hist.at<double>(r, c)` (a double either way once
passed on) and `Hist.at<int>(r, c)`. -/
structure HistMat where
  rows : ℕ
  cols : ℕ
  type : MatType
  atReal : ℕ → ℕ → Dbl
  atInt : ℕ → ℕ → ℤ

/-- A `cv::Point`: two `int` coordinates `(x, y)`. -/
structure Point where
  x : ℤ
  y : ℤ
  deriving DecidableEq

/-- The configuration held by a `CHistLib` object. -/
structure CHistLib where
  mHistImageHeight : ℕ
  mHistImageBorder : ℕ
  mBinCount : ℕ
  mHistPlotColor : Scalar
  mHistAxisColor : Scalar
  mHistBackgroundColor : Scalar
  mDrawXAxis : Bool

/-- The constructor `CHistLib::CHistLib()`.  `white` and `black` stand for
`HIST_LIB_COLOR_WHITE` and `HIST_LIB_COLOR_BLACK`, which the header defines. -/
def CHistLib.new (white black : Scalar) : CHistLib :=
  { mHistImageHeight := 300, mHistImageBorder := 15, mBinCount := 256,
    mHistPlotColor := white, mHistAxisColor := white, mHistBackgroundColor := black,
    mDrawXAxis := true }

/-- The setter `CHistLib::SetHistImageHeight`. -/
def CHistLib.SetHistImageHeight (self : CHistLib) (HistImageHeight : ℕ) : CHistLib :=
  if HistImageHeight > 0 ∧ HistImageHeight ≤ 2048 then
    { self with mHistImageHeight := HistImageHeight }
  else self

/-- The setter `CHistLib::SetBinCount`. -/
def CHistLib.SetBinCount (self : CHistLib) (BinCount : ℕ) : CHistLib :=
  if BinCount > 0 ∧ BinCount ≤ 256 then { self with mBinCount := BinCount } else self

/-- The setter `CHistLib::SetPlotColor`. -/
def CHistLib.SetPlotColor (self : CHistLib) (Color : Scalar) : CHistLib :=
  { self with mHistPlotColor := Color }

/-- The setter `CHistLib::SetAxisColor`. -/
def CHistLib.SetAxisColor (self : CHistLib) (Color : Scalar) : CHistLib :=
  { self with mHistAxisColor := Color }

/-- The setter `CHistLib::SetBackgroundColor`. -/
def CHistLib.SetBackgroundColor (self : CHistLib) (Color : Scalar) : CHistLib :=
  { self with mHistBackgroundColor := Color }

/-- The getter `CHistLib::GetHistImageHeight`. -/
def CHistLib.GetHistImageHeight (self : CHistLib) : ℕ := self.mHistImageHeight

/-- The getter `CHistLib::GetBinCount`. -/
def CHistLib.GetBinCount (self : CHistLib) : ℕ := self.mBinCount

/-- Conversion of an `unsigned` to `int` (two's complement). -/
def toInt (n : ℕ) : ℤ :=
  if n % 4294967296 < 2147483648 then (n % 4294967296 : ℕ)
  else ((n % 4294967296 : ℕ) : ℤ) - 4294967296

/-- `HistImage.create(rows, cols, type)`: nothing happens when the image already
has that size and type; otherwise a new array is allocated (its elements, here
zero, are overwritten by `setTo` before they are read). -/
def Mat.create (m : Mat) (rows cols : ℕ) (type : MatType) : Mat :=
  if m.rows = rows ∧ m.cols = cols ∧ m.type = type then m
  else { rows := rows, cols := cols, type := type,
         data := fun _ _ => ⟨.fin 0, .fin 0, .fin 0, .fin 0⟩ }

/-- `HistImage.setTo(color)`: every element becomes `color`. -/
def Mat.setTo (m : Mat) (color : Scalar) : Mat :=
  { m with data := fun _ _ => color }

/-- The body shared by the three overloads of `CHistLib::DrawHistBin` once
`PixelHeight` is computed (`(unsigned)Value` for an `int`,
`(unsigned)cvRound(Value)` for a `float` or a `double`). -/
def DrawHistBinHeight (line : Mat → Point → Point → Scalar → ℤ → Mat) (self : CHistLib)
    (HistLayer : Mat) (PixelHeight : ℕ) (x : ℕ) (Color : Scalar) : Mat :=
  if PixelHeight ≠ 0 then
    let BaseX := (x + self.mHistImageBorder) % 4294967296
    let BaseY := (self.mHistImageBorder + self.mHistImageHeight) % 4294967296
    line HistLayer ⟨toInt BaseX, toInt BaseY⟩
      ⟨toInt BaseX, toInt ((BaseY + 4294967296 - PixelHeight) % 4294967296)⟩ Color 1
  else HistLayer

/-- `CHistLib::DrawHistBin(Mat&, int, unsigned, const Scalar&)`. -/
def DrawHistBinInt (line : Mat → Point → Point → Scalar → ℤ → Mat) (self : CHistLib)
    (HistLayer : Mat) (Value : ℤ) (x : ℕ) (Color : Scalar) : Mat :=
  DrawHistBinHeight line self HistLayer (toUnsigned Value) x Color

/-- `CHistLib::DrawHistBin` for a `float` or a `double` bin height. -/
def DrawHistBinReal (cvRound : Dbl → ℤ) (line : Mat → Point → Point → Scalar → ℤ → Mat)
    (self : CHistLib) (HistLayer : Mat) (Value : Dbl) (x : ℕ) (Color : Scalar) : Mat :=
  DrawHistBinHeight line self HistLayer (toUnsigned (cvRound Value)) x Color

/-- `CHistLib::DrawHistBar`: the horizontal axis and the labels of the first
and the last bin (font `FONT_HERSHEY_SIMPLEX` at scale `0.3f`). -/
def DrawHistBar (line : Mat → Point → Point → Scalar → ℤ → Mat)
    (putText : Mat → String → Point → Scalar → Mat) (self : CHistLib)
    (HistImage : Mat) (BinCount : ℕ) : Mat :=
  let border := self.mHistImageBorder
  let baseY := (border + self.mHistImageHeight) % 4294967296
  let img1 := line HistImage ⟨toInt border, toInt baseY⟩
    ⟨toInt ((border + 3 * BinCount) % 4294967296), toInt baseY⟩ self.mHistAxisColor 0
  let img2 := putText img1 "0"
    ⟨toInt ((border + 4294967296 - 3) % 4294967296), toInt ((baseY + 10) % 4294967296)⟩
    self.mHistAxisColor
  putText img2 (toString ((BinCount + 4294967295) % 4294967296))
    ⟨toInt ((border + 3 * BinCount + 4294967296 - 10) % 4294967296),
      toInt ((baseY + 10) % 4294967296)⟩
    self.mHistAxisColor

/-- The loops `for (int i = 0; i < n; i++) DrawHistBin(HistImage, value i, i * 3,
mHistPlotColor)` of `DrawHistogram`, over the indices in `is`. -/
def drawBins (draw : Mat → ℕ → Mat) : List ℕ → Mat → Mat
  | [], img => img
  | i :: rest, img => drawBins draw rest (draw img i)

set_option linter.unusedVariables false in
/-- `CHistLib::DrawHistogram(const Mat& Hist, Mat& HistImage, const Scalar& Color)`:
the target image after the call.  The source never reads `Color`: every bin is
drawn with `mHistPlotColor`. -/
def DrawHistogram (cvRound : Dbl → ℤ) (line : Mat → Point → Point → Scalar → ℤ → Mat)
    (putText : Mat → String → Point → Scalar → Mat) (self : CHistLib)
    (Hist : HistMat) (HistImage : Mat) (Color : Scalar) : Mat :=
  let shape : Option (Bool × ℕ) :=
    if Hist.rows > Hist.cols then
      (if Hist.rows < 2 ∨ Hist.cols ≠ 1 then none else some (false, Hist.rows))
    else
      (if Hist.rows ≠ 1 ∨ Hist.cols < 2 then none else some (true, Hist.cols))
  match shape with
  | none => HistImage
  | some (rowVector, HistLength) =>
      let canvas := (HistImage.create
        ((2 * self.mHistImageBorder + self.mHistImageHeight) % 4294967296)
        ((2 * self.mHistImageBorder + 3 * HistLength) % 4294967296)
        .CV_8UC3).setTo self.mHistBackgroundColor
      let n := if rowVector then Hist.cols else Hist.rows
      let elemReal := fun i => if rowVector then Hist.atReal 0 i else Hist.atReal i 0
      let elemInt := fun i => if rowVector then Hist.atInt 0 i else Hist.atInt i 0
      let drawn : Option Mat :=
        match Hist.type with
        | .CV_32F => some (drawBins (fun img i =>
            DrawHistBinReal cvRound line self img (elemReal i) (i * 3) self.mHistPlotColor)
            (List.range n) canvas)
        | .CV_64F => some (drawBins (fun img i =>
            DrawHistBinReal cvRound line self img (elemReal i) (i * 3) self.mHistPlotColor)
            (List.range n) canvas)
        | .CV_32S => some (drawBins (fun img i =>
            DrawHistBinInt line self img (elemInt i) (i * 3) self.mHistPlotColor)
            (List.range n) canvas)
        | _ => none
      match drawn with
      | none => canvas
      | some img => if self.mDrawXAxis then DrawHistBar line putText self img HistLength else img

/-! ## Single precision and `DrawHistogramBGR`

`calcHist` and `minMaxLoc` belong to the image library and are parameters of
`DrawHistogramBGR`; the source image is of whatever type `calcHist` reads.  A
`float` is a `Dbl` whose value is a binary32 number; every `float` operation is
rounded by `fl32`. -/

/-- Spacing of the binary32 numbers around `x`: `2 ^ (e - 23)` where
`2 ^ e ≤ |x| < 2 ^ (e + 1)`, with `e` held at `-126` in the subnormal range. -/
def ulp32 (x : ℚ) : ℚ := 2 ^ (max (Int.log 2 |x|) (-126) - 23)

/-- Rounding of an exact result to binary32: round to nearest, ties to even,
overflowing to an infinity from `2 ^ 128` on. -/
def fl32 (x : ℚ) : Dbl :=
  let r : ℚ := roundTiesEven (x / ulp32 x) * ulp32 x
  if 2 ^ 128 ≤ |r| then (if 0 < x then .pinf else .ninf) else .fin r

/-- Conversion `(float)d` of a double. -/
def Dbl.toFloat : Dbl → Dbl
  | .fin q => fl32 q
  | d => d

/-- Multiplication `a * b` of floats. -/
def Dbl.mulF : Dbl → Dbl → Dbl
  | .fin a, .fin b => fl32 (a * b)
  | .fin a, .pinf => if a = 0 then .nan else if 0 < a then .pinf else .ninf
  | .fin a, .ninf => if a = 0 then .nan else if 0 < a then .ninf else .pinf
  | .pinf, .fin b => if b = 0 then .nan else if 0 < b then .pinf else .ninf
  | .ninf, .fin b => if b = 0 then .nan else if 0 < b then .ninf else .pinf
  | .pinf, .pinf => .pinf
  | .pinf, .ninf => .ninf
  | .ninf, .pinf => .ninf
  | .ninf, .ninf => .pinf
  | _, _ => .nan

/-- Division `a / b` of floats. -/
def Dbl.divF : Dbl → Dbl → Dbl
  | .fin a, .fin b =>
      if b = 0 then (if a = 0 then .nan else if 0 < a then .pinf else .ninf)
      else fl32 (a / b)
  | .fin _, .pinf => .fin 0
  | .fin _, .ninf => .fin 0
  | .pinf, .fin b => if 0 ≤ b then .pinf else .ninf
  | .ninf, .fin b => if 0 ≤ b then .ninf else .pinf
  | _, _ => .nan

/-- The function `std::max(a, b)` on doubles: `(a < b) ? b : a`. -/
def Dbl.stdMax (a b : Dbl) : Dbl := if a.lt b then b else a

/-- The right-hand side of one assignment of the scaling loop of
`DrawHistogramBGR`:
`(float)mHistImageHeight * Hist.at<float>(i, 0) / (float)maxBGR` for the bin
value `c`. -/
def scaleBin (self : CHistLib) (maxBGR : Dbl) (c : Dbl) : Dbl :=
  Dbl.divF (Dbl.mulF (fl32 self.mHistImageHeight) c) maxBGR.toFloat

/-- A histogram after the scaling loop `for (int i = 0; i < n; i++)` of
`DrawHistogramBGR`: the elements `(i, 0)` with `i < n` are scaled. -/
def scaleHist (self : CHistLib) (maxBGR : Dbl) (n : ℕ) (Hist : HistMat) : HistMat :=
  { Hist with
    atReal := fun r c =>
      if r < n ∧ c = 0 then scaleBin self maxBGR (Hist.atReal r 0) else Hist.atReal r c }

/-- `CHistLib::DrawHistogramBGR`: the target image after the call.
`calcHist ImageBGR ch n` is the histogram of channel `ch` with `n` bins,
`maxVal Hist` the maximum that `minMaxLoc` finds, and `blue`, `green`, `red`
stand for `HIST_LIB_COLOR_BLUE`, `HIST_LIB_COLOR_GREEN`, `HIST_LIB_COLOR_RED`,
which the header defines. -/
def DrawHistogramBGR {α : Type} (cvRound : Dbl → ℤ)
    (line : Mat → Point → Point → Scalar → ℤ → Mat)
    (putText : Mat → String → Point → Scalar → Mat)
    (calcHist : α → ℕ → ℕ → HistMat) (maxVal : HistMat → Dbl)
    (blue green red : Scalar) (self : CHistLib) (ImageBGR : α) (ImageHist : Mat) : Mat :=
  let HistB := calcHist ImageBGR 0 self.mBinCount
  let HistG := calcHist ImageBGR 1 self.mBinCount
  let HistR := calcHist ImageBGR 2 self.mBinCount
  let maxB := maxVal HistB
  let maxG := maxVal HistG
  let maxR := maxVal HistR
  let maxBGR := Dbl.stdMax maxB (Dbl.stdMax maxG maxR)
  let ImageHist1 := DrawHistogram cvRound line putText self
    (scaleHist self maxBGR HistB.rows HistB) ImageHist blue
  let ImageHist2 := DrawHistogram cvRound line putText self
    (scaleHist self maxBGR HistB.rows HistG) ImageHist1 green
  DrawHistogram cvRound line putText self
    (scaleHist self maxBGR HistB.rows HistR) ImageHist2 red

/-! ## Sequences of setter calls -/

/-- One call of a setter of `CHistLib` with its argument. -/
inductive SetterCall where
  | SetHistImageHeight (HistImageHeight : ℕ)
  | SetBinCount (BinCount : ℕ)
  | SetPlotColor (Color : Scalar)
  | SetAxisColor (Color : Scalar)
  | SetBackgroundColor (Color : Scalar)

/-- The configuration after one setter call. -/
def CHistLib.call (self : CHistLib) : SetterCall → CHistLib
  | .SetHistImageHeight n => self.SetHistImageHeight n
  | .SetBinCount n => self.SetBinCount n
  | .SetPlotColor c => self.SetPlotColor c
  | .SetAxisColor c => self.SetAxisColor c
  | .SetBackgroundColor c => self.SetBackgroundColor c

/-- The configuration after a sequence of setter calls, first call first. -/
def CHistLib.calls (self : CHistLib) (cs : List SetterCall) : CHistLib :=
  cs.foldl CHistLib.call self

/-! ## Properties used in the statements -/

/-- What the statements below assume of the image library's `cvRound`: on a
double within the range of `int` it returns an integer nearest to it (whatever
it does with halves).  Nothing is assumed of its result on NaN, an infinity or
a double beyond the range of `int`. -/
def CvRoundNearest (cvRound : Dbl → ℤ) : Prop :=
  ∀ q : ℚ, -2147483648 ≤ q → q ≤ 2147483647 → |(cvRound (.fin q) : ℚ) - q| ≤ 1 / 2

/-- Modelled from the spec: `cvRound`, the image library's rounding, which the
spec describes as "rounded to nearest integer (round-half-away-from-zero)".
The spec does not say what it yields for NaN, an infinity or a value beyond
the range of `int`; this instance yields `INT_MIN` there. -/
def cvRoundHalfAway : Dbl → ℤ
  | .fin q =>
      if -2147483648 ≤ q ∧ q ≤ 2147483647 then
        (if 0 ≤ q then ⌊q + 1 / 2⌋ else -⌊-q + 1 / 2⌋)
      else -2147483648
  | _ => -2147483648

/-- The value channel of `img` has minimum `m` and maximum `M`. -/
def ValueRange (img : List PixelHSV) (m M : Fin 256) : Prop :=
  (∀ p ∈ img, m ≤ p.v ∧ p.v ≤ M) ∧ (∃ p ∈ img, p.v = m) ∧ (∃ p ∈ img, p.v = M)

/-- The histogram with the `L` values `vals 0, ..., vals (L - 1)` stored as a
`1 x L` row vector. -/
def HistMat.rowVector (type : MatType) (L : ℕ) (valsReal : ℕ → Dbl) (valsInt : ℕ → ℤ) :
    HistMat :=
  { rows := 1, cols := L, type := type,
    atReal := fun _ c => valsReal c, atInt := fun _ c => valsInt c }

/-- The histogram with the `L` values `vals 0, ..., vals (L - 1)` stored as an
`L x 1` column vector. -/
def HistMat.colVector (type : MatType) (L : ℕ) (valsReal : ℕ → Dbl) (valsInt : ℕ → ℤ) :
    HistMat :=
  { rows := L, cols := 1, type := type,
    atReal := fun r _ => valsReal r, atInt := fun r _ => valsInt r }

/-- The `float` or `double` value of bin `i` of a histogram vector:
`Hist.at(0, i)` in a row vector, `Hist.at(i, 0)` in a column vector. -/
def HistMat.binReal (Hist : HistMat) (i : ℕ) : Dbl :=
  if Hist.rows = 1 then Hist.atReal 0 i else Hist.atReal i 0

/-- The `int` value of bin `i` of a histogram vector. -/
def HistMat.binInt (Hist : HistMat) (i : ℕ) : ℤ :=
  if Hist.rows = 1 then Hist.atInt 0 i else Hist.atInt i 0

/-- The target as `DrawHistogram` has it after `create` and `setTo` for a
histogram of length `L`: `2 * border + height` rows, `2 * border + 3 * L`
columns, every element the background colour. -/
def CHistLib.canvas (self : CHistLib) (L : ℕ) : Mat :=
  { rows := (2 * self.mHistImageBorder + self.mHistImageHeight) % 4294967296,
    cols := (2 * self.mHistImageBorder + 3 * L) % 4294967296,
    type := .CV_8UC3,
    data := fun _ _ => self.mHistBackgroundColor }

/-! ## Concrete inputs -/

/-- An image of six pixels: two of value 255 and four of value 253. -/
def topHeavyImage : List PixelHSV :=
  [⟨0, 0, 255⟩, ⟨0, 0, 255⟩, ⟨0, 0, 253⟩, ⟨0, 0, 253⟩, ⟨0, 0, 253⟩, ⟨0, 0, 253⟩]

/-- The 256-bucket histogram of `topHeavyImage`: `bins[253] = 4`, `bins[255] = 2`. -/
def topHeavyBins : List ℕ := List.replicate 253 0 ++ [4, 0, 2]

/-- A 256-bucket histogram with `bins[0] = 1`, `bins[3] = 2`, `bins[7] = 5`. -/
def sampleBins : List ℕ := [1, 0, 0, 2, 0, 0, 0, 5] ++ List.replicate 248 0

/-- An image of two pixels, both of value 128. -/
def flatImage : List PixelHSV := [⟨0, 0, 128⟩, ⟨1, 2, 128⟩]

/-- An image of three pixels whose values span 50 .. 200. -/
def midImage : List PixelHSV := [⟨10, 20, 50⟩, ⟨30, 40, 125⟩, ⟨50, 60, 200⟩]

/-- An image of three pixels whose values span 0 .. 255. -/
def fullImage : List PixelHSV := [⟨10, 20, 0⟩, ⟨30, 40, 128⟩, ⟨50, 60, 255⟩]

/-- The colour with all four components zero. -/
def zeroScalar : Scalar := ⟨.fin 0, .fin 0, .fin 0, .fin 0⟩

/-- An empty target image. -/
def emptyMat : Mat := { rows := 0, cols := 0, type := .other 0, data := fun _ _ => zeroScalar }

/-- A `1 x 1` histogram of doubles. -/
def oneByOneHist : HistMat :=
  { rows := 1, cols := 1, type := .CV_64F, atReal := fun _ _ => .fin 5, atInt := fun _ _ => 0 }

/-- A `1 x 2` histogram whose element type is not a supported one. -/
def byteHist : HistMat :=
  { rows := 1, cols := 2, type := .other 0, atReal := fun _ _ => .fin 5, atInt := fun _ _ => 5 }

/-- A `2 x 1` histogram of `int` values: bin 0 holds 5, bin 1 holds 0. -/
def fiveZeroHist : HistMat :=
  HistMat.colVector .CV_32S 2 (fun _ => .fin 0) (fun i => if i = 0 then 5 else 0)

/-- A `1 x 3` histogram of `float` values, all zero. -/
def zeroHist : HistMat := HistMat.rowVector .CV_32F 3 (fun _ => .fin 0) (fun _ => 0)

/-- A stand-in for `calcHist` on a four-pixel image whose pixels all have the
value `ch` in channel `ch`: the four counts of channel `ch` fall into bin `ch`
of an `n x 1` histogram of floats. -/
def constCalcHist (_ : Unit) (ch n : ℕ) : HistMat :=
  HistMat.colVector .CV_32F n (fun i => if i = ch then .fin ((4 : ℕ) : ℚ) else .fin ((0 : ℕ) : ℚ))
    (fun _ => 0)

/-- The maximum that `minMaxLoc` finds in each histogram of `constCalcHist`. -/
def constMaxVal (_ : HistMat) : Dbl := .fin ((4 : ℕ) : ℚ)

/-- A stand-in for `cv::line` where a concrete function is needed: it returns
the image as it is. -/
def idLine (img : Mat) (_ _ : Point) (_ : Scalar) (_ : ℤ) : Mat := img

/-- A stand-in for `cv::putText` where a concrete function is needed: it
returns the image as it is. -/
def idText (img : Mat) (_ : String) (_ : Point) (_ : Scalar) : Mat := img

/-- The colour white: 255 in the three colour components. -/
def whiteScalar : Scalar := ⟨.fin 255, .fin 255, .fin 255, .fin 0⟩

/-- A `2 x 1` histogram of `float` values: bin 0 holds 4.75, bin 1 holds 0.25. -/
def quarterHist : HistMat :=
  HistMat.colVector .CV_32F 2 (fun i => if i = 0 then .fin (19 / 4) else .fin (1 / 4))
    (fun _ => 0)

/-- A stand-in for `cv::line` where a concrete function that leaves a trace is
needed: for a vertical or a horizontal segment it writes the colour to the
elements between the two end points, end points included, and it leaves any
other segment undrawn.  The image is addressed as `data row column`, a point as
`(x, y) = (column, row)`. -/
def paintLine (img : Mat) (p q : Point) (color : Scalar) (_ : ℤ) : Mat :=
  { img with
    data := fun row col =>
      if (p.x = q.x ∧ (col : ℤ) = p.x ∧ min p.y q.y ≤ (row : ℤ) ∧ (row : ℤ) ≤ max p.y q.y) ∨
          (p.y = q.y ∧ (row : ℤ) = p.y ∧ min p.x q.x ≤ (col : ℤ) ∧ (col : ℤ) ≤ max p.x q.x)
      then color else img.data row col }

/-! ## Rounding lemmas -/

theorem roundTiesEven_near (x : ℚ) : |(roundTiesEven x : ℚ) - x| ≤ 1 / 2 := by
  have h1 := Int.floor_le x
  have h2 := Int.lt_floor_add_one x
  unfold roundTiesEven
  rw [abs_le]
  split_ifs <;> push_cast <;> constructor <;> linarith

theorem roundTiesEven_intCast (n : ℤ) : roundTiesEven (n : ℚ) = n := by
  unfold roundTiesEven
  simp

theorem ulp_pos (x : ℚ) : 0 < ulp x := by
  unfold ulp
  positivity

theorem log_abs_lt {x : ℚ} {k : ℤ} (hk : 0 < k) (h : |x| < 2 ^ k) : Int.log 2 |x| < k := by
  rcases eq_or_ne x 0 with rfl | hx
  · simpa using hk
  · have hpos : 0 < |x| := abs_pos.mpr hx
    rw [← Int.lt_zpow_iff_log_lt (by norm_num) hpos]
    exact_mod_cast h

/-- A rational below `2 ^ 17` in absolute value rounds to a finite double within
`2 ^ (-37)` of it. -/
theorem fl_near (x : ℚ) (h : |x| < 2 ^ (17 : ℤ)) :
    ∃ r : ℚ, fl x = .fin r ∧ |r - x| ≤ 1 / 2 ^ 37 := by
  have hu := ulp_pos x
  have hlog : Int.log 2 |x| < 17 := log_abs_lt (by norm_num) h
  have hule : ulp x ≤ 1 / 2 ^ 36 := by
    unfold ulp
    have : max (Int.log 2 |x|) (-1022) - 52 ≤ -36 := by omega
    calc (2 : ℚ) ^ (max (Int.log 2 |x|) (-1022) - 52) ≤ 2 ^ (-36 : ℤ) :=
          zpow_le_zpow_right₀ (by norm_num) this
      _ = 1 / 2 ^ 36 := by norm_num
  have hr := roundTiesEven_near (x / ulp x)
  have hdiff : |(roundTiesEven (x / ulp x) : ℚ) * ulp x - x| ≤ 1 / 2 ^ 37 := by
    have e : (roundTiesEven (x / ulp x) : ℚ) * ulp x - x
        = ((roundTiesEven (x / ulp x) : ℚ) - x / ulp x) * ulp x := by
      field_simp
    rw [e, abs_mul, abs_of_pos hu]
    calc |(roundTiesEven (x / ulp x) : ℚ) - x / ulp x| * ulp x
        ≤ 1 / 2 * (1 / 2 ^ 36) := mul_le_mul hr hule hu.le (by norm_num)
      _ = 1 / 2 ^ 37 := by norm_num
  refine ⟨(roundTiesEven (x / ulp x) : ℚ) * ulp x, ?_, hdiff⟩
  unfold fl
  have hsmall : ¬ (2 : ℚ) ^ 1024 ≤ |(roundTiesEven (x / ulp x) : ℚ) * ulp x| := by
    have h17 : |x| < 131072 := by
      have : (2 : ℚ) ^ (17 : ℤ) = 131072 := by norm_num
      rwa [this] at h
    have h3 : |(roundTiesEven (x / ulp x) : ℚ) * ulp x| ≤ 131073 := by
      have := abs_sub_abs_le_abs_sub ((roundTiesEven (x / ulp x) : ℚ) * ulp x) x
      have h37 : (1 : ℚ) / 2 ^ 37 ≤ 1 := by norm_num
      linarith
    have h4 : (131073 : ℚ) < 2 ^ 1024 := by norm_num
    linarith
  simp only [hsmall, if_false]

/-- An integer below `2 ^ 53` in absolute value is a double. -/
theorem fl_intCast (n : ℤ) (h : |n| < 2 ^ 53) : fl (n : ℚ) = .fin n := by
  have key : (roundTiesEven ((n : ℚ) / ulp n) : ℚ) * ulp n = n := by
    rcases eq_or_ne n 0 with rfl | hn
    · have := roundTiesEven_intCast 0
      simp only [Int.cast_zero] at this
      simp [this]
    · have hpos : (0 : ℚ) < |(n : ℚ)| := abs_pos.mpr (by exact_mod_cast hn)
      have h1 : (1 : ℚ) ≤ |(n : ℚ)| := by
        have : (1 : ℤ) ≤ |n| := Int.one_le_abs hn
        exact_mod_cast this
      have hlo : 0 ≤ Int.log 2 |(n : ℚ)| := by
        rw [← Int.zpow_le_iff_le_log (by norm_num) hpos]
        simpa using h1
      have hhi : Int.log 2 |(n : ℚ)| < 53 := by
        apply log_abs_lt (by norm_num)
        have h2 : |(n : ℚ)| < 2 ^ (53 : ℕ) := by exact_mod_cast h
        exact_mod_cast h2
      obtain ⟨k, hk⟩ : ∃ k : ℕ, Int.log 2 |(n : ℚ)| = 52 - k :=
        ⟨(52 - Int.log 2 |(n : ℚ)|).toNat, by omega⟩
      have hulp : ulp n = 1 / 2 ^ k := by
        unfold ulp
        have : max (Int.log 2 |(n : ℚ)|) (-1022) - 52 = -(k : ℤ) := by omega
        rw [this, zpow_neg, zpow_natCast, one_div]
      have hk0 : (2 : ℚ) ^ k ≠ 0 := by positivity
      have hq : (n : ℚ) / ulp n = ((n * 2 ^ k : ℤ) : ℚ) := by
        rw [hulp]; push_cast; field_simp
      rw [hq, roundTiesEven_intCast, hulp]
      push_cast
      field_simp
  unfold fl
  simp only [key]
  have hsmall : ¬ (2 : ℚ) ^ 1024 ≤ |(n : ℚ)| := by
    have h2 : |(n : ℚ)| < 2 ^ 53 := by exact_mod_cast h
    have h4 : (2 : ℚ) ^ 53 < 2 ^ 1024 := by norm_num
    linarith
  simp only [hsmall, if_false]

/-! ## Two checks of the rounding model -/

/-- The model of rounding agrees with binary64 at one tenth, whose double is
`3602879701896397 / 2 ^ 55`. -/
theorem fl_one_tenth : fl (1 / 10) = .fin (3602879701896397 / 36028797018963968) := by
  have hlog : Int.log 2 |(1 / 10 : ℚ)| = -4 := by
    have hpos : (0 : ℚ) < |(1 / 10 : ℚ)| := by norm_num
    apply le_antisymm
    · have : Int.log 2 |(1 / 10 : ℚ)| < -3 := by
        rw [← Int.lt_zpow_iff_log_lt (by norm_num) hpos]
        norm_num [abs_of_pos]
      omega
    · rw [← Int.zpow_le_iff_le_log (by norm_num) hpos]
      norm_num [abs_of_pos]
  have hulp : ulp (1 / 10) = 1 / 72057594037927936 := by
    unfold ulp
    rw [hlog]
    norm_num
  have hround : roundTiesEven ((1 / 10 : ℚ) / (1 / 72057594037927936)) = 7205759403792794 := by
    have hfloor : ⌊((1 / 10 : ℚ) / (1 / 72057594037927936))⌋ = 7205759403792793 := by
      rw [Int.floor_eq_iff]
      constructor <;> norm_num
    unfold roundTiesEven
    rw [hfloor]
    norm_num
  have hsmall : ¬ (2 : ℚ) ^ 1024
      ≤ |((7205759403792794 : ℤ) : ℚ) * (1 / 72057594037927936)| := by
    rw [abs_of_pos (by norm_num)]
    norm_num
  unfold fl
  simp only [hulp, hround, hsmall, if_false]
  norm_num

/-- The model of rounding resolves a tie to the even neighbour, as binary64
does: `2 ^ 53 + 1` rounds to `2 ^ 53`. -/
theorem fl_tie_to_even : fl 9007199254740993 = .fin 9007199254740992 := by
  have hlog : Int.log 2 |(9007199254740993 : ℚ)| = 53 := by
    have hpos : (0 : ℚ) < |(9007199254740993 : ℚ)| := by norm_num
    apply le_antisymm
    · have : Int.log 2 |(9007199254740993 : ℚ)| < 54 := by
        rw [← Int.lt_zpow_iff_log_lt (by norm_num) hpos]
        norm_num [abs_of_pos]
      omega
    · rw [← Int.zpow_le_iff_le_log (by norm_num) hpos]
      norm_num [abs_of_pos]
  have hulp : ulp 9007199254740993 = 2 := by
    unfold ulp
    rw [hlog]
    norm_num
  have hround : roundTiesEven ((9007199254740993 : ℚ) / 2) = 4503599627370496 := by
    have hfloor : ⌊((9007199254740993 : ℚ) / 2)⌋ = 4503599627370496 := by
      rw [Int.floor_eq_iff]
      constructor <;> norm_num
    unfold roundTiesEven
    rw [hfloor]
    norm_num
  have hsmall : ¬ (2 : ℚ) ^ 1024 ≤ |((4503599627370496 : ℤ) : ℚ) * 2| := by
    rw [abs_of_pos (by norm_num)]
    norm_num
  unfold fl
  simp only [hulp, hround, hsmall, if_false]
  norm_num

theorem cvRoundHalfAway_nearest : CvRoundNearest cvRoundHalfAway := by
  intro q h1 h2
  have hc : (-2147483648 ≤ q ∧ q ≤ 2147483647) := ⟨h1, h2⟩
  simp only [cvRoundHalfAway, hc, and_self, if_true]
  rw [abs_le]
  split_ifs with h0
  · have a := Int.floor_le (q + 1 / 2)
    have b := Int.lt_floor_add_one (q + 1 / 2)
    constructor <;> linarith
  · have a := Int.floor_le (-q + 1 / 2)
    have b := Int.lt_floor_add_one (-q + 1 / 2)
    push_cast
    constructor <;> linarith

/-- An integer within half a unit of an integer is that integer. -/
theorem int_eq_of_abs_sub_le_half {a b : ℤ} (h : |(a : ℚ) - b| ≤ 1 / 2) : a = b := by
  rw [abs_le] at h
  have h1 : (b : ℚ) - 1 < a := by linarith
  have h2 : (a : ℚ) < b + 1 := by linarith
  have h1' : b - 1 < a := by exact_mod_cast h1
  have h2' : a < b + 1 := by exact_mod_cast h2
  omega

theorem toUChar_of_range {c : ℤ} (h0 : 0 ≤ c) (h1 : c ≤ 255) : ((toUChar c).val : ℤ) = c := by
  simp only [toUChar]
  omega

/-- The double computed for a pixel `k = v - min` above the minimum when the
range is `d = max - min`, `0 ≤ k ≤ d ≤ 255`, `0 < d`: finite and within
`2 ^ (-29)` of `255 k / d`. -/
theorem scaled_near (k d : ℤ) (hk0 : 0 ≤ k) (hkd : k ≤ d) (hd0 : 0 < d) (hd : d ≤ 255) :
    ∃ p : ℚ, Dbl.mul (.fin k) (Dbl.div (.fin 255) (Dbl.ofInt d)) = .fin p ∧
      |p - 255 * k / d| ≤ 1 / 2 ^ 29 := by
  have hdq : (0 : ℚ) < d := by exact_mod_cast hd0
  have hdne : (d : ℚ) ≠ 0 := hdq.ne'
  have hd1 : (1 : ℚ) ≤ d := by exact_mod_cast hd0
  have hkq0 : (0 : ℚ) ≤ k := by exact_mod_cast hk0
  have hkq : (k : ℚ) ≤ 255 := by
    have : k ≤ 255 := le_trans hkd hd
    exact_mod_cast this
  have hquot : (0 : ℚ) ≤ 255 / d ∧ (255 : ℚ) / d ≤ 255 := by
    constructor
    · positivity
    · rw [div_le_iff₀ hdq]; nlinarith
  obtain ⟨q, hq, hqe⟩ := fl_near (255 / d) (by
    rw [abs_of_nonneg hquot.1]
    have : (2 : ℚ) ^ (17 : ℤ) = 131072 := by norm_num
    rw [this]; linarith [hquot.2])
  rw [abs_le] at hqe
  have h37 : (1 : ℚ) / 2 ^ 37 ≤ 1 := by norm_num
  have hkq_lo : -(1 : ℚ) ≤ k * q := by nlinarith
  have hkq_hi : k * q ≤ 65536 := by nlinarith
  obtain ⟨p, hp, hpe⟩ := fl_near (k * q) (by
    have : (2 : ℚ) ^ (17 : ℤ) = 131072 := by norm_num
    rw [this, abs_lt]; constructor <;> linarith)
  refine ⟨p, ?_, ?_⟩
  · simp only [Dbl.div, Dbl.ofInt, hdne, if_false, hq, Dbl.mul, hp]
  · rw [abs_le] at hpe ⊢
    have e : (255 : ℚ) * k / d = k * (255 / d) := by ring
    have e29 : (1 : ℚ) / 2 ^ 29 = 256 * (1 / 2 ^ 37) := by norm_num
    rw [e, e29]
    constructor <;> nlinarith

theorem sub_ofInt_small (a b : ℤ) (h : |a - b| < 2 ^ 53) :
    Dbl.sub (Dbl.ofInt a) (Dbl.ofInt b) = .fin ((a - b : ℤ) : ℚ) := by
  have := fl_intCast (a - b) h
  simp only [Dbl.sub, Dbl.ofInt]
  rw [← this]
  push_cast
  rfl

/-- The remap of a value `v` between the bounds `m < M` is a nearest integer to
`(v - m) * 255 / (M - m)`. -/
theorem remapValue_near (cvRound : Dbl → ℤ) (hr : CvRoundNearest cvRound) (v m M : Fin 256)
    (hmv : m ≤ v) (hvM : v ≤ M) (hmM : m < M) :
    |((remapValue cvRound v (m.val : ℤ) ((M.val : ℤ) - (m.val : ℤ))).val : ℚ)
        - ((v.val : ℚ) - m.val) * 255 / ((M.val : ℚ) - m.val)| ≤ 1 / 2 := by
  have hv := v.isLt
  have hM := M.isLt
  have hmv' : m.val ≤ v.val := hmv
  have hvM' : v.val ≤ M.val := hvM
  have hmM' : m.val < M.val := hmM
  obtain ⟨k, hk⟩ : ∃ k : ℤ, k = (v.val : ℤ) - m.val := ⟨_, rfl⟩
  obtain ⟨d, hd⟩ : ∃ d : ℤ, d = (M.val : ℤ) - m.val := ⟨_, rfl⟩
  have hk0 : 0 ≤ k := by omega
  have hkd : k ≤ d := by omega
  have hd0 : 0 < d := by omega
  have hd255 : d ≤ 255 := by omega
  have hsub : Dbl.sub (Dbl.ofInt (v.val : ℤ)) (Dbl.ofInt (m.val : ℤ)) = .fin (k : ℚ) := by
    rw [sub_ofInt_small _ _ (by rw [abs_lt]; constructor <;> omega), hk]
  obtain ⟨p, hp, hpe⟩ := scaled_near k d hk0 hkd hd0 hd255
  have hdq : (0 : ℚ) < d := by exact_mod_cast hd0
  have hkq0 : (0 : ℚ) ≤ k := by exact_mod_cast hk0
  have hkqd : (k : ℚ) ≤ d := by exact_mod_cast hkd
  have hx0 : (0 : ℚ) ≤ 255 * k / d := by positivity
  have hx1 : (255 : ℚ) * k / d ≤ 255 := by
    rw [div_le_iff₀ hdq]; nlinarith
  have e29 : (1 : ℚ) / 2 ^ 29 ≤ 1 / 2 := by norm_num
  have etarget : ((v.val : ℚ) - m.val) * 255 / ((M.val : ℚ) - m.val) = 255 * k / d := by
    rw [hk, hd]; push_cast; ring
  rw [etarget]
  simp only [remapValue, hsub, ← hd, hp, Dbl.gt, Dbl.lt, decide_eq_true_eq]
  rw [abs_le] at hpe
  split_ifs with h1 h2
  · -- positive clipping
    have : ((255 : Fin 256).val : ℚ) = 255 := by
      have h : (255 : Fin 256).val = 255 := rfl
      rw [h]; norm_num
    rw [this, abs_le]; constructor <;> linarith
  · -- negative clipping
    have : ((0 : Fin 256).val : ℚ) = 0 := by
      have h : (0 : Fin 256).val = 0 := rfl
      rw [h]; norm_num
    rw [this, abs_le]; constructor <;> linarith
  · -- no clipping
    have hp0 : 0 ≤ p := not_lt.mp h2
    have hp255 : p ≤ 255 := not_lt.mp h1
    have hc := hr p (by linarith) (by linarith)
    rw [abs_le] at hc
    have hc0 : 0 ≤ cvRound (.fin p) := by
      have : (-1 : ℚ) < cvRound (.fin p) := by linarith
      have : (-1 : ℤ) < cvRound (.fin p) := by exact_mod_cast this
      omega
    have hc255 : cvRound (.fin p) ≤ 255 := by
      have : (cvRound (.fin p) : ℚ) < 256 := by linarith
      have : cvRound (.fin p) < 256 := by exact_mod_cast this
      omega
    have hval : (((toUChar (cvRound (.fin p))).val : ℤ) : ℚ) = (cvRound (.fin p) : ℚ) := by
      rw [toUChar_of_range hc0 hc255]
    have hval' : ((toUChar (cvRound (.fin p))).val : ℚ) = (cvRound (.fin p) : ℚ) := by
      rw [← hval]; push_cast; rfl
    rw [hval']
    obtain ⟨c, hcdef⟩ : ∃ c : ℤ, c = cvRound (.fin p) := ⟨_, rfl⟩
    rw [← hcdef] at hc ⊢
    -- |c - 255 k / d| ≤ 1/2 + 2^-29, and 2 (c d - 255 k) is an integer
    have hdq255 : (d : ℚ) ≤ 255 := by exact_mod_cast hd255
    have hx : (255 : ℚ) * k / d * d = 255 * k := by field_simp
    have hup : (2 * (c * d - 255 * k) : ℚ) < d + 1 := by
      have : (c : ℚ) - 255 * k / d ≤ 1 / 2 + 1 / 2 ^ 29 := by linarith
      have h3 := mul_le_mul_of_nonneg_right this hdq.le
      have h4 : (1 : ℚ) / 2 ^ 29 * d < 1 / 2 := by
        have : (1 : ℚ) / 2 ^ 29 * d ≤ 1 / 2 ^ 29 * 255 := by
          apply mul_le_mul_of_nonneg_left hdq255; norm_num
        have : (1 : ℚ) / 2 ^ 29 * 255 < 1 / 2 := by norm_num
        linarith
      nlinarith
    have hlo : (-(d : ℚ) - 1) < (2 * (c * d - 255 * k) : ℚ) := by
      have : -(1 / 2 + 1 / 2 ^ 29 : ℚ) ≤ (c : ℚ) - 255 * k / d := by linarith
      have h3 := mul_le_mul_of_nonneg_right this hdq.le
      have h4 : (1 : ℚ) / 2 ^ 29 * d < 1 / 2 := by
        have : (1 : ℚ) / 2 ^ 29 * d ≤ 1 / 2 ^ 29 * 255 := by
          apply mul_le_mul_of_nonneg_left hdq255; norm_num
        have : (1 : ℚ) / 2 ^ 29 * 255 < 1 / 2 := by norm_num
        linarith
      nlinarith
    have hupZ : 2 * (c * d - 255 * k) < d + 1 := by exact_mod_cast hup
    have hloZ : -d - 1 < 2 * (c * d - 255 * k) := by exact_mod_cast hlo
    have hupZ' : 2 * (c * d - 255 * k) ≤ d := by omega
    have hloZ' : -d ≤ 2 * (c * d - 255 * k) := by omega
    have hupQ : (2 * (c * d - 255 * k) : ℚ) ≤ d := by exact_mod_cast hupZ'
    have hloQ : (-(d : ℚ)) ≤ (2 * (c * d - 255 * k) : ℚ) := by exact_mod_cast hloZ'
    have hmul : ((c : ℚ) - 255 * k / d) * d = c * d - 255 * k := by rw [sub_mul, hx]
    rw [abs_le]
    constructor
    · by_contra hneg
      have := mul_lt_mul_of_pos_right (not_le.mp hneg) hdq
      linarith
    · by_contra hneg
      have := mul_lt_mul_of_pos_right (not_le.mp hneg) hdq
      linarith

/-! ## The minimum/maximum loop -/

theorem findMinMax_eq (img : List PixelHSV) (m M : Fin 256) :
    ∀ a b : Fin 256, (∀ p ∈ img, m ≤ p.v ∧ p.v ≤ M) → m ≤ a → b ≤ M →
      ((∃ p ∈ img, p.v = m) ∨ a = m) → ((∃ p ∈ img, p.v = M) ∨ b = M) →
      findMinMax img (a, b) = (m, M) := by
  induction img with
  | nil =>
      intro a b _ _ _ h1 h2
      simp only [List.not_mem_nil, false_and, exists_false, false_or] at h1 h2
      simp [findMinMax, h1, h2]
  | cons p rest ih =>
      intro a b hall hma hbM h1 h2
      have hp := hall p (List.mem_cons_self _ _)
      have hrest : ∀ q ∈ rest, m ≤ q.v ∧ q.v ≤ M :=
        fun q hq => hall q (List.mem_cons_of_mem _ hq)
      simp only [findMinMax]
      apply ih _ _ hrest
      · split_ifs
        · exact hp.1
        · exact hma
      · split_ifs
        · exact hp.2
        · exact hbM
      · rcases h1 with ⟨q, hq, hqm⟩ | ha
        · rcases List.mem_cons.mp hq with rfl | hq'
          · right
            split_ifs with hlt
            · exact hqm
            · exact le_antisymm (hqm ▸ not_lt.mp hlt) hma
          · exact Or.inl ⟨q, hq', hqm⟩
        · right
          subst ha
          rw [if_neg (not_lt.mpr hp.1)]
      · rcases h2 with ⟨q, hq, hqM⟩ | hb
        · rcases List.mem_cons.mp hq with rfl | hq'
          · right
            split_ifs with hlt
            · exact hqM
            · exact le_antisymm hbM (hqM ▸ not_lt.mp hlt)
          · exact Or.inl ⟨q, hq', hqM⟩
        · right
          subst hb
          rw [if_neg (not_lt.mpr hp.2)]

/-- On an image whose value channel has minimum `m` and maximum `M`,
`NormalizeImageBGR` remaps every pixel with the bounds `m` and `M`. -/
theorem NormalizeImageBGR_eq_map (cvRound : Dbl → ℤ) (img : List PixelHSV) (m M : Fin 256)
    (hR : ValueRange img m M) :
    NormalizeImageBGR cvRound img
      = img.map (remapPixel cvRound (m.val : ℤ) ((M.val : ℤ) - (m.val : ℤ))) := by
  have h := findMinMax_eq img m M 255 0 hR.1 (Fin.le_last m) (Fin.zero_le M)
    (Or.inl hR.2.1) (Or.inl hR.2.2)
  simp only [NormalizeImageBGR, h]

theorem fin256_val_eq_of_near {w : Fin 256} {n : ℕ}
    (h : |(w.val : ℚ) - n| ≤ 1 / 2) : w.val = n := by
  have h' : |(((w.val : ℤ)) : ℚ) - ((n : ℤ) : ℚ)| ≤ 1 / 2 := by
    push_cast; exact h
  have := int_eq_of_abs_sub_le_half h'
  omega

/-- Pointwise description of `NormalizeImageBGR` on a non-degenerate image. -/
theorem normalize_pointwise (cvRound : Dbl → ℤ) (hr : CvRoundNearest cvRound)
    (img : List PixelHSV) (m M : Fin 256) (hR : ValueRange img m M) (hlt : m < M) :
    (NormalizeImageBGR cvRound img).length = img.length ∧
    ∀ (i : ℕ) (p : PixelHSV), img[i]? = some p →
      ∃ w : Fin 256, (NormalizeImageBGR cvRound img)[i]? = some ⟨p.h, p.s, w⟩ ∧
        w.val ≤ 255 ∧
        |(w.val : ℚ) - ((p.v.val : ℚ) - m.val) * 255 / ((M.val : ℚ) - m.val)| ≤ 1 / 2 ∧
        (p.v = m → w = 0) ∧ (p.v = M → w = 255) := by
  rw [NormalizeImageBGR_eq_map cvRound img m M hR]
  refine ⟨List.length_map _ _, ?_⟩
  intro i p hip
  have hmem : p ∈ img := List.getElem?_mem hip
  have hpr := hR.1 p hmem
  have hnear := remapValue_near cvRound hr p.v m M hpr.1 hpr.2 hlt
  have hMm : (0 : ℚ) < (M.val : ℚ) - m.val := by
    have : m.val < M.val := hlt
    have : (m.val : ℚ) < M.val := by exact_mod_cast this
    linarith
  refine ⟨remapValue cvRound p.v (m.val : ℤ) ((M.val : ℤ) - (m.val : ℤ)), ?_, ?_, hnear, ?_, ?_⟩
  · simp [List.getElem?_map, hip, remapPixel]
  · have := (remapValue cvRound p.v (m.val : ℤ) ((M.val : ℤ) - (m.val : ℤ))).isLt
    omega
  · intro hv
    have e : ((p.v.val : ℚ) - m.val) * 255 / ((M.val : ℚ) - m.val) = ((0 : ℕ) : ℚ) := by
      rw [hv]; simp
    rw [e] at hnear
    exact Fin.ext (fin256_val_eq_of_near hnear)
  · intro hv
    have e : ((p.v.val : ℚ) - m.val) * 255 / ((M.val : ℚ) - m.val) = ((255 : ℕ) : ℚ) := by
      rw [hv]; field_simp
    rw [e] at hnear
    exact Fin.ext (fin256_val_eq_of_near hnear)

/-! ## Degenerate and full-range bounds -/

/-- With `max - min = 0` the scale factor is `255 / 0 = +inf`; for a pixel at
the minimum the product is `0 * inf`, NaN, which passes both clipping tests and
reaches `cvRound`. -/
theorem remapValue_zero_range (cvRound : Dbl → ℤ) (v : Fin 256) :
    remapValue cvRound v (v.val : ℤ) 0 = toUChar (cvRound .nan) := by
  have hsub : Dbl.sub (Dbl.ofInt (v.val : ℤ)) (Dbl.ofInt (v.val : ℤ)) = .fin 0 := by
    rw [sub_ofInt_small _ _ (by simp)]
    simp
  have hdiv : Dbl.div (.fin 255) (Dbl.ofInt 0) = .pinf := by
    simp [Dbl.div, Dbl.ofInt]
  have hmul : Dbl.mul (.fin 0) .pinf = .nan := by simp [Dbl.mul]
  simp only [remapValue, hsub, hdiv, hmul]
  simp [Dbl.gt, Dbl.lt]

theorem valueRange_of_constant (img : List PixelHSV) (c : Fin 256) (hne : img ≠ [])
    (hc : ∀ p ∈ img, p.v = c) : ValueRange img c c := by
  obtain ⟨p, hp⟩ := List.exists_mem_of_ne_nil img hne
  refine ⟨fun q hq => ?_, ⟨p, hp, hc p hp⟩, ⟨p, hp, hc p hp⟩⟩
  rw [hc q hq]
  exact ⟨le_refl _, le_refl _⟩

/-- On a non-empty image with constant value channel every value byte becomes
the byte of `cvRound (NaN)`. -/
theorem normalize_constant (cvRound : Dbl → ℤ) (img : List PixelHSV) (c : Fin 256)
    (hne : img ≠ []) (hc : ∀ p ∈ img, p.v = c) :
    NormalizeImageBGR cvRound img
      = img.map (fun p => ⟨p.h, p.s, toUChar (cvRound .nan)⟩) := by
  rw [NormalizeImageBGR_eq_map cvRound img c c (valueRange_of_constant img c hne hc)]
  apply List.map_congr_left
  intro p hp
  have := remapValue_zero_range cvRound p.v
  rw [hc p hp] at this
  simp only [remapPixel, sub_self, hc p hp, this]

/-- With the bounds `0` and `255` the remap returns its argument. -/
theorem remapValue_full_range (cvRound : Dbl → ℤ) (hr : CvRoundNearest cvRound) (v : Fin 256) :
    remapValue cvRound v 0 255 = v := by
  have h := remapValue_near cvRound hr v 0 255 (Fin.zero_le v) (Fin.le_last v) (by decide)
  have e0 : ((0 : Fin 256).val : ℤ) = 0 := rfl
  have e255 : ((255 : Fin 256).val : ℤ) = 255 := rfl
  have e0q : ((0 : Fin 256).val : ℚ) = 0 := by
    have : (0 : Fin 256).val = 0 := rfl
    rw [this]; norm_num
  have e255q : ((255 : Fin 256).val : ℚ) = 255 := by
    have : (255 : Fin 256).val = 255 := rfl
    rw [this]; norm_num
  rw [e0, e255, e0q, e255q] at h
  have e : ((v.val : ℚ) - 0) * 255 / (255 - 0) = ((v.val : ℕ) : ℚ) := by
    field_simp
  have e2 : (255 : ℤ) - 0 = 255 := by norm_num
  rw [e, e2] at h
  exact Fin.ext (fin256_val_eq_of_near h)

theorem remapPixel_full_range (cvRound : Dbl → ℤ) (hr : CvRoundNearest cvRound) (p : PixelHSV) :
    remapPixel cvRound 0 255 p = p := by
  simp only [remapPixel, remapValue_full_range cvRound hr]

/-- `NormalizeImageBGR` returns an image spanning the whole range `0 .. 255`
unchanged. -/
theorem normalize_full_range (cvRound : Dbl → ℤ) (hr : CvRoundNearest cvRound)
    (img : List PixelHSV) (hR : ValueRange img 0 255) :
    NormalizeImageBGR cvRound img = img := by
  rw [NormalizeImageBGR_eq_map cvRound img 0 255 hR]
  have e0 : ((0 : Fin 256).val : ℤ) = 0 := rfl
  have e255 : ((255 : Fin 256).val : ℤ) = 255 := rfl
  rw [e0, e255]
  have e2 : (255 : ℤ) - 0 = 255 := by norm_num
  rw [e2]
  conv_rhs => rw [← List.map_id img]
  apply List.map_congr_left
  intro p _
  simp only [remapPixel_full_range cvRound hr, id]

/-! ## The histogram and the two scans -/

/-- With at least 256 buckets the histogram loop never indexes out of range, and
it keeps the number of buckets. -/
theorem countValues_some (img : List PixelHSV) :
    ∀ bins : List ℕ, 256 ≤ bins.length →
      ∃ out, countValues img bins = some out ∧ out.length = bins.length := by
  induction img with
  | nil => intro bins _; exact ⟨bins, rfl, rfl⟩
  | cons p rest ih =>
      intro bins hlen
      have hlt : p.v.val < bins.length := lt_of_lt_of_le p.v.isLt hlen
      have hget : bins[p.v.val]? = some bins[p.v.val] := List.getElem?_eq_getElem hlt
      obtain ⟨out, hout, hl⟩ :=
        ih (bins.set p.v.val ((bins[p.v.val] + 1) % 4294967296)) (by simpa using hlen)
      refine ⟨out, ?_, ?_⟩
      · simp only [countValues, hget, hout]
      · simpa using hl

/-- The lower scan returns `0` or an index it visited. -/
theorem lowerScan_range (bins : List ℕ) (half : ℕ) (hlen : bins.length = 256) :
    ∀ n i s, n + i = 255 →
      ∃ r, lowerScan bins half n i s = some r ∧ (r = 0 ∨ (i ≤ r ∧ r ≤ 254)) := by
  intro n
  induction n with
  | zero => intro i s _; exact ⟨0, rfl, Or.inl rfl⟩
  | succ n ih =>
      intro i s hi
      have hlt : i < bins.length := by omega
      have hget : bins[i]? = some bins[i] := List.getElem?_eq_getElem hlt
      simp only [lowerScan, hget]
      split_ifs with hgt
      · exact ⟨i, rfl, Or.inr ⟨le_refl _, by omega⟩⟩
      · obtain ⟨r, hr, hrr⟩ := ih (i + 1) ((s + bins[i]) % 4294967296) (by omega)
        refine ⟨r, hr, ?_⟩
        rcases hrr with h0 | h1
        · exact Or.inl h0
        · exact Or.inr ⟨by omega, h1.2⟩

/-- The upper scan returns the initial `max` or an index it visited. -/
theorem upperScan_range (bins : List ℕ) (half max0 : ℕ) (hlen : bins.length = 256) :
    ∀ n i s, i = n + 1 → i ≤ 255 →
      ∃ r, upperScan bins half max0 n i s = some r ∧ (r = max0 ∨ (2 ≤ r ∧ r ≤ i)) := by
  intro n
  induction n with
  | zero => intro i s _ _; exact ⟨max0, rfl, Or.inl rfl⟩
  | succ n ih =>
      intro i s hi hi255
      have hlt : i < bins.length := by omega
      have hget : bins[i]? = some bins[i] := List.getElem?_eq_getElem hlt
      simp only [upperScan, hget]
      split_ifs with hgt
      · exact ⟨i, rfl, Or.inr ⟨by omega, le_refl _⟩⟩
      · obtain ⟨r, hr, hrr⟩ := ih (i - 1) ((s + bins[i]) % 4294967296) (by omega) (by omega)
        refine ⟨r, hr, ?_⟩
        rcases hrr with h0 | h1
        · exact Or.inl h0
        · exact Or.inr ⟨h1.1, by omega⟩

theorem lowerBound_range (bins : List ℕ) (half : ℕ) (hlen : bins.length = 256) :
    ∃ r, lowerBound bins half = some r ∧ r ≤ 254 := by
  have hget : bins[0]? = some bins[0] := List.getElem?_eq_getElem (by omega)
  simp only [lowerBound, hget]
  split_ifs
  · obtain ⟨r, hr, hrr⟩ := lowerScan_range bins half hlen 254 1 bins[0] (by norm_num)
    exact ⟨r, hr, by omega⟩
  · exact ⟨0, rfl, by norm_num⟩

theorem upperBound_range (bins : List ℕ) (half : ℕ) (hlen : bins.length = 256) :
    ∃ r, upperBound bins half 255 = some r ∧ 2 ≤ r ∧ r ≤ 255 := by
  have hget : bins[255]? = some bins[255] := List.getElem?_eq_getElem (by omega)
  simp only [upperBound, hget]
  split_ifs
  · obtain ⟨r, hr, hrr⟩ :=
      upperScan_range bins half 255 hlen 254 255 bins[255] (by norm_num) (by norm_num)
    exact ⟨r, hr, by omega⟩
  · exact ⟨255, rfl, by norm_num, by norm_num⟩

/-- The bounds of `NormalizeClipImageBGR` with 256 buckets, put together from
the histogram, the threshold and the two scans. -/
theorem clipBounds_of_parts (cvRound : Dbl → ℤ) (img : List PixelHSV) (clipPercent : Dbl)
    (bins : List ℕ) (half mn mx : ℕ)
    (hb : countValues img (List.replicate 256 0) = some bins)
    (hh : pixelsToClipHalf cvRound img.length clipPercent = half)
    (hl : lowerBound bins half = some mn) (hu : upperBound bins half 255 = some mx) :
    clipBounds cvRound 256 img clipPercent = some (mn, mx) := by
  have e : (256 + 4294967295) % 4294967296 = 255 := by norm_num
  simp only [clipBounds, hb, hh, hl, e, hu]

/-- With 256 buckets `NormalizeClipImageBGR` always arrives at bounds, with
`min ≤ 254` and `2 ≤ max ≤ 255`. -/
theorem clipBounds_range (cvRound : Dbl → ℤ) (img : List PixelHSV) (clipPercent : Dbl) :
    ∃ mn mx, clipBounds cvRound 256 img clipPercent = some (mn, mx) ∧
      mn ≤ 254 ∧ 2 ≤ mx ∧ mx ≤ 255 := by
  obtain ⟨bins, hb, hl⟩ :=
    countValues_some img (List.replicate 256 0) (by rw [List.length_replicate])
  have hlen : bins.length = 256 := hl.trans (List.length_replicate _ _)
  obtain ⟨mn, hmn, hmn'⟩ :=
    lowerBound_range bins (pixelsToClipHalf cvRound img.length clipPercent) hlen
  obtain ⟨mx, hmx, hmx'⟩ :=
    upperBound_range bins (pixelsToClipHalf cvRound img.length clipPercent) hlen
  exact ⟨mn, mx, clipBounds_of_parts cvRound img clipPercent bins _ mn mx hb rfl hmn hmx,
    hmn', hmx'⟩

theorem sum_take_le (bins : List ℕ) (i : ℕ) : (bins.take i).sum ≤ bins.sum := by
  have := List.sum_take_add_sum_drop bins i
  omega

theorem lowerScan_least (bins : List ℕ) (half : ℕ) (hlen : bins.length = 256)
    (hsum : bins.sum < 4294967296) :
    ∀ n i s, n + i = 255 → 1 ≤ i → s = (bins.take i).sum →
      (∀ j, 1 ≤ j → j < i → ¬ half < (bins.take (j + 1)).sum) →
      ∃ r, lowerScan bins half n i s = some r ∧
        ((∀ j, 1 ≤ j → j ≤ 254 → ¬ half < (bins.take (j + 1)).sum) → r = 0) ∧
        (∀ t, 1 ≤ t → t ≤ 254 → half < (bins.take (t + 1)).sum →
          (∀ j, 1 ≤ j → j < t → ¬ half < (bins.take (j + 1)).sum) → r = t) := by
  intro n
  induction n with
  | zero =>
      intro i s hi _ _ hinv
      refine ⟨0, rfl, fun _ => rfl, ?_⟩
      intro t ht1 ht254 hgt _
      exact absurd hgt (hinv t ht1 (by omega))
  | succ n ih =>
      intro i s hi hi1 hs hinv
      have hlt : i < bins.length := by omega
      have hget : bins[i]? = some bins[i] := List.getElem?_eq_getElem hlt
      have hstep : (bins.take (i + 1)).sum = s + bins[i] := by
        rw [List.sum_take_succ bins i hlt, hs]
      have hmod : (s + bins[i]) % 4294967296 = (bins.take (i + 1)).sum := by
        rw [← hstep]
        exact Nat.mod_eq_of_lt (lt_of_le_of_lt (sum_take_le bins (i + 1)) hsum)
      simp only [lowerScan, hget, hmod]
      split_ifs with hgt
      · refine ⟨i, rfl, ?_, ?_⟩
        · intro hnone
          exact absurd hgt (hnone i hi1 (by omega))
        · intro t ht1 _ htgt htmin
          rcases Nat.lt_trichotomy t i with h | h | h
          · exact absurd htgt (hinv t ht1 h)
          · exact h.symm
          · exact absurd hgt (htmin i hi1 h)
      · apply ih (i + 1) _ (by omega) (by omega) rfl
        intro j hj1 hji
        rcases Nat.lt_or_ge j i with h | h
        · exact hinv j hj1 h
        · have : j = i := by omega
          rw [this]
          exact hgt

/-- Specification of the block "Find the lower pixel bound" for a 256-bucket
histogram whose counts add up to less than `2 ^ 32`. -/
theorem lowerBound_least (bins : List ℕ) (half : ℕ) (hlen : bins.length = 256)
    (hsum : bins.sum < 4294967296) :
    ∃ mn, lowerBound bins half = some mn ∧
      (half ≤ bins.getD 0 0 → mn = 0) ∧
      (bins.getD 0 0 < half →
        ((∀ j, 1 ≤ j → j ≤ 254 → ¬ half < (bins.take (j + 1)).sum) → mn = 0) ∧
        (∀ t, 1 ≤ t → t ≤ 254 → half < (bins.take (t + 1)).sum →
          (∀ j, 1 ≤ j → j < t → ¬ half < (bins.take (j + 1)).sum) → mn = t)) := by
  have hlt : 0 < bins.length := by omega
  have hget : bins[0]? = some bins[0] := List.getElem?_eq_getElem hlt
  have hgetD : bins.getD 0 0 = bins[0] := by
    rw [List.getD_eq_getElem?_getD, hget]; rfl
  rw [hgetD]
  simp only [lowerBound, hget]
  split_ifs with h
  · have hs1 : bins[0] = (bins.take 1).sum := by
      have := List.sum_take_succ bins 0 hlt
      simpa using this.symm
    obtain ⟨r, hr, h1, h2⟩ := lowerScan_least bins half hlen hsum 254 1 bins[0] (by norm_num)
      (le_refl _) hs1 (by intro j hj1 hj; omega)
    exact ⟨r, hr, fun hge => absurd h (not_lt.mpr hge), fun _ => ⟨h1, h2⟩⟩
  · exact ⟨0, rfl, fun _ => rfl, fun hlt' => absurd hlt' h⟩

/-! ## Shape and type checks of `DrawHistogram` -/

/-- A histogram that is neither `1 x L` nor `L x 1` with `L ≥ 2` makes
`DrawHistogram` return at once. -/
theorem drawHistogram_invalid_shape (cvRound : Dbl → ℤ)
    (line : Mat → Point → Point → Scalar → ℤ → Mat)
    (putText : Mat → String → Point → Scalar → Mat) (self : CHistLib)
    (Hist : HistMat) (HistImage : Mat) (Color : Scalar)
    (h : ¬ ((Hist.rows = 1 ∧ 2 ≤ Hist.cols) ∨ (Hist.cols = 1 ∧ 2 ≤ Hist.rows))) :
    DrawHistogram cvRound line putText self Hist HistImage Color = HistImage := by
  unfold DrawHistogram
  by_cases hgt : Hist.rows > Hist.cols
  · have hbad : Hist.rows < 2 ∨ Hist.cols ≠ 1 := by
      by_contra hc
      push_neg at hc
      exact h (Or.inr ⟨hc.2, hc.1⟩)
    simp only [hgt, if_true, hbad]
  · have hbad : Hist.rows ≠ 1 ∨ Hist.cols < 2 := by
      by_contra hc
      push_neg at hc
      exact h (Or.inl ⟨hc.1, hc.2⟩)
    simp only [hgt, if_false, hbad, if_true]

theorem create_setTo (m : Mat) (rows cols : ℕ) (color : Scalar) :
    (m.create rows cols .CV_8UC3).setTo color
      = { rows := rows, cols := cols, type := .CV_8UC3, data := fun _ _ => color } := by
  unfold Mat.create Mat.setTo
  split_ifs with h
  · obtain ⟨h1, h2, h3⟩ := h
    simp only [h1, h2, h3]
  · rfl

/-- A histogram of valid shape whose element type is none of the three
supported ones: the target is created and filled, nothing is drawn. -/
theorem drawHistogram_unsupported_type (cvRound : Dbl → ℤ)
    (line : Mat → Point → Point → Scalar → ℤ → Mat)
    (putText : Mat → String → Point → Scalar → Mat) (self : CHistLib)
    (Hist : HistMat) (HistImage : Mat) (Color : Scalar) (L : ℕ) (hL : 2 ≤ L)
    (hshape : (Hist.rows = 1 ∧ Hist.cols = L) ∨ (Hist.cols = 1 ∧ Hist.rows = L))
    (h32F : Hist.type ≠ .CV_32F) (h64F : Hist.type ≠ .CV_64F) (h32S : Hist.type ≠ .CV_32S) :
    DrawHistogram cvRound line putText self Hist HistImage Color
      = { rows := (2 * self.mHistImageBorder + self.mHistImageHeight) % 4294967296,
          cols := (2 * self.mHistImageBorder + 3 * L) % 4294967296,
          type := .CV_8UC3,
          data := fun _ _ => self.mHistBackgroundColor } := by
  unfold DrawHistogram
  rcases hshape with ⟨hr, hc⟩ | ⟨hc, hr⟩
  · have hgt : ¬ Hist.rows > Hist.cols := by omega
    have hok : ¬ (Hist.rows ≠ 1 ∨ Hist.cols < 2) := by omega
    simp only [hgt, if_false, hok, create_setTo, hc]
    split <;> simp_all
  · have hgt : Hist.rows > Hist.cols := by omega
    have hok : ¬ (Hist.rows < 2 ∨ Hist.cols ≠ 1) := by omega
    simp only [hgt, if_true, hok, if_false, create_setTo, hr]
    split <;> simp_all

/-! ## Consequences for the two normalisations -/

/-- A non-degenerate image comes out of `NormalizeImageBGR` spanning `0 .. 255`. -/
theorem valueRange_normalize (cvRound : Dbl → ℤ) (hr : CvRoundNearest cvRound)
    (img : List PixelHSV) (m M : Fin 256) (hR : ValueRange img m M) (hlt : m < M) :
    ValueRange (NormalizeImageBGR cvRound img) 0 255 := by
  obtain ⟨_, hpt⟩ := normalize_pointwise cvRound hr img m M hR hlt
  refine ⟨fun q _ => ⟨Fin.zero_le _, Fin.le_last _⟩, ?_, ?_⟩
  · obtain ⟨p, hp, hpm⟩ := hR.2.1
    obtain ⟨i, hi⟩ := List.getElem?_of_mem hp
    obtain ⟨w, hw, _, _, h0, _⟩ := hpt i p hi
    exact ⟨_, List.getElem?_mem hw, h0 hpm⟩
  · obtain ⟨p, hp, hpM⟩ := hR.2.2
    obtain ⟨i, hi⟩ := List.getElem?_of_mem hp
    obtain ⟨w, hw, _, _, _, h255⟩ := hpt i p hi
    exact ⟨_, List.getElem?_mem hw, h255 hpM⟩

/-- Both normalisations copy hue and saturation: the remap of a list of pixels
keeps its length and, position by position, the first two bytes. -/
theorem map_remapPixel_frame (cvRound : Dbl → ℤ) (mn range : ℤ) (img : List PixelHSV) :
    (img.map (remapPixel cvRound mn range)).length = img.length ∧
    ∀ (i : ℕ) (p : PixelHSV), img[i]? = some p →
      ∃ q : PixelHSV, (img.map (remapPixel cvRound mn range))[i]? = some q ∧
        q.h = p.h ∧ q.s = p.s := by
  refine ⟨List.length_map _ _, ?_⟩
  intro i p hip
  exact ⟨remapPixel cvRound mn range p, by simp [List.getElem?_map, hip], rfl, rfl⟩

/-- The threshold for `clipPercent = 100` on an image of `2 * k` pixels is `k`. -/
theorem pixelsToClipHalf_hundred (cvRound : Dbl → ℤ) (hr : CvRoundNearest cvRound) (k : ℕ)
    (hk : k ≤ 1000000) : pixelsToClipHalf cvRound (2 * k) (.fin 100) = k := by
  have round_int : ∀ n : ℤ, 0 ≤ n → n ≤ 2147483647 → cvRound (.fin (n : ℚ)) = n := by
    intro n h0 h1
    have h0q : (0 : ℚ) ≤ n := by exact_mod_cast h0
    have h1q : (n : ℚ) ≤ 2147483647 := by exact_mod_cast h1
    exact int_eq_of_abs_sub_le_half (hr n (by linarith) h1q)
  have h1 : Dbl.div (.fin 100) (.fin 100) = .fin 1 := by
    have hone : fl 1 = .fin 1 := by simpa using fl_intCast 1 (by norm_num)
    have hne : (100 : ℚ) ≠ 0 := by norm_num
    simp only [Dbl.div, hne, if_false, div_self hne, hone]
  have h2 : Dbl.mul (.fin 1) (Dbl.ofInt ((2 * k : ℕ) : ℤ)) = .fin (((2 * k : ℕ) : ℤ) : ℚ) := by
    have := fl_intCast ((2 * k : ℕ) : ℤ) (by rw [abs_lt]; constructor <;> omega)
    simp only [Dbl.mul, Dbl.ofInt, one_mul]
    exact this
  have h3 : toUnsigned ((2 * k : ℕ) : ℤ) = 2 * k := by
    simp only [toUnsigned]; omega
  have h4 : Dbl.div (Dbl.ofInt ((2 * k : ℕ) : ℤ)) (.fin 2) = .fin ((k : ℤ) : ℚ) := by
    have := fl_intCast (k : ℤ) (by rw [abs_lt]; constructor <;> omega)
    have e : ((((2 * k : ℕ) : ℤ) : ℚ)) / 2 = ((k : ℤ) : ℚ) := by push_cast; ring
    have h2ne : (2 : ℚ) ≠ 0 := by norm_num
    simp only [Dbl.div, Dbl.ofInt, h2ne, if_false, e, this]
  have h5 : toUnsigned (k : ℤ) = k := by
    simp only [toUnsigned]; omega
  simp only [pixelsToClipHalf, h1, h2, round_int _ (by omega : (0 : ℤ) ≤ ((2 * k : ℕ) : ℤ))
    (by omega), h3, h4, round_int _ (by omega : (0 : ℤ) ≤ (k : ℤ)) (by omega), h5]

/-! ## Scanning across empty buckets -/

/-- The lower scan steps over `k` empty buckets without changing its sum. -/
theorem lowerScan_zeros (bins : List ℕ) (half : ℕ) :
    ∀ k n i, (∀ j, i ≤ j → j < i + k → bins[j]? = some 0) →
      lowerScan bins half (n + k) i 0 = lowerScan bins half n (i + k) 0 := by
  intro k
  induction k with
  | zero => intro n i _; rfl
  | succ k ih =>
      intro n i hz
      have h0 : bins[i]? = some 0 := hz i (le_refl _) (by omega)
      have e : n + (k + 1) = (n + k) + 1 := by omega
      rw [e]
      simp only [lowerScan, h0, add_zero, Nat.zero_mod, gt_iff_lt, Nat.not_lt_zero, if_false]
      rw [ih n (i + 1) (fun j h1 h2 => hz j (by omega) (by omega))]
      congr 1
      omega

/-- The upper scan steps over `k` empty buckets without changing its sum. -/
theorem upperScan_zeros (bins : List ℕ) (half max0 : ℕ) :
    ∀ k n i, k ≤ i → (∀ j, i - k < j → j ≤ i → bins[j]? = some 0) →
      upperScan bins half max0 (n + k) i 0 = upperScan bins half max0 n (i - k) 0 := by
  intro k
  induction k with
  | zero => intro n i _ _; rfl
  | succ k ih =>
      intro n i hk hz
      have h0 : bins[i]? = some 0 := hz i (by omega) (le_refl _)
      have e : n + (k + 1) = (n + k) + 1 := by omega
      rw [e]
      simp only [upperScan, h0, add_zero, Nat.zero_mod, gt_iff_lt, Nat.not_lt_zero, if_false]
      rw [ih n (i - 1) (by omega) (fun j h1 h2 => hz j (by omega) (by omega))]
      congr 1
      omega

theorem lowerScan_hit (bins : List ℕ) (half n i s b : ℕ) (hb : bins[i]? = some b)
    (hgt : half < (s + b) % 4294967296) : lowerScan bins half (n + 1) i s = some i := by
  simp only [lowerScan, hb, gt_iff_lt, hgt, if_true]

theorem upperScan_hit (bins : List ℕ) (half max0 n i s b : ℕ) (hb : bins[i]? = some b)
    (hgt : half < (s + b) % 4294967296) : upperScan bins half max0 (n + 1) i s = some i := by
  simp only [upperScan, hb, gt_iff_lt, hgt, if_true]

/-- Both scans of a histogram whose only occupied bucket is bucket 128, with
more entries than the threshold, stop at 128. -/
theorem bounds_single_bucket (bins : List ℕ) (c half : ℕ) (h0 : 0 < half) (hc : half < c)
    (hc32 : c < 4294967296) (hz : ∀ j, j < 256 → j ≠ 128 → bins[j]? = some 0)
    (h128 : bins[128]? = some c) :
    lowerBound bins half = some 128 ∧ upperBound bins half 255 = some 128 := by
  have hmod : half < (0 + c) % 4294967296 := by
    rw [Nat.zero_add, Nat.mod_eq_of_lt hc32]; exact hc
  constructor
  · have hskip := lowerScan_zeros bins half 127 127 1
      (fun j _ h2 => hz j (by omega) (by omega))
    have hhit := lowerScan_hit bins half 126 128 0 c h128 hmod
    have hb0 := hz 0 (by norm_num) (by norm_num)
    unfold lowerBound
    rw [hb0]
    simp only [h0, if_true]
    exact hskip.trans hhit
  · have hskip := upperScan_zeros bins half 255 127 127 255 (by norm_num)
      (fun j h1 h2 => hz j (by omega) (by omega))
    have hhit := upperScan_hit bins half 255 126 128 0 c h128 hmod
    have hb255 := hz 255 (by norm_num) (by norm_num)
    unfold upperBound
    rw [hb255]
    simp only [h0, if_true]
    exact hskip.trans hhit

/-- The buckets of a histogram with a single occupied bucket. -/
theorem getElem?_single_bucket (a b c j : ℕ) :
    (List.replicate a 0 ++ [c] ++ List.replicate b 0)[j]?
      = if j < a then some 0 else if j = a then some c
        else if j < a + 1 + b then some 0 else none := by
  rw [List.append_assoc, List.getElem?_append, List.length_replicate]
  split_ifs with h1 h2 h3
  · rw [List.getElem?_replicate, if_pos h1]
  · have : j - a = 0 := by omega
    rw [this, List.singleton_append, List.getElem?_cons_zero]
  · have : j - a = (j - a - 1) + 1 := by omega
    rw [this, List.singleton_append, List.getElem?_cons_succ, List.getElem?_replicate,
      if_pos (by omega)]
  · have : j - a = (j - a - 1) + 1 := by omega
    rw [this, List.singleton_append, List.getElem?_cons_succ, List.getElem?_replicate,
      if_neg (by omega)]

/-! ## The counts of a histogram add up to the number of pixels -/

theorem sum_set_succ (bins : List ℕ) :
    ∀ (i c : ℕ), bins[i]? = some c → (bins.set i (c + 1)).sum = bins.sum + 1 := by
  induction bins with
  | nil => intro i c h; simp at h
  | cons b rest ih =>
      intro i c h
      cases i with
      | zero =>
          simp only [List.getElem?_cons_zero, Option.some.injEq] at h
          simp only [List.set_cons_zero, List.sum_cons, h]
          omega
      | succ i =>
          simp only [List.getElem?_cons_succ] at h
          simp only [List.set_cons_succ, List.sum_cons, ih i c h]
          omega

theorem le_sum_of_getElem? (bins : List ℕ) :
    ∀ (i c : ℕ), bins[i]? = some c → c ≤ bins.sum := by
  induction bins with
  | nil => intro i c h; simp at h
  | cons b rest ih =>
      intro i c h
      cases i with
      | zero =>
          simp only [List.getElem?_cons_zero, Option.some.injEq] at h
          simp only [List.sum_cons, h]; omega
      | succ i =>
          simp only [List.getElem?_cons_succ] at h
          have := ih i c h
          simp only [List.sum_cons]; omega

/-- While the pixel count stays below `2 ^ 32` no bucket wraps around, and the
counts of the histogram add up to the counts it started from plus the number
of pixels. -/
theorem countValues_sum (img : List PixelHSV) :
    ∀ bins out : List ℕ, countValues img bins = some out →
      bins.sum + img.length < 4294967296 → out.sum = bins.sum + img.length := by
  induction img with
  | nil =>
      intro bins out h _
      simp only [countValues, Option.some.injEq] at h
      simp [h]
  | cons p rest ih =>
      intro bins out h hlt
      simp only [List.length_cons] at hlt ⊢
      cases hget : bins[p.v.val]? with
      | none => simp [countValues, hget] at h
      | some c =>
          simp only [countValues, hget] at h
          have hc := le_sum_of_getElem? bins _ c hget
          have hmod : (c + 1) % 4294967296 = c + 1 := Nat.mod_eq_of_lt (by omega)
          rw [hmod] at h
          have hs := sum_set_succ bins _ c hget
          have := ih _ out h (by omega)
          omega

/-- The counts of the 256-bucket histogram of an image of fewer than `2 ^ 32`
pixels add up to the number of pixels. -/
theorem histogram_sum (img : List PixelHSV) (bins : List ℕ)
    (h : countValues img (List.replicate 256 0) = some bins) (hlen : img.length < 4294967296) :
    bins.sum = img.length := by
  have h0 : (List.replicate 256 0).sum = 0 := by
    rw [List.sum_replicate]; rfl
  have := countValues_sum img _ bins h (by omega)
  omega

/-! ## The configuration and its setters -/

theorem setBinCount_get (self : CHistLib) (n : ℕ) :
    (self.SetBinCount n).GetBinCount
      = if 1 ≤ n ∧ n ≤ 256 then n else self.GetBinCount := by
  unfold CHistLib.SetBinCount CHistLib.GetBinCount
  by_cases h : n > 0 ∧ n ≤ 256
  · have h' : 1 ≤ n ∧ n ≤ 256 := ⟨h.1, h.2⟩
    rw [if_pos h, if_pos h']
  · have h' : ¬ (1 ≤ n ∧ n ≤ 256) := fun hc => h ⟨hc.1, hc.2⟩
    rw [if_neg h, if_neg h']

theorem setBinCount_out_of_range (self : CHistLib) (n : ℕ) (h : n = 0 ∨ 256 < n) :
    self.SetBinCount n = self := by
  unfold CHistLib.SetBinCount
  rw [if_neg (by omega)]

theorem setHistImageHeight_out_of_range (self : CHistLib) (n : ℕ) (h : n = 0 ∨ 2048 < n) :
    self.SetHistImageHeight n = self := by
  unfold CHistLib.SetHistImageHeight
  rw [if_neg (by omega)]

/-- The ranges that the constructor establishes and every setter keeps. -/
theorem call_keeps_ranges (self : CHistLib) (c : SetterCall)
    (h : (0 < self.mBinCount ∧ self.mBinCount ≤ 256) ∧
      (0 < self.mHistImageHeight ∧ self.mHistImageHeight ≤ 2048)) :
    (0 < (self.call c).mBinCount ∧ (self.call c).mBinCount ≤ 256) ∧
      (0 < (self.call c).mHistImageHeight ∧ (self.call c).mHistImageHeight ≤ 2048) := by
  cases c with
  | SetHistImageHeight n =>
      simp only [CHistLib.call, CHistLib.SetHistImageHeight]
      split_ifs with hn
      · exact ⟨h.1, hn⟩
      · exact h
  | SetBinCount n =>
      simp only [CHistLib.call, CHistLib.SetBinCount]
      split_ifs with hn
      · exact ⟨hn, h.2⟩
      · exact h
  | SetPlotColor c => exact h
  | SetAxisColor c => exact h
  | SetBackgroundColor c => exact h

theorem calls_keep_ranges (cs : List SetterCall) :
    ∀ self : CHistLib,
      ((0 < self.mBinCount ∧ self.mBinCount ≤ 256) ∧
        (0 < self.mHistImageHeight ∧ self.mHistImageHeight ≤ 2048)) →
      (0 < (self.calls cs).mBinCount ∧ (self.calls cs).mBinCount ≤ 256) ∧
        (0 < (self.calls cs).mHistImageHeight ∧ (self.calls cs).mHistImageHeight ≤ 2048) := by
  induction cs with
  | nil => intro self h; exact h
  | cons c rest ih =>
      intro self h
      exact ih (self.call c) (call_keeps_ranges self c h)

/-! ## Bucket accesses with fewer than 256 buckets -/

/-- The histogram loop, when it indexes no bucket out of range, keeps the number
of buckets. -/
theorem countValues_length (img : List PixelHSV) :
    ∀ bins out : List ℕ, countValues img bins = some out → out.length = bins.length := by
  induction img with
  | nil =>
      intro bins out h
      simp only [countValues, Option.some.injEq] at h
      rw [h]
  | cons p rest ih =>
      intro bins out h
      cases hget : bins[p.v.val]? with
      | none => simp [countValues, hget] at h
      | some c =>
          simp only [countValues, hget] at h
          have := ih _ out h
          simpa using this

/-- The upper bound reads `bins[255]` before anything else. -/
theorem upperBound_short (bins : List ℕ) (half max0 : ℕ) (h : bins.length < 256) :
    upperBound bins half max0 = none := by
  have hget : bins[255]? = none := List.getElem?_eq_none (by omega)
  simp only [upperBound, hget]

/-- With fewer than 256 buckets some bucket access of `NormalizeClipImageBGR` is
out of range, whatever the image and `clipPercent`. -/
theorem clipBounds_short (cvRound : Dbl → ℤ) (mBinCount : ℕ) (img : List PixelHSV)
    (clipPercent : Dbl) (h : mBinCount < 256) :
    clipBounds cvRound mBinCount img clipPercent = none := by
  unfold clipBounds
  cases hb : countValues img (List.replicate mBinCount 0) with
  | none => rfl
  | some bins =>
      have hlen : bins.length < 256 := by
        rw [countValues_length img _ bins hb, List.length_replicate]; exact h
      simp only
      cases hl : lowerBound bins (pixelsToClipHalf cvRound img.length clipPercent) with
      | none => rfl
      | some mn =>
          simp only [upperBound_short bins _ _ hlen]

theorem normalizeClip_short (cvRound : Dbl → ℤ) (mBinCount : ℕ) (img : List PixelHSV)
    (clipPercent : Dbl) (h : mBinCount < 256) :
    NormalizeClipImageBGR cvRound mBinCount img clipPercent = none := by
  simp only [NormalizeClipImageBGR, clipBounds_short cvRound mBinCount img clipPercent h]

/-! ## The remap is order-preserving -/

/-- The scale factor `255.0f / (double)(max - min)` for a range `d` in
`1 .. 255`: finite and within `2 ^ (-37)` of `255 / d`. -/
theorem scale_factor_near (d : ℤ) (hd0 : 0 < d) (hd : d ≤ 255) :
    ∃ q : ℚ, Dbl.div (.fin 255) (Dbl.ofInt d) = .fin q ∧ |q - 255 / d| ≤ 1 / 2 ^ 37 ∧
      1 ≤ (255 : ℚ) / d ∧ (255 : ℚ) / d ≤ 255 := by
  have hdq : (0 : ℚ) < d := by exact_mod_cast hd0
  have hdne : (d : ℚ) ≠ 0 := hdq.ne'
  have hd1 : (1 : ℚ) ≤ d := by exact_mod_cast hd0
  have hd255 : (d : ℚ) ≤ 255 := by exact_mod_cast hd
  have hlo : (1 : ℚ) ≤ 255 / d := by rw [le_div_iff₀ hdq]; linarith
  have hhi : (255 : ℚ) / d ≤ 255 := by rw [div_le_iff₀ hdq]; nlinarith
  obtain ⟨q, hq, hqe⟩ := fl_near (255 / d) (by
    rw [abs_of_nonneg (by linarith)]
    have : (2 : ℚ) ^ (17 : ℤ) = 131072 := by norm_num
    rw [this]; linarith)
  refine ⟨q, ?_, hqe, hlo, hhi⟩
  simp only [Dbl.div, Dbl.ofInt, hdne, if_false, hq]

/-- A value below the lower bound is clipped to `0`. -/
theorem remapValue_below (cvRound : Dbl → ℤ) (v : Fin 256) (mn d : ℤ) (hmn : (v.val : ℤ) < mn)
    (hmn255 : mn ≤ 255) (hd0 : 0 < d) (hd : d ≤ 255) :
    remapValue cvRound v mn d = 0 := by
  obtain ⟨q, hq, hqe, hlo, hhi⟩ := scale_factor_near d hd0 hd
  have hv := v.isLt
  obtain ⟨k, hk⟩ : ∃ k : ℤ, k = (v.val : ℤ) - mn := ⟨_, rfl⟩
  have hk1 : k ≤ -1 := by omega
  have hk2 : -255 ≤ k := by omega
  have hsub : Dbl.sub (Dbl.ofInt (v.val : ℤ)) (Dbl.ofInt mn) = .fin (k : ℚ) := by
    rw [sub_ofInt_small _ _ (by rw [abs_lt]; constructor <;> omega), hk]
  rw [abs_le] at hqe
  have h37 : (1 : ℚ) / 2 ^ 37 ≤ 1 / 4 := by norm_num
  have hkq1 : (k : ℚ) ≤ -1 := by exact_mod_cast hk1
  have hkq2 : (-255 : ℚ) ≤ k := by exact_mod_cast hk2
  have hq1 : (3 : ℚ) / 4 ≤ q := by linarith
  have hq2 : q ≤ 256 := by linarith
  have hprod_hi : (k : ℚ) * q ≤ -(3 / 4) := by nlinarith
  have hprod_lo : (-65280 : ℚ) ≤ k * q := by nlinarith
  obtain ⟨p, hp, hpe⟩ := fl_near (k * q) (by
    have : (2 : ℚ) ^ (17 : ℤ) = 131072 := by norm_num
    rw [this, abs_lt]; constructor <;> linarith)
  rw [abs_le] at hpe
  have hp0 : p < 0 := by linarith
  have hmul : Dbl.mul (.fin (k : ℚ)) (.fin q) = .fin p := by
    simp only [Dbl.mul, hp]
  have hnot : ¬ (255 : ℚ) < p := by linarith
  simp only [remapValue, hsub, hq, hmul, Dbl.gt, Dbl.lt, decide_eq_true_eq, hnot, if_false, hp0,
    if_true]

/-- A value above the upper bound is clipped to `255`. -/
theorem remapValue_above (cvRound : Dbl → ℤ) (v : Fin 256) (mn d : ℤ) (h0 : 0 ≤ mn)
    (hmx : mn + d < (v.val : ℤ)) (hd0 : 0 < d) (hd : d ≤ 255) :
    remapValue cvRound v mn d = 255 := by
  obtain ⟨q, hq, hqe, hlo, hhi⟩ := scale_factor_near d hd0 hd
  have hv := v.isLt
  obtain ⟨k, hk⟩ : ∃ k : ℤ, k = (v.val : ℤ) - mn := ⟨_, rfl⟩
  have hk1 : d + 1 ≤ k := by omega
  have hk2 : k ≤ 255 := by omega
  have hsub : Dbl.sub (Dbl.ofInt (v.val : ℤ)) (Dbl.ofInt mn) = .fin (k : ℚ) := by
    rw [sub_ofInt_small _ _ (by rw [abs_lt]; constructor <;> omega), hk]
  rw [abs_le] at hqe
  have hdq : (0 : ℚ) < d := by exact_mod_cast hd0
  have hkq1 : (d : ℚ) + 1 ≤ k := by exact_mod_cast hk1
  have hkq2 : (k : ℚ) ≤ 255 := by exact_mod_cast hk2
  have h37 : (1 : ℚ) / 2 ^ 37 ≤ 1 / 1024 := by norm_num
  have hq2 : q ≤ 256 := by linarith
  have hq1 : (255 : ℚ) / d - 1 / 1024 ≤ q := by linarith
  have hxd : (255 : ℚ) / d * d = 255 := by field_simp
  have hprod_lo : (255 : ℚ) + 1 / 2 ≤ k * q := by
    have hkpos : (0 : ℚ) ≤ k := by linarith
    have h1 : (k : ℚ) * (255 / d - 1 / 1024) ≤ k * q := mul_le_mul_of_nonneg_left hq1 hkpos
    have h2 : ((d : ℚ) + 1) * (255 / d) ≤ k * (255 / d) :=
      mul_le_mul_of_nonneg_right hkq1 (by linarith)
    have h3 : ((d : ℚ) + 1) * (255 / d) = 255 + 255 / d := by
      rw [add_mul, mul_comm, hxd, one_mul]
    nlinarith
  have hprod_hi : (k : ℚ) * q ≤ 65280 := by nlinarith
  obtain ⟨p, hp, hpe⟩ := fl_near (k * q) (by
    have : (2 : ℚ) ^ (17 : ℤ) = 131072 := by norm_num
    rw [this, abs_lt]; constructor <;> linarith)
  rw [abs_le] at hpe
  have hp255 : (255 : ℚ) < p := by linarith
  have hmul : Dbl.mul (.fin (k : ℚ)) (.fin q) = .fin p := by
    simp only [Dbl.mul, hp]
  simp only [remapValue, hsub, hq, hmul, Dbl.gt, decide_eq_true_eq, hp255, if_true]

/-- Values at or below the lower bound map to `0`, values at or above the upper
bound map to `255`. -/
theorem remapValue_ends (cvRound : Dbl → ℤ) (hr : CvRoundNearest cvRound) (m M : Fin 256)
    (hlt : m < M) (v : Fin 256) :
    (v ≤ m → remapValue cvRound v (m.val : ℤ) ((M.val : ℤ) - (m.val : ℤ)) = 0) ∧
    (M ≤ v → remapValue cvRound v (m.val : ℤ) ((M.val : ℤ) - (m.val : ℤ)) = 255) := by
  have hmM : m.val < M.val := hlt
  have hM := M.isLt
  have hMm : (0 : ℚ) < (M.val : ℚ) - m.val := by
    have : (m.val : ℚ) < M.val := by exact_mod_cast hmM
    linarith
  constructor
  · intro hv
    rcases lt_or_eq_of_le hv with h | h
    · have h' : v.val < m.val := h
      exact remapValue_below cvRound v _ _ (by omega) (by omega) (by omega) (by omega)
    · have hnear := remapValue_near cvRound hr v m M (le_of_eq h.symm) (h ▸ le_of_lt hlt) hlt
      have e : ((v.val : ℚ) - m.val) * 255 / ((M.val : ℚ) - m.val) = ((0 : ℕ) : ℚ) := by
        rw [h]; simp
      rw [e] at hnear
      exact Fin.ext (fin256_val_eq_of_near hnear)
  · intro hv
    rcases lt_or_eq_of_le hv with h | h
    · have h' : M.val < v.val := h
      exact remapValue_above cvRound v _ _ (by omega) (by omega) (by omega) (by omega)
    · have hnear := remapValue_near cvRound hr v m M (h ▸ le_of_lt hlt) (le_of_eq h.symm) hlt
      have e : ((v.val : ℚ) - m.val) * 255 / ((M.val : ℚ) - m.val) = ((255 : ℕ) : ℚ) := by
        rw [← h]; field_simp
      rw [e] at hnear
      exact Fin.ext (fin256_val_eq_of_near hnear)

/-- The remap with bounds `m < M` is monotone in the value. -/
theorem remapValue_mono (cvRound : Dbl → ℤ) (hr : CvRoundNearest cvRound) (m M : Fin 256)
    (hlt : m < M) (v1 v2 : Fin 256) (h : v1 ≤ v2) :
    remapValue cvRound v1 (m.val : ℤ) ((M.val : ℤ) - (m.val : ℤ))
      ≤ remapValue cvRound v2 (m.val : ℤ) ((M.val : ℤ) - (m.val : ℤ)) := by
  rcases lt_or_le v1 m with h1 | h1
  · rw [(remapValue_ends cvRound hr m M hlt v1).1 (le_of_lt h1)]
    exact Fin.zero_le _
  rcases lt_or_le M v2 with h2 | h2
  · rw [(remapValue_ends cvRound hr m M hlt v2).2 (le_of_lt h2)]
    exact Fin.le_last _
  rcases eq_or_lt_of_le h with heq | hlt12
  · rw [heq]
  · have hn1 := remapValue_near cvRound hr v1 m M h1 (le_trans h h2) hlt
    have hn2 := remapValue_near cvRound hr v2 m M (le_trans h1 h) h2 hlt
    rw [abs_le] at hn1 hn2
    have hmM : m.val < M.val := hlt
    have hM := M.isLt
    have hv12 : v1.val < v2.val := hlt12
    have hd0 : (0 : ℚ) < (M.val : ℚ) - m.val := by
      have : (m.val : ℚ) < M.val := by exact_mod_cast hmM
      linarith
    have hd255 : (M.val : ℚ) - m.val ≤ 255 := by
      have : (M.val : ℚ) ≤ 255 := by
        have : M.val ≤ 255 := by omega
        exact_mod_cast this
      have : (0 : ℚ) ≤ m.val := by positivity
      linarith
    have hstep : (v1.val : ℚ) + 1 ≤ v2.val := by exact_mod_cast hv12
    have hgap : ((v1.val : ℚ) - m.val) * 255 / ((M.val : ℚ) - m.val) + 1
        ≤ ((v2.val : ℚ) - m.val) * 255 / ((M.val : ℚ) - m.val) := by
      rw [← sub_nonneg]
      have e : ((v2.val : ℚ) - m.val) * 255 / ((M.val : ℚ) - m.val)
          - (((v1.val : ℚ) - m.val) * 255 / ((M.val : ℚ) - m.val) + 1)
          = (((v2.val : ℚ) - v1.val) * 255 - ((M.val : ℚ) - m.val)) / ((M.val : ℚ) - m.val) := by
        field_simp; ring
      rw [e]
      apply div_nonneg _ hd0.le
      nlinarith
    have hq : ((remapValue cvRound v1 (m.val : ℤ) ((M.val : ℤ) - (m.val : ℤ))).val : ℚ)
        ≤ (remapValue cvRound v2 (m.val : ℤ) ((M.val : ℤ) - (m.val : ℤ))).val := by
      linarith
    have hnat : (remapValue cvRound v1 (m.val : ℤ) ((M.val : ℤ) - (m.val : ℤ))).val
        ≤ (remapValue cvRound v2 (m.val : ℤ) ((M.val : ℤ) - (m.val : ℤ))).val := by
      exact_mod_cast hq
    exact hnat

/-! ## `DrawHistogram` on a histogram of valid shape -/

theorem drawBins_congr (f g : Mat → ℕ → Mat) (l : List ℕ) :
    ∀ img : Mat, (∀ i ∈ l, ∀ m : Mat, f m i = g m i) → drawBins f l img = drawBins g l img := by
  induction l with
  | nil => intro img _; rfl
  | cons i rest ih =>
      intro img h
      simp only [drawBins]
      rw [h i (List.mem_cons_self _ _) img]
      exact ih _ (fun j hj m => h j (List.mem_cons_of_mem _ hj) m)

/-- A histogram of `float` or `double` values: the target is prepared, every
bin is passed to `DrawHistBin` in turn with the configured plot colour, and
the axis is drawn if enabled. -/
theorem drawHistogram_real (cvRound : Dbl → ℤ)
    (line : Mat → Point → Point → Scalar → ℤ → Mat)
    (putText : Mat → String → Point → Scalar → Mat) (self : CHistLib)
    (Hist : HistMat) (HistImage : Mat) (Color : Scalar) (L : ℕ) (hL : 2 ≤ L)
    (hshape : (Hist.rows = 1 ∧ Hist.cols = L) ∨ (Hist.cols = 1 ∧ Hist.rows = L))
    (htype : Hist.type = .CV_32F ∨ Hist.type = .CV_64F) :
    DrawHistogram cvRound line putText self Hist HistImage Color
      = if self.mDrawXAxis then
          DrawHistBar line putText self
            (drawBins (fun img i => DrawHistBinReal cvRound line self img (Hist.binReal i)
              (i * 3) self.mHistPlotColor) (List.range L) (self.canvas L)) L
        else
          drawBins (fun img i => DrawHistBinReal cvRound line self img (Hist.binReal i)
            (i * 3) self.mHistPlotColor) (List.range L) (self.canvas L) := by
  unfold DrawHistogram
  rcases hshape with ⟨hr, hc⟩ | ⟨hc, hr⟩
  · have hgt : ¬ 1 > L := by omega
    have hok : ¬ ((1 : ℕ) ≠ 1 ∨ L < 2) := by omega
    simp only [hr, hc, hgt, if_false, hok, create_setTo, if_true, HistMat.binReal,
      CHistLib.canvas]
    rcases htype with ht | ht <;> simp only [ht]
  · have hgt : L > 1 := by omega
    have hok : ¬ (L < 2 ∨ (1 : ℕ) ≠ 1) := by omega
    have hne : ¬ L = 1 := by omega
    simp only [hr, hc, hgt, if_true, hok, if_false, create_setTo, HistMat.binReal, hne,
      CHistLib.canvas, Bool.false_eq_true]
    rcases htype with ht | ht <;> simp only [ht]

/-- A histogram of `int` values: as `drawHistogram_real`, with the `int`
overload of `DrawHistBin`. -/
theorem drawHistogram_int (cvRound : Dbl → ℤ)
    (line : Mat → Point → Point → Scalar → ℤ → Mat)
    (putText : Mat → String → Point → Scalar → Mat) (self : CHistLib)
    (Hist : HistMat) (HistImage : Mat) (Color : Scalar) (L : ℕ) (hL : 2 ≤ L)
    (hshape : (Hist.rows = 1 ∧ Hist.cols = L) ∨ (Hist.cols = 1 ∧ Hist.rows = L))
    (htype : Hist.type = .CV_32S) :
    DrawHistogram cvRound line putText self Hist HistImage Color
      = if self.mDrawXAxis then
          DrawHistBar line putText self
            (drawBins (fun img i => DrawHistBinInt line self img (Hist.binInt i)
              (i * 3) self.mHistPlotColor) (List.range L) (self.canvas L)) L
        else
          drawBins (fun img i => DrawHistBinInt line self img (Hist.binInt i)
            (i * 3) self.mHistPlotColor) (List.range L) (self.canvas L) := by
  unfold DrawHistogram
  rcases hshape with ⟨hr, hc⟩ | ⟨hc, hr⟩
  · have hgt : ¬ 1 > L := by omega
    have hok : ¬ ((1 : ℕ) ≠ 1 ∨ L < 2) := by omega
    simp only [hr, hc, hgt, if_false, hok, create_setTo, if_true, HistMat.binInt,
      CHistLib.canvas, htype]
  · have hgt : L > 1 := by omega
    have hok : ¬ (L < 2 ∨ (1 : ℕ) ≠ 1) := by omega
    have hne : ¬ L = 1 := by omega
    simp only [hr, hc, hgt, if_true, hok, if_false, create_setTo, HistMat.binInt, hne,
      CHistLib.canvas, Bool.false_eq_true, htype]

/-! ## Single-precision rounding -/

theorem ulp32_pos (x : ℚ) : 0 < ulp32 x := by
  unfold ulp32
  positivity

/-- An integer below `2 ^ 24` in absolute value is a float. -/
theorem fl32_intCast (n : ℤ) (h : |n| < 2 ^ 24) : fl32 (n : ℚ) = .fin n := by
  have key : (roundTiesEven ((n : ℚ) / ulp32 n) : ℚ) * ulp32 n = n := by
    rcases eq_or_ne n 0 with rfl | hn
    · have := roundTiesEven_intCast 0
      simp only [Int.cast_zero] at this
      simp [this]
    · have hpos : (0 : ℚ) < |(n : ℚ)| := abs_pos.mpr (by exact_mod_cast hn)
      have h1 : (1 : ℚ) ≤ |(n : ℚ)| := by
        have : (1 : ℤ) ≤ |n| := Int.one_le_abs hn
        exact_mod_cast this
      have hlo : 0 ≤ Int.log 2 |(n : ℚ)| := by
        rw [← Int.zpow_le_iff_le_log (by norm_num) hpos]
        simpa using h1
      have hhi : Int.log 2 |(n : ℚ)| < 24 := by
        apply log_abs_lt (by norm_num)
        have h2 : |(n : ℚ)| < 2 ^ (24 : ℕ) := by exact_mod_cast h
        exact_mod_cast h2
      obtain ⟨k, hk⟩ : ∃ k : ℕ, Int.log 2 |(n : ℚ)| = 23 - k :=
        ⟨(23 - Int.log 2 |(n : ℚ)|).toNat, by omega⟩
      have hulp : ulp32 n = 1 / 2 ^ k := by
        unfold ulp32
        have : max (Int.log 2 |(n : ℚ)|) (-126) - 23 = -(k : ℤ) := by omega
        rw [this, zpow_neg, zpow_natCast, one_div]
      have hk0 : (2 : ℚ) ^ k ≠ 0 := by positivity
      have hq : (n : ℚ) / ulp32 n = ((n * 2 ^ k : ℤ) : ℚ) := by
        rw [hulp]; push_cast; field_simp
      rw [hq, roundTiesEven_intCast, hulp]
      push_cast
      field_simp
  unfold fl32
  simp only [key]
  have hsmall : ¬ (2 : ℚ) ^ 128 ≤ |(n : ℚ)| := by
    have h2 : |(n : ℚ)| < 2 ^ 24 := by exact_mod_cast h
    have h4 : (2 : ℚ) ^ 24 < 2 ^ 128 := by norm_num
    linarith
  simp only [hsmall, if_false]

/-- A rational between `0` and an integer `h < 2 ^ 24` rounds to a float
between `0` and `h`. -/
theorem fl32_between (x : ℚ) (h : ℕ) (hx0 : 0 ≤ x) (hxh : x ≤ h) (hh : h < 2 ^ 24) :
    ∃ s : ℚ, fl32 x = .fin s ∧ 0 ≤ s ∧ s ≤ h := by
  have hu := ulp32_pos x
  have hhq : (h : ℚ) < 2 ^ (24 : ℤ) := by
    have h2 : (h : ℚ) < 2 ^ (24 : ℕ) := by exact_mod_cast hh
    exact_mod_cast h2
  have hlog : Int.log 2 |x| < 24 := by
    apply log_abs_lt (by norm_num)
    rw [abs_of_nonneg hx0]
    linarith
  obtain ⟨k, hk⟩ : ∃ k : ℕ, max (Int.log 2 |x|) (-126) - 23 = -(k : ℤ) :=
    ⟨(23 - max (Int.log 2 |x|) (-126)).toNat, by omega⟩
  have hulp : ulp32 x = 1 / 2 ^ k := by
    unfold ulp32
    rw [hk, zpow_neg, zpow_natCast, one_div]
  have hk0 : (0 : ℚ) < 2 ^ k := by positivity
  have hnear := roundTiesEven_near (x / ulp32 x)
  rw [abs_le] at hnear
  rw [hulp] at hnear
  have hxk : x / (1 / 2 ^ k) = x * 2 ^ k := by field_simp
  rw [hxk] at hnear
  obtain ⟨r, hr⟩ : ∃ r : ℤ, r = roundTiesEven (x * 2 ^ k) := ⟨_, rfl⟩
  rw [← hr] at hnear
  have hr0 : 0 ≤ r := by
    have : (-1 : ℚ) < r := by
      have : (0 : ℚ) ≤ x * 2 ^ k := by positivity
      linarith
    have : (-1 : ℤ) < r := by exact_mod_cast this
    omega
  have hrh : r ≤ (h : ℤ) * 2 ^ k := by
    have h1 : x * 2 ^ k ≤ (h : ℚ) * 2 ^ k := mul_le_mul_of_nonneg_right hxh hk0.le
    have : (r : ℚ) < (((h : ℤ) * 2 ^ k : ℤ) : ℚ) + 1 := by
      push_cast; linarith
    have : r < (h : ℤ) * 2 ^ k + 1 := by exact_mod_cast this
    omega
  have hr0q : (0 : ℚ) ≤ r := by exact_mod_cast hr0
  have hrhq : (r : ℚ) ≤ (h : ℚ) * 2 ^ k := by exact_mod_cast hrh
  have hs0 : (0 : ℚ) ≤ (r : ℚ) * (1 / 2 ^ k) := by positivity
  have hsh : (r : ℚ) * (1 / 2 ^ k) ≤ h := by
    rw [mul_one_div, div_le_iff₀ hk0]; exact hrhq
  refine ⟨(r : ℚ) * (1 / 2 ^ k), ?_, hs0, hsh⟩
  unfold fl32
  rw [hulp, hxk, ← hr]
  have hsmall : ¬ (2 : ℚ) ^ 128 ≤ |(r : ℚ) * (1 / 2 ^ k)| := by
    rw [abs_of_nonneg hs0]
    have h4 : (2 : ℚ) ^ (24 : ℤ) < 2 ^ 128 := by norm_num
    linarith
  simp only [hsmall, if_false]

/-- The integer that `roundTiesEven` returns is the one less than half a unit
away. -/
theorem roundTiesEven_eq_of_near (y : ℚ) (n : ℤ) (h : |(n : ℚ) - y| < 1 / 2) :
    roundTiesEven y = n := by
  have hn := roundTiesEven_near y
  rw [abs_le] at hn
  rw [abs_lt] at h
  have h1 : ((roundTiesEven y : ℤ) : ℚ) < (n : ℚ) + 1 := by linarith
  have h2 : (n : ℚ) - 1 < ((roundTiesEven y : ℤ) : ℚ) := by linarith
  have h1' : roundTiesEven y < n + 1 := by exact_mod_cast h1
  have h2' : n - 1 < roundTiesEven y := by exact_mod_cast h2
  omega

/-- Evaluation of `fl32` at a number whose binary exponent `e` and nearest
multiple `n * 2 ^ (e - 23)` are given. -/
theorem fl32_eval (x : ℚ) (e n : ℤ) (he : -126 ≤ e) (hlo : (2 : ℚ) ^ e ≤ |x|)
    (hhi : |x| < (2 : ℚ) ^ (e + 1)) (hn : |(n : ℚ) - x / 2 ^ (e - 23)| < 1 / 2)
    (hsmall : |(n : ℚ) * 2 ^ (e - 23)| < 2 ^ 128) :
    fl32 x = .fin ((n : ℚ) * 2 ^ (e - 23)) := by
  have hpos : (0 : ℚ) < |x| := lt_of_lt_of_le (by positivity) hlo
  have hlog : Int.log 2 |x| = e := by
    apply le_antisymm
    · have : Int.log 2 |x| < e + 1 := by
        rw [← Int.lt_zpow_iff_log_lt (by norm_num) hpos]
        exact_mod_cast hhi
      omega
    · rw [← Int.zpow_le_iff_le_log (by norm_num) hpos]
      exact_mod_cast hlo
  have hulp : ulp32 x = 2 ^ (e - 23) := by
    unfold ulp32
    rw [hlog, max_eq_left he]
  unfold fl32
  rw [hulp, roundTiesEven_eq_of_near _ n hn]
  simp only [not_le.mpr hsmall, if_false]

theorem fl32_natCast (n : ℕ) (h : n < 2 ^ 24) : fl32 (n : ℚ) = .fin n := by
  have := fl32_intCast (n : ℤ) (by rw [abs_lt]; constructor <;> omega)
  simpa using this

/-- While `imageHeight * G` stays below `2 ^ 24` the products of the scaling
loop are exact: a count `c ≤ G` is scaled into `[0, imageHeight]`, and `G`
itself to `imageHeight`. -/
theorem scaleBin_small (self : CHistLib) (c G : ℕ) (hh : 0 < self.mHistImageHeight)
    (hG : 0 < G) (hcG : c ≤ G) (hsmall : self.mHistImageHeight * G < 2 ^ 24) :
    ∃ s : ℚ, scaleBin self (.fin G) (.fin c) = .fin s ∧ 0 ≤ s ∧
      s ≤ self.mHistImageHeight ∧ (c = G → s = self.mHistImageHeight) := by
  obtain ⟨h, hdef⟩ : ∃ h : ℕ, h = self.mHistImageHeight := ⟨_, rfl⟩
  rw [← hdef] at hh hsmall ⊢
  have hG24 : G < 2 ^ 24 := lt_of_le_of_lt (Nat.le_mul_of_pos_left G hh) hsmall
  have hh24 : h < 2 ^ 24 := lt_of_le_of_lt (Nat.le_mul_of_pos_right h hG) hsmall
  have hhc24 : h * c < 2 ^ 24 := lt_of_le_of_lt (Nat.mul_le_mul_left h hcG) hsmall
  have hGq : (0 : ℚ) < G := by exact_mod_cast hG
  have hGne : (G : ℚ) ≠ 0 := hGq.ne'
  have hcq : (c : ℚ) ≤ G := by exact_mod_cast hcG
  have hmul : Dbl.mulF (.fin (h : ℚ)) (.fin (c : ℚ)) = .fin ((h * c : ℕ) : ℚ) := by
    have := fl32_natCast (h * c) hhc24
    simp only [Dbl.mulF]
    rw [← this]; push_cast; rfl
  have hx0 : (0 : ℚ) ≤ ((h * c : ℕ) : ℚ) / G := by positivity
  have hxh : ((h * c : ℕ) : ℚ) / G ≤ h := by
    rw [div_le_iff₀ hGq]; push_cast
    exact mul_le_mul_of_nonneg_left hcq (by positivity)
  obtain ⟨s, hs, hs0, hsh⟩ := fl32_between _ h hx0 hxh hh24
  have hscale : scaleBin self (.fin G) (.fin c) = fl32 (((h * c : ℕ) : ℚ) / G) := by
    simp only [scaleBin, ← hdef, fl32_natCast h hh24, Dbl.toFloat, fl32_natCast G hG24, hmul,
      Dbl.divF, hGne, if_false]
  refine ⟨s, by rw [hscale, hs], hs0, hsh, ?_⟩
  intro hc
  have hx : ((h * c : ℕ) : ℚ) / G = (h : ℚ) := by
    rw [hc]; push_cast; field_simp
  rw [hx, fl32_natCast h hh24] at hs
  exact (Dbl.fin.inj hs).symm

/-- At the default height 300 and a count of 14316562 the product
`300 * 14316562 = 4294968600` is not a float; it rounds to 4294968832, and the
quotient rounds to `300 + 2 ^ (-15)`. -/
theorem scaleBin_large :
    scaleBin (CHistLib.new zeroScalar zeroScalar) (.fin 14316562) (.fin 14316562)
      = .fin (9830401 / 32768) := by
  have h300 : fl32 ((300 : ℕ) : ℚ) = .fin 300 := by
    have := fl32_intCast 300 (by norm_num)
    simpa using this
  have hG : fl32 (14316562 : ℚ) = .fin 14316562 := by
    have := fl32_intCast 14316562 (by norm_num)
    simpa using this
  have hprod : fl32 ((300 : ℚ) * 14316562) = .fin 4294968832 := by
    have := fl32_eval ((300 : ℚ) * 14316562) 32 8388611 (by norm_num)
      (by rw [abs_of_pos (by norm_num)]; norm_num)
      (by rw [abs_of_pos (by norm_num)]; norm_num)
      (by rw [abs_lt]; constructor <;> norm_num)
      (by rw [abs_of_pos (by norm_num)]; norm_num)
    rw [this]; norm_num
  have hquot : fl32 ((4294968832 : ℚ) / 14316562) = .fin (9830401 / 32768) := by
    have := fl32_eval ((4294968832 : ℚ) / 14316562) 8 9830401 (by norm_num)
      (by rw [abs_of_pos (by norm_num)]; norm_num)
      (by rw [abs_of_pos (by norm_num)]; norm_num)
      (by rw [abs_lt]; constructor <;> norm_num)
      (by rw [abs_of_pos (by norm_num)]; norm_num)
    rw [this]; norm_num
  have hne : (14316562 : ℚ) ≠ 0 := by norm_num
  have hmul : Dbl.mulF (.fin 300) (.fin 14316562) = .fin 4294968832 := by
    simp only [Dbl.mulF, hprod]
  have hdiv : Dbl.divF (.fin 4294968832) (.fin 14316562) = .fin (9830401 / 32768) := by
    simp only [Dbl.divF, hne, if_false, hquot]
  have hto : Dbl.toFloat (.fin 14316562) = .fin 14316562 := by
    simp only [Dbl.toFloat, hG]
  unfold scaleBin CHistLib.new
  simp only
  rw [h300, hto, hmul, hdiv]

/-! ## What `DrawHistBin` draws -/

theorem toInt_small (n : ℕ) (h : n < 2147483648) : toInt n = n := by
  unfold toInt
  have : n % 4294967296 = n := Nat.mod_eq_of_lt (by omega)
  rw [this, if_pos h]

/-- The body of `DrawHistBin` for a pixel height `r` between `0` and the image
height, at horizontal offset `x`: nothing for `r = 0`, otherwise one call of
`line` from `(x + border, border + height)` to
`(x + border, border + height - r)`. -/
theorem drawHistBinHeight_line (line : Mat → Point → Point → Scalar → ℤ → Mat)
    (self : CHistLib) (img : Mat) (r : ℤ) (x : ℕ) (c : Scalar) (hr0 : 0 ≤ r)
    (hrh : r ≤ self.mHistImageHeight)
    (hx : x + self.mHistImageBorder < 2147483648)
    (hy : self.mHistImageBorder + self.mHistImageHeight < 2147483648) :
    DrawHistBinHeight line self img (toUnsigned r) x c
      = if r = 0 then img
        else line img
          ⟨(x : ℤ) + self.mHistImageBorder,
            (self.mHistImageBorder : ℤ) + self.mHistImageHeight⟩
          ⟨(x : ℤ) + self.mHistImageBorder,
            (self.mHistImageBorder : ℤ) + self.mHistImageHeight - r⟩ c 1 := by
  obtain ⟨k, hk⟩ : ∃ k : ℕ, r = k := ⟨r.toNat, by omega⟩
  subst hk
  have hu : toUnsigned (k : ℤ) = k := by
    simp only [toUnsigned]; omega
  have hkh : k ≤ self.mHistImageHeight := by exact_mod_cast hrh
  unfold DrawHistBinHeight
  rw [hu]
  by_cases hz : k = 0
  · subst hz
    simp
  · have hz' : ¬ ((k : ℤ) = 0) := by exact_mod_cast hz
    rw [if_pos hz, if_neg hz']
    have e1 : (x + self.mHistImageBorder) % 4294967296 = x + self.mHistImageBorder :=
      Nat.mod_eq_of_lt (by omega)
    have e2 : (self.mHistImageBorder + self.mHistImageHeight) % 4294967296
        = self.mHistImageBorder + self.mHistImageHeight := Nat.mod_eq_of_lt (by omega)
    have e3 : (self.mHistImageBorder + self.mHistImageHeight + 4294967296 - k) % 4294967296
        = self.mHistImageBorder + self.mHistImageHeight - k := by omega
    simp only [e1, e2, e3]
    rw [toInt_small _ hx, toInt_small _ hy, toInt_small _ (by omega)]
    have e4 : ((self.mHistImageBorder + self.mHistImageHeight - k : ℕ) : ℤ)
        = (self.mHistImageBorder : ℤ) + self.mHistImageHeight - k := by omega
    rw [e4]
    push_cast
    rfl

/-- A `float` or `double` bin value `V` between `0` and the image height is
rounded to a pixel height between `0` and the image height. -/
theorem cvRound_height (cvRound : Dbl → ℤ) (hr : CvRoundNearest cvRound) (V : ℚ) (h : ℕ)
    (hV0 : 0 ≤ V) (hVh : V ≤ h) (hh : h < 2147483648) :
    0 ≤ cvRound (.fin V) ∧ cvRound (.fin V) ≤ h := by
  have hhq : (h : ℚ) ≤ 2147483647 := by
    have : h ≤ 2147483647 := by omega
    exact_mod_cast this
  have hn := hr V (by linarith) (by linarith)
  rw [abs_le] at hn
  constructor
  · have : (-1 : ℚ) < cvRound (.fin V) := by linarith
    have : (-1 : ℤ) < cvRound (.fin V) := by exact_mod_cast this
    omega
  · have : (cvRound (.fin V) : ℚ) < ((h : ℤ) : ℚ) + 1 := by push_cast; linarith
    have : cvRound (.fin V) < (h : ℤ) + 1 := by exact_mod_cast this
    omega

theorem cvRound_zero (cvRound : Dbl → ℤ) (hr : CvRoundNearest cvRound) :
    cvRound (.fin 0) = 0 := by
  have h := hr 0 (by norm_num) (by norm_num)
  have h' : |((cvRound (.fin 0) : ℤ) : ℚ) - ((0 : ℤ) : ℚ)| ≤ 1 / 2 := by simpa using h
  exact int_eq_of_abs_sub_le_half h'

/-- Bins of pixel height zero leave the image as it is. -/
theorem drawBins_id (f : Mat → ℕ → Mat) (l : List ℕ) (img : Mat)
    (h : ∀ i ∈ l, ∀ m : Mat, f m i = m) : drawBins f l img = img := by
  rw [drawBins_congr f (fun m _ => m) l img h]
  clear h
  induction l generalizing img with
  | nil => rfl
  | cons i rest ih => simp only [drawBins]; exact ih img

theorem drawHistBinHeight_zero (line : Mat → Point → Point → Scalar → ℤ → Mat)
    (self : CHistLib) (img : Mat) (x : ℕ) (c : Scalar) :
    DrawHistBinHeight line self img 0 x c = img := by
  simp [DrawHistBinHeight]

/-! ## Independence of the previous target, and of the vector's orientation -/

/-- For a histogram of valid shape the result of `DrawHistogram` depends
neither on what the target held before nor on the `Color` argument. -/
theorem drawHistogram_target_irrelevant (cvRound : Dbl → ℤ)
    (line : Mat → Point → Point → Scalar → ℤ → Mat)
    (putText : Mat → String → Point → Scalar → Mat) (self : CHistLib)
    (Hist : HistMat) (img1 img2 : Mat) (c1 c2 : Scalar) (L : ℕ) (hL : 2 ≤ L)
    (hshape : (Hist.rows = 1 ∧ Hist.cols = L) ∨ (Hist.cols = 1 ∧ Hist.rows = L)) :
    DrawHistogram cvRound line putText self Hist img1 c1
      = DrawHistogram cvRound line putText self Hist img2 c2 := by
  by_cases h32F : Hist.type = .CV_32F
  · rw [drawHistogram_real cvRound line putText self Hist img1 c1 L hL hshape (Or.inl h32F),
      drawHistogram_real cvRound line putText self Hist img2 c2 L hL hshape (Or.inl h32F)]
  by_cases h64F : Hist.type = .CV_64F
  · rw [drawHistogram_real cvRound line putText self Hist img1 c1 L hL hshape (Or.inr h64F),
      drawHistogram_real cvRound line putText self Hist img2 c2 L hL hshape (Or.inr h64F)]
  by_cases h32S : Hist.type = .CV_32S
  · rw [drawHistogram_int cvRound line putText self Hist img1 c1 L hL hshape h32S,
      drawHistogram_int cvRound line putText self Hist img2 c2 L hL hshape h32S]
  rw [drawHistogram_unsupported_type cvRound line putText self Hist img1 c1 L hL hshape
      h32F h64F h32S,
    drawHistogram_unsupported_type cvRound line putText self Hist img2 c2 L hL hshape
      h32F h64F h32S]

theorem binReal_rowVector (t : MatType) (L : ℕ) (vr : ℕ → Dbl) (vi : ℕ → ℤ) (i : ℕ) :
    (HistMat.rowVector t L vr vi).binReal i = vr i := by
  simp [HistMat.binReal, HistMat.rowVector]

theorem binInt_rowVector (t : MatType) (L : ℕ) (vr : ℕ → Dbl) (vi : ℕ → ℤ) (i : ℕ) :
    (HistMat.rowVector t L vr vi).binInt i = vi i := by
  simp [HistMat.binInt, HistMat.rowVector]

theorem binReal_colVector (t : MatType) (L : ℕ) (hL : 2 ≤ L) (vr : ℕ → Dbl) (vi : ℕ → ℤ)
    (i : ℕ) : (HistMat.colVector t L vr vi).binReal i = vr i := by
  have : ¬ L = 1 := by omega
  simp [HistMat.binReal, HistMat.colVector, this]

theorem binInt_colVector (t : MatType) (L : ℕ) (hL : 2 ≤ L) (vr : ℕ → Dbl) (vi : ℕ → ℤ)
    (i : ℕ) : (HistMat.colVector t L vr vi).binInt i = vi i := by
  have : ¬ L = 1 := by omega
  simp [HistMat.binInt, HistMat.colVector, this]

/-- A row vector and a column vector with the same values and the same element
type give the same image. -/
theorem drawHistogram_row_col (cvRound : Dbl → ℤ)
    (line : Mat → Point → Point → Scalar → ℤ → Mat)
    (putText : Mat → String → Point → Scalar → Mat) (self : CHistLib)
    (t : MatType) (L : ℕ) (hL : 2 ≤ L) (vr : ℕ → Dbl) (vi : ℕ → ℤ)
    (HistImage : Mat) (Color : Scalar) :
    DrawHistogram cvRound line putText self (HistMat.rowVector t L vr vi) HistImage Color
      = DrawHistogram cvRound line putText self (HistMat.colVector t L vr vi) HistImage
          Color := by
  have hrow : ((HistMat.rowVector t L vr vi).rows = 1 ∧ (HistMat.rowVector t L vr vi).cols = L)
      ∨ ((HistMat.rowVector t L vr vi).cols = 1 ∧ (HistMat.rowVector t L vr vi).rows = L) :=
    Or.inl ⟨rfl, rfl⟩
  have hcol : ((HistMat.colVector t L vr vi).rows = 1 ∧ (HistMat.colVector t L vr vi).cols = L)
      ∨ ((HistMat.colVector t L vr vi).cols = 1 ∧ (HistMat.colVector t L vr vi).rows = L) :=
    Or.inr ⟨rfl, rfl⟩
  have hreal : (fun i => (HistMat.rowVector t L vr vi).binReal i)
      = fun i => (HistMat.colVector t L vr vi).binReal i := by
    funext i; rw [binReal_rowVector, binReal_colVector t L hL]
  have hint : (fun i => (HistMat.rowVector t L vr vi).binInt i)
      = fun i => (HistMat.colVector t L vr vi).binInt i := by
    funext i; rw [binInt_rowVector, binInt_colVector t L hL]
  have hreal' : ∀ i, (HistMat.rowVector t L vr vi).binReal i
      = (HistMat.colVector t L vr vi).binReal i := fun i => congrFun hreal i
  have hint' : ∀ i, (HistMat.rowVector t L vr vi).binInt i
      = (HistMat.colVector t L vr vi).binInt i := fun i => congrFun hint i
  by_cases h32F : t = .CV_32F
  · rw [drawHistogram_real cvRound line putText self _ HistImage Color L hL hrow (Or.inl h32F),
      drawHistogram_real cvRound line putText self _ HistImage Color L hL hcol (Or.inl h32F)]
    simp only [hreal']
  by_cases h64F : t = .CV_64F
  · rw [drawHistogram_real cvRound line putText self _ HistImage Color L hL hrow (Or.inr h64F),
      drawHistogram_real cvRound line putText self _ HistImage Color L hL hcol (Or.inr h64F)]
    simp only [hreal']
  by_cases h32S : t = .CV_32S
  · rw [drawHistogram_int cvRound line putText self _ HistImage Color L hL hrow h32S,
      drawHistogram_int cvRound line putText self _ HistImage Color L hL hcol h32S]
    simp only [hint']
  rw [drawHistogram_unsupported_type cvRound line putText self _ HistImage Color L hL hrow
      h32F h64F h32S,
    drawHistogram_unsupported_type cvRound line putText self _ HistImage Color L hL hcol
      h32F h64F h32S]

/-! ## Bins, zero histograms and the three draws of `DrawHistogramBGR` -/

theorem drawHistBinReal_line (cvRound : Dbl → ℤ) (hr : CvRoundNearest cvRound)
    (line : Mat → Point → Point → Scalar → ℤ → Mat) (self : CHistLib) (img : Mat) (V : ℚ)
    (i : ℕ) (c : Scalar) (hV0 : 0 ≤ V) (hVh : V ≤ self.mHistImageHeight)
    (hx : i * 3 + self.mHistImageBorder < 2147483648)
    (hy : self.mHistImageBorder + self.mHistImageHeight < 2147483648) :
    DrawHistBinReal cvRound line self img (.fin V) (i * 3) c
      = if cvRound (.fin V) = 0 then img
        else line img
          ⟨(i : ℤ) * 3 + self.mHistImageBorder,
            (self.mHistImageBorder : ℤ) + self.mHistImageHeight⟩
          ⟨(i : ℤ) * 3 + self.mHistImageBorder,
            (self.mHistImageBorder : ℤ) + self.mHistImageHeight - cvRound (.fin V)⟩ c 1 := by
  obtain ⟨h0, h1⟩ := cvRound_height cvRound hr V self.mHistImageHeight hV0 hVh (by omega)
  have := drawHistBinHeight_line line self img (cvRound (.fin V)) (i * 3) c h0 h1 hx hy
  simp only [DrawHistBinReal, this]
  push_cast
  rfl

theorem drawHistBinInt_line (line : Mat → Point → Point → Scalar → ℤ → Mat) (self : CHistLib)
    (img : Mat) (V : ℤ) (i : ℕ) (c : Scalar) (hV0 : 0 ≤ V) (hVh : V ≤ self.mHistImageHeight)
    (hx : i * 3 + self.mHistImageBorder < 2147483648)
    (hy : self.mHistImageBorder + self.mHistImageHeight < 2147483648) :
    DrawHistBinInt line self img V (i * 3) c
      = if V = 0 then img
        else line img
          ⟨(i : ℤ) * 3 + self.mHistImageBorder,
            (self.mHistImageBorder : ℤ) + self.mHistImageHeight⟩
          ⟨(i : ℤ) * 3 + self.mHistImageBorder,
            (self.mHistImageBorder : ℤ) + self.mHistImageHeight - V⟩ c 1 := by
  have := drawHistBinHeight_line line self img V (i * 3) c hV0 hVh hx hy
  simp only [DrawHistBinInt, this]
  push_cast
  rfl

/-- A histogram of a supported type whose values are all zero: nothing but the
axis is drawn on the prepared target. -/
theorem drawHistogram_zero (cvRound : Dbl → ℤ) (hr : CvRoundNearest cvRound)
    (line : Mat → Point → Point → Scalar → ℤ → Mat)
    (putText : Mat → String → Point → Scalar → Mat) (self : CHistLib)
    (Hist : HistMat) (HistImage : Mat) (Color : Scalar) (L : ℕ) (hL : 2 ≤ L)
    (hshape : (Hist.rows = 1 ∧ Hist.cols = L) ∨ (Hist.cols = 1 ∧ Hist.rows = L))
    (hzero : ((Hist.type = .CV_32F ∨ Hist.type = .CV_64F) ∧
        ∀ i, i < L → Hist.binReal i = .fin 0) ∨
      (Hist.type = .CV_32S ∧ ∀ i, i < L → Hist.binInt i = 0)) :
    DrawHistogram cvRound line putText self Hist HistImage Color
      = if self.mDrawXAxis then DrawHistBar line putText self (self.canvas L) L
        else self.canvas L := by
  have hu0 : toUnsigned 0 = 0 := rfl
  rcases hzero with ⟨ht, hz⟩ | ⟨ht, hz⟩
  · rw [drawHistogram_real cvRound line putText self Hist HistImage Color L hL hshape ht]
    have hid : drawBins (fun img i => DrawHistBinReal cvRound line self img (Hist.binReal i)
        (i * 3) self.mHistPlotColor) (List.range L) (self.canvas L) = self.canvas L := by
      apply drawBins_id
      intro i hi m
      rw [hz i (List.mem_range.mp hi)]
      simp only [DrawHistBinReal, cvRound_zero cvRound hr, hu0, drawHistBinHeight_zero]
    rw [hid]
  · rw [drawHistogram_int cvRound line putText self Hist HistImage Color L hL hshape ht]
    have hid : drawBins (fun img i => DrawHistBinInt line self img (Hist.binInt i)
        (i * 3) self.mHistPlotColor) (List.range L) (self.canvas L) = self.canvas L := by
      apply drawBins_id
      intro i hi m
      rw [hz i (List.mem_range.mp hi)]
      simp only [DrawHistBinInt, hu0, drawHistBinHeight_zero]
    rw [hid]

theorem stdMax_natCast (a b : ℕ) :
    Dbl.stdMax (.fin (a : ℚ)) (.fin (b : ℚ)) = .fin ((max a b : ℕ) : ℚ) := by
  unfold Dbl.stdMax Dbl.lt Dbl.gt
  by_cases h : a < b
  · have hq : (a : ℚ) < b := by exact_mod_cast h
    simp only [hq, decide_True, if_true]
    rw [max_eq_right (le_of_lt h)]
  · have hq : ¬ (a : ℚ) < b := by exact_mod_cast h
    simp only [hq, decide_False, Bool.false_eq_true, if_false]
    rw [max_eq_left (not_lt.mp h)]

/-- What `DrawHistogramBGR` returns is what the third call of `DrawHistogram`
alone returns on an empty target: the first two draws leave no trace. -/
theorem drawHistogramBGR_last_draw {α : Type} (cvRound : Dbl → ℤ)
    (line : Mat → Point → Point → Scalar → ℤ → Mat)
    (putText : Mat → String → Point → Scalar → Mat)
    (calcHist : α → ℕ → ℕ → HistMat) (maxVal : HistMat → Dbl)
    (blue green red : Scalar) (self : CHistLib) (ImageBGR : α) (ImageHist : Mat)
    (hn : 2 ≤ self.mBinCount)
    (hshape : ∀ ch, ch < 3 → (calcHist ImageBGR ch self.mBinCount).rows = self.mBinCount ∧
      (calcHist ImageBGR ch self.mBinCount).cols = 1) :
    DrawHistogramBGR cvRound line putText calcHist maxVal blue green red self ImageBGR ImageHist
      = DrawHistogram cvRound line putText self
          (scaleHist self
            (Dbl.stdMax (maxVal (calcHist ImageBGR 0 self.mBinCount))
              (Dbl.stdMax (maxVal (calcHist ImageBGR 1 self.mBinCount))
                (maxVal (calcHist ImageBGR 2 self.mBinCount))))
            (calcHist ImageBGR 0 self.mBinCount).rows (calcHist ImageBGR 2 self.mBinCount))
          emptyMat red := by
  unfold DrawHistogramBGR
  simp only
  apply drawHistogram_target_irrelevant cvRound line putText self _ _ _ _ _ self.mBinCount hn
  right
  exact ⟨(hshape 2 (by norm_num)).2, (hshape 2 (by norm_num)).1⟩

/-! ## The constant image: when it comes out unchanged -/

/-- A non-empty image with constant value channel `c` comes out of
`NormalizeImageBGR` unchanged only if `c` is the byte of `cvRound (NaN)`. -/
theorem normalize_constant_fixed_iff (cvRound : Dbl → ℤ) (img : List PixelHSV) (c : Fin 256)
    (hne : img ≠ []) (hc : ∀ p ∈ img, p.v = c) :
    NormalizeImageBGR cvRound img = img ↔ c = toUChar (cvRound .nan) := by
  rw [normalize_constant cvRound img c hne hc]
  constructor
  · intro h
    obtain ⟨p, hp⟩ := List.exists_mem_of_ne_nil img hne
    obtain ⟨i, hi⟩ := List.getElem?_of_mem hp
    have h2 : (img.map (fun p : PixelHSV =>
        (⟨p.h, p.s, toUChar (cvRound .nan)⟩ : PixelHSV)))[i]? = some p := by
      rw [h]; exact hi
    rw [List.getElem?_map, hi] at h2
    simp only [Option.map_some', Option.some.injEq] at h2
    have h3 := congrArg PixelHSV.v h2
    simp only at h3
    rw [← hc p hp]
    exact h3.symm
  · intro h
    conv_rhs => rw [← List.map_id img]
    apply List.map_congr_left
    intro p hp
    have hv := hc p hp
    cases p with
    | mk ph ps pv =>
        simp only at hv
        simp only [id, PixelHSV.mk.injEq, true_and]
        rw [hv, h]

/-! ## One bin among the others -/

theorem range_split (L i : ℕ) (hi : i < L) :
    List.range L = List.range i ++ i :: List.range' (i + 1) (L - (i + 1)) := by
  apply List.ext_getElem?
  intro k
  rcases Nat.lt_trichotomy k i with h | h | h
  · rw [List.getElem?_append_left (by simpa using h)]
    rw [List.getElem?_range (by omega), List.getElem?_range h]
  · subst h
    rw [List.getElem?_append_right (by simp)]
    simp [List.getElem?_range hi]
  · rw [List.getElem?_append_right (by simp; omega)]
    simp only [List.length_range]
    obtain ⟨d, hd⟩ : ∃ d, k - i = d + 1 := ⟨k - i - 1, by omega⟩
    rw [hd, List.getElem?_cons_succ]
    by_cases hk : k < L
    · rw [List.getElem?_range hk, List.getElem?_range' _ _ (by omega)]
      congr 1
      omega
    · rw [List.getElem?_eq_none (by simp; omega), List.getElem?_eq_none (by simp; omega)]

/-- A loop of draws none of which touches column `col` leaves that column as
it was. -/
theorem foldl_column (f : Mat → ℕ → Mat) (col : ℕ) (l : List ℕ)
    (h : ∀ j ∈ l, ∀ (m : Mat) (row : ℕ), (f m j).data row col = m.data row col) :
    ∀ (img : Mat) (row : ℕ), (l.foldl f img).data row col = img.data row col := by
  induction l with
  | nil => intro img row; rfl
  | cons j rest ih =>
      intro img row
      rw [List.foldl_cons, ih (fun k hk => h k (List.mem_cons_of_mem _ hk)),
        h j (List.mem_cons_self _ _)]

/-- With a `line` that paints a vertical segment of thickness 1 in its own
column only, `DrawHistBin` at horizontal offset `x` leaves every other column
as it was, whatever the pixel height. -/
theorem drawHistBinHeight_other_column (line : Mat → Point → Point → Scalar → ℤ → Mat)
    (hline : ∀ (img : Mat) (x y1 y2 : ℤ) (c : Scalar) (row col : ℕ),
      (line img ⟨x, y1⟩ ⟨x, y2⟩ c 1).data row col
        = if (col : ℤ) = x ∧ min y1 y2 ≤ (row : ℤ) ∧ (row : ℤ) ≤ max y1 y2 then c
          else img.data row col)
    (self : CHistLib) (img : Mat) (PixelHeight x : ℕ) (c : Scalar) (row col : ℕ)
    (hx : x + self.mHistImageBorder < 2147483648) (hcol : col ≠ x + self.mHistImageBorder) :
    (DrawHistBinHeight line self img PixelHeight x c).data row col = img.data row col := by
  unfold DrawHistBinHeight
  by_cases hp : PixelHeight ≠ 0
  · rw [if_pos hp]
    simp only
    rw [hline]
    have e1 : (x + self.mHistImageBorder) % 4294967296 = x + self.mHistImageBorder :=
      Nat.mod_eq_of_lt (by omega)
    rw [e1, toInt_small _ hx]
    have hne : ¬ ((col : ℤ) = ((x + self.mHistImageBorder : ℕ) : ℤ)) := by
      intro h; exact hcol (by exact_mod_cast h)
    rw [if_neg (fun h => hne h.1)]
  · rw [if_neg hp]

/-- A loop over the bins `0, ..., L - 1` when bin `i` has a pixel height `r`
between `0` and the image height: the result is the draw of the bins before
`i`, then one `line` from `(i * 3 + border, border + height)` to
`(i * 3 + border, border + height - r)` (nothing for `r = 0`), then the draw of
the bins after `i`.  With a `line` that paints a vertical segment of thickness
1 in its own column, endpoints included, column `i * 3 + border` of the result
holds the plot colour in the rows `border + height - r .. border + height`
(none for `r = 0`) and the background colour elsewhere. -/
theorem foldl_bin (line : Mat → Point → Point → Scalar → ℤ → Mat) (self : CHistLib)
    (f : Mat → ℕ → Mat) (PH : ℕ → ℕ)
    (hf : ∀ (img : Mat) (j : ℕ),
      f img j = DrawHistBinHeight line self img (PH j) (j * 3) self.mHistPlotColor)
    (L i : ℕ) (hi : i < L) (r : ℤ) (hr0 : 0 ≤ r) (hrh : r ≤ self.mHistImageHeight)
    (hPH : PH i = toUnsigned r)
    (hx : 3 * L + self.mHistImageBorder < 2147483648)
    (hy : self.mHistImageBorder + self.mHistImageHeight < 2147483648) :
    (List.range L).foldl f (self.canvas L)
      = (List.range' (i + 1) (L - (i + 1))).foldl f
          (if r = 0 then (List.range i).foldl f (self.canvas L)
           else line ((List.range i).foldl f (self.canvas L))
             ⟨(i : ℤ) * 3 + self.mHistImageBorder,
               (self.mHistImageBorder : ℤ) + self.mHistImageHeight⟩
             ⟨(i : ℤ) * 3 + self.mHistImageBorder,
               (self.mHistImageBorder : ℤ) + self.mHistImageHeight - r⟩
             self.mHistPlotColor 1) ∧
    ((∀ (img : Mat) (x y1 y2 : ℤ) (c : Scalar) (row col : ℕ),
        (line img ⟨x, y1⟩ ⟨x, y2⟩ c 1).data row col
          = if (col : ℤ) = x ∧ min y1 y2 ≤ (row : ℤ) ∧ (row : ℤ) ≤ max y1 y2 then c
            else img.data row col) →
      ∀ row : ℕ,
        ((List.range L).foldl f (self.canvas L)).data row (i * 3 + self.mHistImageBorder)
          = if r ≠ 0 ∧ (self.mHistImageBorder : ℤ) + self.mHistImageHeight - r ≤ (row : ℤ) ∧
                (row : ℤ) ≤ (self.mHistImageBorder : ℤ) + self.mHistImageHeight
            then self.mHistPlotColor else self.mHistBackgroundColor) := by
  have hstep : ∀ img : Mat, f img i
      = if r = 0 then img
        else line img
          ⟨(i : ℤ) * 3 + self.mHistImageBorder,
            (self.mHistImageBorder : ℤ) + self.mHistImageHeight⟩
          ⟨(i : ℤ) * 3 + self.mHistImageBorder,
            (self.mHistImageBorder : ℤ) + self.mHistImageHeight - r⟩
          self.mHistPlotColor 1 := by
    intro img
    rw [hf, hPH, drawHistBinHeight_line line self img r (i * 3) _ hr0 hrh (by omega) hy]
    push_cast
    rfl
  have hsplit : (List.range L).foldl f (self.canvas L)
      = (List.range' (i + 1) (L - (i + 1))).foldl f
          (f ((List.range i).foldl f (self.canvas L)) i) := by
    rw [range_split L i hi, List.foldl_append, List.foldl_cons]
  have hdec : (List.range L).foldl f (self.canvas L)
      = (List.range' (i + 1) (L - (i + 1))).foldl f
          (if r = 0 then (List.range i).foldl f (self.canvas L)
           else line ((List.range i).foldl f (self.canvas L))
             ⟨(i : ℤ) * 3 + self.mHistImageBorder,
               (self.mHistImageBorder : ℤ) + self.mHistImageHeight⟩
             ⟨(i : ℤ) * 3 + self.mHistImageBorder,
               (self.mHistImageBorder : ℤ) + self.mHistImageHeight - r⟩
             self.mHistPlotColor 1) := by
    rw [hsplit, hstep]
  refine ⟨hdec, ?_⟩
  intro hline row
  have hother : ∀ j, j < L → j ≠ i → ∀ (m : Mat) (row : ℕ),
      (f m j).data row (i * 3 + self.mHistImageBorder)
        = m.data row (i * 3 + self.mHistImageBorder) := by
    intro j hj hji m row
    rw [hf]
    exact drawHistBinHeight_other_column line hline self m (PH j) (j * 3)
      self.mHistPlotColor row _ (by omega) (by omega)
  have hbefore : ∀ row : ℕ,
      ((List.range i).foldl f (self.canvas L)).data row (i * 3 + self.mHistImageBorder)
        = self.mHistBackgroundColor := by
    intro row
    rw [foldl_column f _ (List.range i)
      (fun j hj => hother j (by have := List.mem_range.mp hj; omega)
        (by have := List.mem_range.mp hj; omega))]
    rfl
  rw [hdec, foldl_column f _ (List.range' (i + 1) (L - (i + 1)))
    (fun j hj => hother j (by have := List.mem_range'_1.mp hj; omega)
      (by have := List.mem_range'_1.mp hj; omega))]
  by_cases hz : r = 0
  · rw [if_pos hz, hbefore]
    have : ¬ (r ≠ 0 ∧ (self.mHistImageBorder : ℤ) + self.mHistImageHeight - r ≤ (row : ℤ) ∧
        (row : ℤ) ≤ (self.mHistImageBorder : ℤ) + self.mHistImageHeight) := fun h => h.1 hz
    rw [if_neg this]
  · rw [if_neg hz, hline, hbefore]
    have hmin : min ((self.mHistImageBorder : ℤ) + self.mHistImageHeight)
        ((self.mHistImageBorder : ℤ) + self.mHistImageHeight - r)
        = (self.mHistImageBorder : ℤ) + self.mHistImageHeight - r := min_eq_right (by omega)
    have hmax : max ((self.mHistImageBorder : ℤ) + self.mHistImageHeight)
        ((self.mHistImageBorder : ℤ) + self.mHistImageHeight - r)
        = (self.mHistImageBorder : ℤ) + self.mHistImageHeight := max_eq_left (by omega)
    have hcol : ((i * 3 + self.mHistImageBorder : ℕ) : ℤ)
        = (i : ℤ) * 3 + self.mHistImageBorder := by push_cast; rfl
    rw [hmin, hmax, hcol]
    by_cases hrow : (self.mHistImageBorder : ℤ) + self.mHistImageHeight - r ≤ (row : ℤ) ∧
        (row : ℤ) ≤ (self.mHistImageBorder : ℤ) + self.mHistImageHeight
    · rw [if_pos ⟨rfl, hrow⟩, if_pos ⟨hz, hrow⟩]
    · rw [if_neg (fun h => hrow h.2), if_neg (fun h => hrow h.2)]

/-! ## The painting stand-in for `line` -/

/-- The stand-in `paintLine` paints a vertical segment in its own column,
endpoints included. -/
theorem paintLine_vertical (img : Mat) (x y1 y2 : ℤ) (c : Scalar) (t : ℤ) (row col : ℕ) :
    (paintLine img ⟨x, y1⟩ ⟨x, y2⟩ c t).data row col
      = if (col : ℤ) = x ∧ min y1 y2 ≤ (row : ℤ) ∧ (row : ℤ) ≤ max y1 y2 then c
        else img.data row col := by
  unfold paintLine
  simp only [true_and]
  by_cases h : (col : ℤ) = x ∧ min y1 y2 ≤ (row : ℤ) ∧ (row : ℤ) ≤ max y1 y2
  · rw [if_pos h, if_pos (Or.inl h)]
  · by_cases hh : y1 = y2 ∧ (row : ℤ) = y1 ∧ min x x ≤ (col : ℤ) ∧ (col : ℤ) ≤ max x x
    · exfalso
      apply h
      obtain ⟨e, hrow, hc1, hc2⟩ := hh
      rw [min_self] at hc1
      rw [max_self] at hc2
      subst e
      rw [min_self, max_self]
      exact ⟨le_antisymm hc2 hc1, hrow.ge, hrow.le⟩
    · rw [if_neg h, if_neg (fun hor => hor.elim h hh)]

/-- With the constructor's configuration (white axis), the painting `line` and
a `putText` that writes nothing, `DrawHistBar` for two bins paints the elements
`15 .. 21` of row 315 white and leaves every other element as it was. -/
theorem drawHistBar_paintLine (bars : Mat) (row col : ℕ) :
    (DrawHistBar paintLine idText (CHistLib.new whiteScalar zeroScalar) bars 2).data row col
      = if row = 315 ∧ 15 ≤ col ∧ col ≤ 21 then whiteScalar else bars.data row col := by
  have e1 : toInt 15 = 15 := by decide
  have e2 : toInt ((15 + 300) % 4294967296) = 315 := by decide
  have e3 : toInt ((15 + 3 * 2) % 4294967296) = 21 := by decide
  simp only [DrawHistBar, idText, paintLine, CHistLib.new, e1, e2, e3]
  apply if_congr _ rfl rfl
  rw [min_self, max_self, min_eq_left (by norm_num : (15 : ℤ) ≤ 21),
    max_eq_right (by norm_num : (15 : ℤ) ≤ 21)]
  constructor
  · rintro (⟨hx, _⟩ | ⟨_, hr, h1, h2⟩)
    · exact absurd hx (by norm_num)
    · omega
  · rintro ⟨hr, h1, h2⟩
    right
    refine ⟨trivial, ?_, ?_, ?_⟩ <;> omega

/-! ## The relative error of single-precision rounding -/

theorem fl32_zero : fl32 0 = .fin 0 := by
  have := fl32_intCast 0 (by norm_num)
  simpa using this

/-- A rational in the normal range of binary32 rounds to a float within the
relative error `2 ^ (-24)`. -/
theorem fl32_rel (x : ℚ) (hlo : (2 : ℚ) ^ (-126 : ℤ) ≤ |x|) (hhi : |x| < (2 : ℚ) ^ (127 : ℤ)) :
    ∃ r : ℚ, fl32 x = .fin r ∧ |r - x| ≤ |x| / 2 ^ 24 := by
  have hu := ulp32_pos x
  have hpos : (0 : ℚ) < |x| := lt_of_lt_of_le (by positivity) hlo
  have hlog : -126 ≤ Int.log 2 |x| := by
    rw [← Int.zpow_le_iff_le_log (by norm_num) hpos]
    exact_mod_cast hlo
  have hself : (2 : ℚ) ^ (Int.log 2 |x|) ≤ |x| := by
    have := Int.zpow_log_le_self (b := 2) (r := |x|) (by norm_num) hpos
    exact_mod_cast this
  have hulp : ulp32 x = 2 ^ (Int.log 2 |x|) / 2 ^ 23 := by
    unfold ulp32
    rw [max_eq_left hlog, zpow_sub₀ (by norm_num)]
    norm_num
  have hule : ulp32 x ≤ |x| / 2 ^ 23 := by
    rw [hulp]
    exact div_le_div_of_nonneg_right hself (by positivity)
  have hr := roundTiesEven_near (x / ulp32 x)
  have hdiff : |(roundTiesEven (x / ulp32 x) : ℚ) * ulp32 x - x| ≤ |x| / 2 ^ 24 := by
    have e : (roundTiesEven (x / ulp32 x) : ℚ) * ulp32 x - x
        = ((roundTiesEven (x / ulp32 x) : ℚ) - x / ulp32 x) * ulp32 x := by
      field_simp
    rw [e, abs_mul, abs_of_pos hu]
    calc |(roundTiesEven (x / ulp32 x) : ℚ) - x / ulp32 x| * ulp32 x
        ≤ 1 / 2 * (|x| / 2 ^ 23) := mul_le_mul hr hule hu.le (by norm_num)
      _ = |x| / 2 ^ 24 := by ring
  refine ⟨(roundTiesEven (x / ulp32 x) : ℚ) * ulp32 x, ?_, hdiff⟩
  unfold fl32
  have hsmall : ¬ (2 : ℚ) ^ 128 ≤ |(roundTiesEven (x / ulp32 x) : ℚ) * ulp32 x| := by
    have h3 := abs_sub_abs_le_abs_sub ((roundTiesEven (x / ulp32 x) : ℚ) * ulp32 x) x
    have h4 : |x| / 2 ^ 24 ≤ |x| := div_le_self hpos.le (by norm_num)
    have h5 : (2 : ℚ) ^ (127 : ℤ) + 2 ^ (127 : ℤ) = 2 ^ 128 := by norm_num
    linarith
  simp only [hsmall, if_false]

/-- Three roundings in a row, each with relative error at most `d`, for a
product `a`, a divisor `G` and the quotient: the result is within `4 * d` of
`a / G`, relatively. -/
theorem scale_chain_bound (a G p g s d : ℚ) (ha : 0 ≤ a) (hG : 0 < G) (hd0 : 0 ≤ d)
    (hd : d ≤ 1 / 5) (hp : |p - a| ≤ a * d) (hg : |g - G| ≤ G * d)
    (hs : |s - p / g| ≤ p / g * d) :
    0 < g ∧ 0 ≤ s ∧ |s - a / G| ≤ a / G * (4 * d) := by
  rw [abs_le] at hp hg hs
  have hgpos : 0 < g := by nlinarith [hg.1]
  have hp0 : 0 ≤ p := by nlinarith [hp.1]
  have hq0 : 0 ≤ p / g := div_nonneg hp0 hgpos.le
  have hs0 : 0 ≤ s := by nlinarith [hs.1]
  have hqg : p / g * g = p := div_mul_cancel₀ p hgpos.ne'
  -- upper bound
  have hu1 : s * g ≤ p * (1 + d) := by
    have : s ≤ p / g * (1 + d) := by linarith [hs.2]
    calc s * g ≤ p / g * (1 + d) * g := mul_le_mul_of_nonneg_right this hgpos.le
      _ = p * (1 + d) := by rw [mul_right_comm, hqg]
  have hu2 : s * (G * (1 - d)) ≤ s * g := mul_le_mul_of_nonneg_left (by linarith [hg.1]) hs0
  have hu3 : p * (1 + d) ≤ a * (1 + d) * (1 + d) :=
    mul_le_mul_of_nonneg_right (by linarith [hp.2]) (by linarith)
  have hu4 : a * (1 + d) * (1 + d) ≤ a * (1 + 4 * d) * (1 - d) := by
    have : (1 + d) * (1 + d) ≤ (1 + 4 * d) * (1 - d) := by nlinarith
    calc a * (1 + d) * (1 + d) = a * ((1 + d) * (1 + d)) := by ring
      _ ≤ a * ((1 + 4 * d) * (1 - d)) := mul_le_mul_of_nonneg_left this ha
      _ = a * (1 + 4 * d) * (1 - d) := by ring
  have h1d : 0 < 1 - d := by linarith
  have hup : s * G ≤ a * (1 + 4 * d) := by
    have : s * G * (1 - d) ≤ a * (1 + 4 * d) * (1 - d) := by
      calc s * G * (1 - d) = s * (G * (1 - d)) := by ring
        _ ≤ a * (1 + 4 * d) * (1 - d) := by linarith
    exact le_of_mul_le_mul_right this h1d
  -- lower bound
  have hl1 : p * (1 - d) ≤ s * g := by
    have : p / g * (1 - d) ≤ s := by linarith [hs.1]
    calc p * (1 - d) = p / g * (1 - d) * g := by rw [mul_right_comm, hqg]
      _ ≤ s * g := mul_le_mul_of_nonneg_right this hgpos.le
  have hl2 : s * g ≤ s * (G * (1 + d)) := mul_le_mul_of_nonneg_left (by linarith [hg.2]) hs0
  have hl3 : a * (1 - d) * (1 - d) ≤ p * (1 - d) :=
    mul_le_mul_of_nonneg_right (by linarith [hp.1]) h1d.le
  have hl4 : a * (1 - 4 * d) * (1 + d) ≤ a * (1 - d) * (1 - d) := by
    have : (1 - 4 * d) * (1 + d) ≤ (1 - d) * (1 - d) := by nlinarith
    calc a * (1 - 4 * d) * (1 + d) = a * ((1 - 4 * d) * (1 + d)) := by ring
      _ ≤ a * ((1 - d) * (1 - d)) := mul_le_mul_of_nonneg_left this ha
      _ = a * (1 - d) * (1 - d) := by ring
  have hlow : a * (1 - 4 * d) ≤ s * G := by
    have : a * (1 - 4 * d) * (1 + d) ≤ s * G * (1 + d) := by
      calc a * (1 - 4 * d) * (1 + d) ≤ s * (G * (1 + d)) := by linarith
        _ = s * G * (1 + d) := by ring
    exact le_of_mul_le_mul_right this (by linarith)
  refine ⟨hgpos, hs0, ?_⟩
  have hsG : s = s * G / G := by field_simp
  have e1 : s - a / G = (s * G - a) / G := by rw [sub_div, ← hsG]
  have e2 : a / G * (4 * d) = a * (4 * d) / G := by ring
  rw [e1, e2, abs_le, ← neg_div]
  constructor
  · exact div_le_div_of_nonneg_right (by linarith) hG.le
  · exact div_le_div_of_nonneg_right (by linarith) hG.le

/-! ## The scaling of a bin, rounding by rounding -/

/-- The float product `H * c`, the float `G` and the float quotient of the two,
for an image height `H` and counts `c ≤ G` with `0 < G < 2 ^ 31`: the result
`s` is within the relative error `2 ^ (-22)` of `H * c / G`; when `H * G` stays
below `2 ^ 24` the product is exact, `s` does not exceed `H` and `c = G` gives
`s = H`. -/
theorem fl32_scale (H c G : ℕ) (hH : 0 < H) (hH24 : H < 2 ^ 24) (hG : 0 < G)
    (hG31 : G < 2 ^ 31) (hc : c ≤ G) :
    ∃ p g s : ℚ, fl32 ((H : ℚ) * c) = .fin p ∧ fl32 (G : ℚ) = .fin g ∧ g ≠ 0 ∧
      fl32 (p / g) = .fin s ∧ 0 ≤ s ∧
      |s - (H : ℚ) * c / G| ≤ (H : ℚ) * c / G / 2 ^ 22 ∧
      (H * G < 2 ^ 24 → s ≤ H ∧ (c = G → s = H)) := by
  have hGq : (0 : ℚ) < G := by exact_mod_cast hG
  have hG1 : (1 : ℚ) ≤ G := by exact_mod_cast hG
  have hGhi : (G : ℚ) < 2 ^ 31 := by exact_mod_cast hG31
  have hHq : (0 : ℚ) < H := by exact_mod_cast hH
  have hH1 : (1 : ℚ) ≤ H := by exact_mod_cast hH
  have hHhi : (H : ℚ) < 2 ^ 24 := by exact_mod_cast hH24
  have hcG : (c : ℚ) ≤ G := by exact_mod_cast hc
  -- the float of `G`
  obtain ⟨g, hg, hgn⟩ := fl32_rel (G : ℚ)
    (by rw [abs_of_pos hGq]; exact le_trans (by norm_num) hG1)
    (by rw [abs_of_pos hGq]; exact lt_trans hGhi (by norm_num))
  rw [abs_of_pos hGq] at hgn
  have hgn' : |g - (G : ℚ)| ≤ (G : ℚ) * (1 / 2 ^ 24) := by
    rw [mul_one_div]; exact hgn
  have hgb := abs_le.mp hgn
  have hglo : (1 : ℚ) / 2 ≤ g := by
    have : (G : ℚ) / 2 ^ 24 ≤ (G : ℚ) / 2 := by
      apply div_le_div_of_nonneg_left hGq.le (by norm_num) (by norm_num)
    linarith [hgb.1]
  have hghi : g < 2 ^ 32 := by
    have : (G : ℚ) / 2 ^ 24 ≤ G := div_le_self hGq.le (by norm_num)
    have h31 : (2 : ℚ) ^ 31 + 2 ^ 31 = 2 ^ 32 := by norm_num
    linarith [hgb.2]
  have hgpos : 0 < g := by linarith
  have hexact : H * G < 2 ^ 24 → g = G := by
    intro hsmall
    have hG24 : G < 2 ^ 24 := lt_of_le_of_lt (Nat.le_mul_of_pos_left G hH) hsmall
    have := fl32_natCast G hG24
    rw [hg] at this
    exact Dbl.fin.inj this
  rcases Nat.eq_zero_or_pos c with hc0 | hcpos
  · -- an empty bin
    subst hc0
    refine ⟨0, g, 0, ?_, hg, hgpos.ne', ?_, le_refl _, ?_, ?_⟩
    · simp only [Nat.cast_zero, mul_zero, fl32_zero]
    · simp only [zero_div, fl32_zero]
    · simp
    · intro _
      exact ⟨hHq.le, fun h => absurd h.symm hG.ne'⟩
  · have hcq : (1 : ℚ) ≤ c := by exact_mod_cast hcpos
    have ha1 : (1 : ℚ) ≤ (H : ℚ) * c := by nlinarith
    have hapos : (0 : ℚ) < (H : ℚ) * c := by linarith
    have hahi : (H : ℚ) * c < 2 ^ 55 := by
      have h1 : (H : ℚ) * c ≤ (H : ℚ) * G := mul_le_mul_of_nonneg_left hcG hHq.le
      have h2 : (H : ℚ) * G < 2 ^ 24 * 2 ^ 31 := by
        apply mul_lt_mul hHhi hGhi.le hGq (by norm_num)
      have h3 : (2 : ℚ) ^ 24 * 2 ^ 31 = 2 ^ 55 := by norm_num
      linarith
    obtain ⟨p, hp, hpn⟩ := fl32_rel ((H : ℚ) * c)
      (by rw [abs_of_pos hapos]; exact le_trans (by norm_num) ha1)
      (by rw [abs_of_pos hapos]; exact lt_trans hahi (by norm_num))
    rw [abs_of_pos hapos] at hpn
    have hpn' : |p - (H : ℚ) * c| ≤ (H : ℚ) * c * (1 / 2 ^ 24) := by
      rw [mul_one_div]; exact hpn
    have hpb := abs_le.mp hpn
    have hplo : (1 : ℚ) / 2 ≤ p := by
      have : (H : ℚ) * c / 2 ^ 24 ≤ (H : ℚ) * c / 2 := by
        apply div_le_div_of_nonneg_left hapos.le (by norm_num) (by norm_num)
      linarith [hpb.1]
    have hphi : p < 2 ^ 56 := by
      have : (H : ℚ) * c / 2 ^ 24 ≤ (H : ℚ) * c := div_le_self hapos.le (by norm_num)
      have h55 : (2 : ℚ) ^ 55 + 2 ^ 55 = 2 ^ 56 := by norm_num
      linarith [hpb.2]
    have hqpos : 0 < p / g := div_pos (by linarith) hgpos
    have hqlo : (2 : ℚ) ^ (-126 : ℤ) ≤ p / g := by
      rw [le_div_iff₀ hgpos]
      have h1 : (2 : ℚ) ^ (-126 : ℤ) * g ≤ 2 ^ (-126 : ℤ) * 2 ^ 32 :=
        mul_le_mul_of_nonneg_left hghi.le (by positivity)
      have h2 : (2 : ℚ) ^ (-126 : ℤ) * 2 ^ 32 ≤ 1 / 2 := by norm_num
      exact le_trans h1 (le_trans h2 hplo)
    have hqhi : p / g < (2 : ℚ) ^ (127 : ℤ) := by
      rw [div_lt_iff₀ hgpos]
      have h1 : (2 : ℚ) ^ (127 : ℤ) * (1 / 2) ≤ 2 ^ (127 : ℤ) * g :=
        mul_le_mul_of_nonneg_left hglo (by positivity)
      have h2 : (2 : ℚ) ^ 56 ≤ 2 ^ (127 : ℤ) * (1 / 2) := by norm_num
      exact lt_of_lt_of_le hphi (le_trans h2 h1)
    obtain ⟨s, hs, hsn⟩ := fl32_rel (p / g) (by rw [abs_of_pos hqpos]; exact hqlo)
      (by rw [abs_of_pos hqpos]; exact hqhi)
    rw [abs_of_pos hqpos] at hsn
    have hsn' : |s - p / g| ≤ p / g * (1 / 2 ^ 24) := by
      rw [mul_one_div]; exact hsn
    obtain ⟨_, hs0, hbound⟩ := scale_chain_bound ((H : ℚ) * c) G p g s (1 / 2 ^ 24)
      hapos.le hGq (by norm_num) (by norm_num) hpn' hgn' hsn'
    refine ⟨p, g, s, hp, hg, hgpos.ne', hs, hs0, ?_, ?_⟩
    · have e : (H : ℚ) * c / G * (4 * (1 / 2 ^ 24)) = (H : ℚ) * c / G / 2 ^ 22 := by
        norm_num
        ring
      rw [← e]; exact hbound
    · intro hsmall
      have hgG := hexact hsmall
      have hHc24 : H * c < 2 ^ 24 := lt_of_le_of_lt (Nat.mul_le_mul_left H hc) hsmall
      have hpe : p = ((H * c : ℕ) : ℚ) := by
        have := fl32_natCast (H * c) hHc24
        push_cast at this
        rw [hp] at this
        have := Dbl.fin.inj this
        rw [this]; push_cast; rfl
      have hx0 : (0 : ℚ) ≤ ((H * c : ℕ) : ℚ) / G := by positivity
      have hxh : ((H * c : ℕ) : ℚ) / G ≤ H := by
        rw [div_le_iff₀ hGq]; push_cast
        exact mul_le_mul_of_nonneg_left hcG hHq.le
      obtain ⟨s', hs', _, hsh⟩ := fl32_between _ H hx0 hxh hH24
      rw [hpe, hgG] at hs
      have hss : s = s' := by
        rw [hs] at hs'
        exact Dbl.fin.inj hs'
      refine ⟨by rw [hss]; exact hsh, ?_⟩
      intro hcG'
      have hx : ((H * c : ℕ) : ℚ) / G = (H : ℚ) := by
        rw [hcG']; push_cast; field_simp
      rw [hx, fl32_natCast H hH24] at hs
      exact (Dbl.fin.inj hs).symm

/-- The pixel height of a scaled bin: a float `s ≥ 0` within the relative
error `2 ^ (-22)` of `H * c / G`, for an image height `H ≤ 2048` and `c ≤ G`,
rounds to an integer between `0` and `H`, and to `H` itself when `c = G`. -/
theorem cvRound_scaled (cvRound : Dbl → ℤ) (hr : CvRoundNearest cvRound) (H c G : ℕ)
    (hH : H ≤ 2048) (hG : 0 < G) (hc : c ≤ G) (s : ℚ) (hs0 : 0 ≤ s)
    (hs : |s - (H : ℚ) * c / G| ≤ (H : ℚ) * c / G / 2 ^ 22) :
    0 ≤ cvRound (.fin s) ∧ cvRound (.fin s) ≤ H ∧ (c = G → cvRound (.fin s) = H) := by
  have hGq : (0 : ℚ) < G := by exact_mod_cast hG
  have hcG : (c : ℚ) ≤ G := by exact_mod_cast hc
  have hH0 : (0 : ℚ) ≤ H := by positivity
  have hHq : (H : ℚ) ≤ 2048 := by exact_mod_cast hH
  have hx0 : (0 : ℚ) ≤ (H : ℚ) * c / G := by positivity
  have hxH : (H : ℚ) * c / G ≤ H := by
    rw [div_le_iff₀ hGq]
    exact mul_le_mul_of_nonneg_left hcG hH0
  have herr : (H : ℚ) * c / G / 2 ^ 22 ≤ 1 / 2048 := by
    have : (H : ℚ) * c / G / 2 ^ 22 ≤ 2048 / 2 ^ 22 :=
      div_le_div_of_nonneg_right (le_trans hxH hHq) (by positivity)
    have e : (2048 : ℚ) / 2 ^ 22 = 1 / 2048 := by norm_num
    linarith
  have hsb := abs_le.mp hs
  have hn := hr s (by linarith) (by linarith [hsb.2])
  have hnb := abs_le.mp hn
  refine ⟨?_, ?_, ?_⟩
  · have : (-1 : ℚ) < cvRound (.fin s) := by linarith [hnb.1]
    have : (-1 : ℤ) < cvRound (.fin s) := by exact_mod_cast this
    omega
  · have : (cvRound (.fin s) : ℚ) < ((H : ℤ) : ℚ) + 1 := by
      push_cast; linarith [hnb.2, hsb.2]
    have : cvRound (.fin s) < (H : ℤ) + 1 := by exact_mod_cast this
    omega
  · intro hcG'
    have hx : (H : ℚ) * c / G = H := by
      rw [hcG']; field_simp
    rw [hx] at hsb herr
    have h1 : (cvRound (.fin s) : ℚ) < ((H : ℤ) : ℚ) + 1 := by
      push_cast; linarith [hnb.2, hsb.2]
    have h2 : ((H : ℤ) : ℚ) - 1 < (cvRound (.fin s) : ℚ) := by
      push_cast; linarith [hnb.1, hsb.1]
    have h1' : cvRound (.fin s) < (H : ℤ) + 1 := by exact_mod_cast h1
    have h2' : (H : ℤ) - 1 < cvRound (.fin s) := by exact_mod_cast h2
    omega

/-! ## The claims -/

/-- C1: on an image whose value channel has minimum `m` and maximum `M` with
`m < M`, `NormalizeImageBGR` keeps the number of pixels and replaces each value
byte `v` by a byte `w` in `0 .. 255` that is a nearest integer to
`(v - m) * 255 / (M - m)` (distance at most 1/2); a pixel of value `m` becomes
`0` and a pixel of value `M` becomes `255`. -/
theorem C1_normalize_nearest_linear (cvRound : Dbl → ℤ) (hr : CvRoundNearest cvRound)
    (img : List PixelHSV) (m M : Fin 256) (hR : ValueRange img m M) (hlt : m < M) :
    (NormalizeImageBGR cvRound img).length = img.length ∧
    ∀ (i : ℕ) (p : PixelHSV), img[i]? = some p →
      ∃ w : Fin 256, (NormalizeImageBGR cvRound img)[i]? = some ⟨p.h, p.s, w⟩ ∧
        w.val ≤ 255 ∧
        |(w.val : ℚ) - ((p.v.val : ℚ) - m.val) * 255 / ((M.val : ℚ) - m.val)| ≤ 1 / 2 ∧
        (p.v = m → w = 0) ∧ (p.v = M → w = 255) :=
  normalize_pointwise cvRound hr img m M hR hlt

/-- C1 at the image with values 50, 125, 200 and the rounding of the spec. -/
theorem C1_witness :
    (NormalizeImageBGR cvRoundHalfAway midImage).length = midImage.length ∧
    ∀ (i : ℕ) (p : PixelHSV), midImage[i]? = some p →
      ∃ w : Fin 256, (NormalizeImageBGR cvRoundHalfAway midImage)[i]? = some ⟨p.h, p.s, w⟩ ∧
        w.val ≤ 255 ∧
        |(w.val : ℚ) - ((p.v.val : ℚ) - (50 : Fin 256).val) * 255
            / (((200 : Fin 256).val : ℚ) - (50 : Fin 256).val)| ≤ 1 / 2 ∧
        (p.v = 50 → w = 0) ∧ (p.v = 200 → w = 255) :=
  C1_normalize_nearest_linear cvRoundHalfAway cvRoundHalfAway_nearest midImage 50 200
    (by unfold ValueRange midImage; decide) (by decide)

/-- C2, refuted: whatever `cvRound` does, `NormalizeImageBGR` cannot leave both
the one-pixel image of value 7 and the one-pixel image of value 9 unchanged. -/
theorem C2_counterexample :
    ¬ ∃ cvRound : Dbl → ℤ,
      NormalizeImageBGR cvRound [⟨0, 0, 7⟩] = [⟨0, 0, 7⟩] ∧
      NormalizeImageBGR cvRound [⟨0, 0, 9⟩] = [⟨0, 0, 9⟩] := by
  rintro ⟨cvRound, h7, h9⟩
  rw [normalize_constant cvRound [⟨0, 0, 7⟩] 7 (by simp) (by simp)] at h7
  rw [normalize_constant cvRound [⟨0, 0, 9⟩] 9 (by simp) (by simp)] at h9
  simp only [List.map_cons, List.map_nil, List.cons.injEq, PixelHSV.mk.injEq, and_true,
    true_and] at h7 h9
  rw [h7] at h9
  exact absurd h9 (by decide)

/-- C2 as amended: on a non-empty image with constant value channel `c` the
division by `max - min = 0` is not guarded; every value byte becomes the byte
of `cvRound (NaN)`, the same for all pixels and for every `c`, while hue and
saturation are copied; the image comes out unchanged exactly when `c` is that
byte. -/
theorem C2_normalize_constant_unguarded (cvRound : Dbl → ℤ) (img : List PixelHSV)
    (c : Fin 256) (hne : img ≠ []) (hc : ∀ p ∈ img, p.v = c) :
    NormalizeImageBGR cvRound img
      = img.map (fun p => ⟨p.h, p.s, toUChar (cvRound .nan)⟩) ∧
    (NormalizeImageBGR cvRound img = img ↔ c = toUChar (cvRound .nan)) :=
  ⟨normalize_constant cvRound img c hne hc, normalize_constant_fixed_iff cvRound img c hne hc⟩

/-- C2 as amended, at the two-pixel image of constant value 128. -/
theorem C2_witness :
    NormalizeImageBGR cvRoundHalfAway flatImage
      = flatImage.map (fun p => ⟨p.h, p.s, toUChar (cvRoundHalfAway .nan)⟩) ∧
    (NormalizeImageBGR cvRoundHalfAway flatImage = flatImage
      ↔ (128 : Fin 256) = toUChar (cvRoundHalfAway .nan)) :=
  C2_normalize_constant_unguarded cvRoundHalfAway flatImage 128
    (by unfold flatImage; simp) (by unfold flatImage; decide)

set_option maxRecDepth 100000 in
/-- C4, the code at the failing input: for the histogram of the six-pixel image
with two pixels of value 255 and four of value 253 and the threshold 3 (that of
`clipPercent = 100`), the upper scan stops at once with `max = 255`, because
its first iteration adds `bins[255]` to a sum that already holds `bins[255]`;
counting every bucket once, `bins[255] = 2` does not exceed 3 and the greatest
index whose running sum from bucket 255 exceeds 3 is 253. -/
theorem C4_upper_scan_counts_top_bucket_twice :
    countValues topHeavyImage (List.replicate 256 0) = some topHeavyBins ∧
    pixelsToClipHalf cvRoundHalfAway topHeavyImage.length (.fin 100) = 3 ∧
    upperBound topHeavyBins 3 255 = some 255 ∧
    topHeavyBins.getD 255 0 < 3 ∧
    3 < (topHeavyBins.drop 253).sum ∧
    ¬ 3 < (topHeavyBins.drop 254).sum ∧
    ¬ 3 < (topHeavyBins.drop 255).sum := by
  have hbins : countValues topHeavyImage (List.replicate 256 0) = some topHeavyBins := by rfl
  have hhalf : pixelsToClipHalf cvRoundHalfAway topHeavyImage.length (.fin 100) = 3 :=
    pixelsToClipHalf_hundred cvRoundHalfAway cvRoundHalfAway_nearest 3 (by norm_num)
  have hup : upperBound topHeavyBins 3 255 = some 255 := by rfl
  exact ⟨hbins, hhalf, hup, by decide, by decide, by decide, by decide⟩

/-- C5: for a 256-bucket histogram `bins` (whose counts add up to less than
`2 ^ 32`, as those of an image do by `histogram_sum`) and a threshold `half`,
the lower bound is
`0` if `bins[0] ≥ half`; otherwise it is the least index `t` in `1 .. 254` such
that `bins[0] + ... + bins[t]` exceeds `half`, and `0` if there is no such
index. -/
theorem C5_lower_bound_least_index (bins : List ℕ) (half : ℕ) (hlen : bins.length = 256)
    (hsum : bins.sum < 4294967296) :
    ∃ mn, lowerBound bins half = some mn ∧
      (half ≤ bins.getD 0 0 → mn = 0) ∧
      (bins.getD 0 0 < half →
        ((∀ j, 1 ≤ j → j ≤ 254 → ¬ half < (bins.take (j + 1)).sum) → mn = 0) ∧
        (∀ t, 1 ≤ t → t ≤ 254 → half < (bins.take (t + 1)).sum →
          (∀ j, 1 ≤ j → j < t → ¬ half < (bins.take (j + 1)).sum) → mn = t)) :=
  lowerBound_least bins half hlen hsum

set_option maxRecDepth 10000 in
/-- C5 at the histogram with `bins[0] = 1`, `bins[3] = 2`, `bins[7] = 5` and the
threshold 2: `bins[0] < 2`, the running sums are 1, 1, 1, 3, and the lower
bound is 3. -/
theorem C5_witness : lowerBound sampleBins 2 = some 3 := by
  obtain ⟨mn, hmn, _, h⟩ := C5_lower_bound_least_index sampleBins 2 (by rfl) (by decide)
  have h3 : mn = 3 := (h (by decide)).2 3 (by norm_num) (by norm_num) (by decide)
    (fun j hj1 hj3 => by
      have : j = 1 ∨ j = 2 := by omega
      rcases this with rfl | rfl <;> decide)
  rw [hmn, h3]

set_option maxRecDepth 10000 in
/-- C6, refuted: for the two-pixel image of constant value 128 and
`clipPercent = 100` the bounds are `min = max = 128`, so `min < max` fails and
`max - min` is zero. -/
theorem C6_counterexample :
    clipBounds cvRoundHalfAway 256 flatImage (.fin 100) = some (128, 128) ∧
    ¬ ((128 : ℕ) < 128) := by
  have hbins : countValues flatImage (List.replicate 256 0)
      = some (List.replicate 128 0 ++ [2] ++ List.replicate 127 0) := by rfl
  have hhalf : pixelsToClipHalf cvRoundHalfAway flatImage.length (.fin 100) = 1 :=
    pixelsToClipHalf_hundred cvRoundHalfAway cvRoundHalfAway_nearest 1 (by norm_num)
  obtain ⟨hlow, hup⟩ := bounds_single_bucket
    (List.replicate 128 0 ++ [2] ++ List.replicate 127 0) 2 1 (by norm_num) (by norm_num)
    (by norm_num)
    (fun j hj hne => by
      rw [getElem?_single_bucket]
      split_ifs <;> rfl)
    (by rw [getElem?_single_bucket]; rfl)
  exact ⟨clipBounds_of_parts cvRoundHalfAway flatImage (.fin 100) _ 1 128 128 hbins hhalf
    hlow hup, by decide⟩

/-- C6 as amended: for every image and every `clipPercent`, with 256 bins
`NormalizeClipImageBGR` arrives at bounds with `0 ≤ min ≤ 254` and
`2 ≤ max ≤ 255`; that `min < max` is not among what holds. -/
theorem C6_clip_bounds_range (cvRound : Dbl → ℤ) (img : List PixelHSV) (clipPercent : Dbl) :
    ∃ mn mx, clipBounds cvRound 256 img clipPercent = some (mn, mx) ∧
      0 ≤ mn ∧ mn < 255 ∧ 2 ≤ mx ∧ mx ≤ 255 := by
  obtain ⟨mn, mx, h, h1, h2, h3⟩ := clipBounds_range cvRound img clipPercent
  exact ⟨mn, mx, h, Nat.zero_le _, by omega, h2, h3⟩

/-- C7: on an image whose value channel has minimum 0 and maximum 255,
`NormalizeImageBGR` leaves every pixel unchanged; hence on a non-degenerate
image (minimum `m` < maximum `M`) a second application of `NormalizeImageBGR`
changes nothing. -/
theorem C7_normalize_idempotent (cvRound : Dbl → ℤ) (hr : CvRoundNearest cvRound)
    (img : List PixelHSV) (m M : Fin 256) (hR : ValueRange img m M) :
    (m = 0 ∧ M = 255 → NormalizeImageBGR cvRound img = img) ∧
    (m < M → NormalizeImageBGR cvRound (NormalizeImageBGR cvRound img)
        = NormalizeImageBGR cvRound img) := by
  constructor
  · rintro ⟨rfl, rfl⟩
    exact normalize_full_range cvRound hr img hR
  · intro hlt
    exact normalize_full_range cvRound hr _ (valueRange_normalize cvRound hr img m M hR hlt)

/-- C7 at the image with values 0, 128, 255 and at the image with values 50,
125, 200. -/
theorem C7_witness :
    NormalizeImageBGR cvRoundHalfAway fullImage = fullImage ∧
    NormalizeImageBGR cvRoundHalfAway (NormalizeImageBGR cvRoundHalfAway midImage)
      = NormalizeImageBGR cvRoundHalfAway midImage :=
  ⟨(C7_normalize_idempotent cvRoundHalfAway cvRoundHalfAway_nearest fullImage 0 255
      (by unfold ValueRange fullImage; decide)).1 ⟨rfl, rfl⟩,
   (C7_normalize_idempotent cvRoundHalfAway cvRoundHalfAway_nearest midImage 50 200
      (by unfold ValueRange midImage; decide)).2 (by decide)⟩

/-- C8: for every image, `NormalizeImageBGR` and (with 256 bins, for every
`clipPercent`) `NormalizeClipImageBGR` produce an HSV buffer with as many pixels
as the input in which every pixel has the hue and the saturation of the input
pixel at the same position. -/
theorem C8_hue_saturation_pass_through (cvRound : Dbl → ℤ) (img : List PixelHSV)
    (clipPercent : Dbl) :
    ((NormalizeImageBGR cvRound img).length = img.length ∧
      ∀ (i : ℕ) (p : PixelHSV), img[i]? = some p →
        ∃ q : PixelHSV, (NormalizeImageBGR cvRound img)[i]? = some q ∧
          q.h = p.h ∧ q.s = p.s) ∧
    (∃ out, NormalizeClipImageBGR cvRound 256 img clipPercent = some out ∧
      out.length = img.length ∧
      ∀ (i : ℕ) (p : PixelHSV), img[i]? = some p →
        ∃ q : PixelHSV, out[i]? = some q ∧ q.h = p.h ∧ q.s = p.s) := by
  constructor
  · exact map_remapPixel_frame cvRound _ _ img
  · obtain ⟨mn, mx, h, _⟩ := clipBounds_range cvRound img clipPercent
    refine ⟨_, ?_, map_remapPixel_frame cvRound mn (((mx : ℤ) - (mn : ℤ)) % 4294967296) img⟩
    simp only [NormalizeClipImageBGR, h]

/-- C9: a histogram matrix that is neither `1 x L` nor `L x 1` with `L ≥ 2`
(empty, `1 x 1`, or both dimensions above 1) makes `DrawHistogram` return with
the target image exactly as it was. -/
theorem C9_invalid_shape_leaves_target (cvRound : Dbl → ℤ)
    (line : Mat → Point → Point → Scalar → ℤ → Mat)
    (putText : Mat → String → Point → Scalar → Mat) (self : CHistLib)
    (Hist : HistMat) (HistImage : Mat) (Color : Scalar)
    (h : ¬ ((Hist.rows = 1 ∧ 2 ≤ Hist.cols) ∨ (Hist.cols = 1 ∧ 2 ≤ Hist.rows))) :
    DrawHistogram cvRound line putText self Hist HistImage Color = HistImage :=
  drawHistogram_invalid_shape cvRound line putText self Hist HistImage Color h

/-- C9 at a `1 x 1` histogram, an empty target and the constructor's
configuration. -/
theorem C9_witness :
    DrawHistogram cvRoundHalfAway (fun img _ _ _ _ => img) (fun img _ _ _ => img)
      (CHistLib.new zeroScalar zeroScalar) oneByOneHist emptyMat zeroScalar = emptyMat :=
  C9_invalid_shape_leaves_target cvRoundHalfAway (fun img _ _ _ _ => img)
    (fun img _ _ _ => img) (CHistLib.new zeroScalar zeroScalar) oneByOneHist emptyMat
    zeroScalar (by unfold oneByOneHist; decide)

/-- C10, refuted: for a `1 x 2` histogram of an unsupported element type and an
empty target, whatever `cvRound`, `cv::line` and `cv::putText` do, the target
does not stay as it was: it has 330 rows after the call. -/
theorem C10_counterexample :
    ¬ ∃ (cvRound : Dbl → ℤ) (line : Mat → Point → Point → Scalar → ℤ → Mat)
        (putText : Mat → String → Point → Scalar → Mat),
      (DrawHistogram cvRound line putText (CHistLib.new zeroScalar zeroScalar) byteHist
        emptyMat zeroScalar).rows = emptyMat.rows := by
  rintro ⟨cvRound, line, putText, h⟩
  rw [drawHistogram_unsupported_type cvRound line putText _ byteHist emptyMat zeroScalar 2
    (by norm_num) (Or.inl ⟨rfl, rfl⟩) (by unfold byteHist; decide) (by unfold byteHist; decide)
    (by unfold byteHist; decide)] at h
  revert h
  unfold CHistLib.new emptyMat
  decide

/-- C10 as amended: for a histogram of valid vector shape (length `L ≥ 2`)
whose element type is none of the three supported ones, `DrawHistogram` sizes
the target to `2 * border + height` rows by `2 * border + 3 * L` columns of
type `CV_8UC3` and fills it with the background colour; it draws no bin and no
axis. -/
theorem C10_unsupported_type_clears_target (cvRound : Dbl → ℤ)
    (line : Mat → Point → Point → Scalar → ℤ → Mat)
    (putText : Mat → String → Point → Scalar → Mat) (self : CHistLib)
    (Hist : HistMat) (HistImage : Mat) (Color : Scalar) (L : ℕ) (hL : 2 ≤ L)
    (hshape : (Hist.rows = 1 ∧ Hist.cols = L) ∨ (Hist.cols = 1 ∧ Hist.rows = L))
    (h32F : Hist.type ≠ .CV_32F) (h64F : Hist.type ≠ .CV_64F) (h32S : Hist.type ≠ .CV_32S) :
    DrawHistogram cvRound line putText self Hist HistImage Color
      = { rows := (2 * self.mHistImageBorder + self.mHistImageHeight) % 4294967296,
          cols := (2 * self.mHistImageBorder + 3 * L) % 4294967296,
          type := .CV_8UC3,
          data := fun _ _ => self.mHistBackgroundColor } :=
  drawHistogram_unsupported_type cvRound line putText self Hist HistImage Color L hL hshape
    h32F h64F h32S

/-- C10 as amended, at a `1 x 2` histogram of an unsupported type, an empty
target and the constructor's configuration. -/
theorem C10_witness :
    DrawHistogram cvRoundHalfAway (fun img _ _ _ _ => img) (fun img _ _ _ => img)
      (CHistLib.new zeroScalar zeroScalar) byteHist emptyMat zeroScalar
      = { rows := (2 * (CHistLib.new zeroScalar zeroScalar).mHistImageBorder
                    + (CHistLib.new zeroScalar zeroScalar).mHistImageHeight) % 4294967296,
          cols := (2 * (CHistLib.new zeroScalar zeroScalar).mHistImageBorder + 3 * 2)
                    % 4294967296,
          type := .CV_8UC3,
          data := fun _ _ => (CHistLib.new zeroScalar zeroScalar).mHistBackgroundColor } :=
  C10_unsupported_type_clears_target cvRoundHalfAway (fun img _ _ _ _ => img)
    (fun img _ _ _ => img) (CHistLib.new zeroScalar zeroScalar) byteHist emptyMat zeroScalar 2
    (by norm_num) (Or.inl ⟨rfl, rfl⟩) (by unfold byteHist; decide) (by unfold byteHist; decide)
    (by unfold byteHist; decide)


/-- C11: for a histogram of valid shape and length `L ≥ 2` of a supported
element type and a bin `i < L` whose value `V` satisfies
`0 ≤ V ≤ imageHeight`, with `r` the rounded value (`cvRound V`, a nearest
integer, for a `float` or a `double`, `V` itself for an `int`): the image
`DrawHistogram` returns is the axis, if enabled, drawn on an image `bars` that
is the draw of the bins before `i` on the prepared canvas, then, if `r` is not
`0`, one `line` from `(i * 3 + border, border + imageHeight)` to
`(i * 3 + border, border + imageHeight - r)` in the plot colour, and nothing
if `r` is `0`, then the draw of the bins after `i`.  With a `line` that paints
a vertical segment of thickness 1 in its own column, end points included, column
`i * 3 + border` of `bars` holds the plot colour in the rows
`border + imageHeight - r .. border + imageHeight` and the background colour
in every other row if `r` is not `0`, and the background colour in every row
if `r` is `0`. -/
theorem C11_bin_draws_line (cvRound : Dbl → ℤ) (hr : CvRoundNearest cvRound)
    (line : Mat → Point → Point → Scalar → ℤ → Mat)
    (putText : Mat → String → Point → Scalar → Mat) (self : CHistLib)
    (Hist : HistMat) (HistImage : Mat) (Color : Scalar) (L : ℕ) (hL : 2 ≤ L)
    (hshape : (Hist.rows = 1 ∧ Hist.cols = L) ∨ (Hist.cols = 1 ∧ Hist.rows = L))
    (hx : 3 * L + self.mHistImageBorder < 2147483648)
    (hy : self.mHistImageBorder + self.mHistImageHeight < 2147483648)
    (i : ℕ) (hi : i < L) :
    ((Hist.type = .CV_32F ∨ Hist.type = .CV_64F) →
      ∀ V : ℚ, Hist.binReal i = .fin V → 0 ≤ V → V ≤ self.mHistImageHeight →
        |(cvRound (.fin V) : ℚ) - V| ≤ 1 / 2 ∧
        ∃ bars : Mat,
          DrawHistogram cvRound line putText self Hist HistImage Color
            = (if self.mDrawXAxis then DrawHistBar line putText self bars L else bars) ∧
          bars = (List.range' (i + 1) (L - (i + 1))).foldl
              (fun img j => DrawHistBinReal cvRound line self img (Hist.binReal j) (j * 3)
                self.mHistPlotColor)
              (if cvRound (.fin V) = 0 then
                 (List.range i).foldl
                   (fun img j => DrawHistBinReal cvRound line self img (Hist.binReal j) (j * 3)
                     self.mHistPlotColor) (self.canvas L)
               else line
                 ((List.range i).foldl
                   (fun img j => DrawHistBinReal cvRound line self img (Hist.binReal j) (j * 3)
                     self.mHistPlotColor) (self.canvas L))
                 ⟨(i : ℤ) * 3 + self.mHistImageBorder,
                   (self.mHistImageBorder : ℤ) + self.mHistImageHeight⟩
                 ⟨(i : ℤ) * 3 + self.mHistImageBorder,
                   (self.mHistImageBorder : ℤ) + self.mHistImageHeight - cvRound (.fin V)⟩
                 self.mHistPlotColor 1) ∧
          ((∀ (img : Mat) (x y1 y2 : ℤ) (c : Scalar) (row col : ℕ),
              (line img ⟨x, y1⟩ ⟨x, y2⟩ c 1).data row col
                = if (col : ℤ) = x ∧ min y1 y2 ≤ (row : ℤ) ∧ (row : ℤ) ≤ max y1 y2 then c
                  else img.data row col) →
            ∀ row : ℕ, bars.data row (i * 3 + self.mHistImageBorder)
              = if cvRound (.fin V) ≠ 0 ∧
                    (self.mHistImageBorder : ℤ) + self.mHistImageHeight - cvRound (.fin V)
                      ≤ (row : ℤ) ∧
                    (row : ℤ) ≤ (self.mHistImageBorder : ℤ) + self.mHistImageHeight
                then self.mHistPlotColor else self.mHistBackgroundColor)) ∧
    (Hist.type = .CV_32S → 0 ≤ Hist.binInt i → Hist.binInt i ≤ self.mHistImageHeight →
      ∃ bars : Mat,
        DrawHistogram cvRound line putText self Hist HistImage Color
          = (if self.mDrawXAxis then DrawHistBar line putText self bars L else bars) ∧
        bars = (List.range' (i + 1) (L - (i + 1))).foldl
            (fun img j => DrawHistBinInt line self img (Hist.binInt j) (j * 3)
              self.mHistPlotColor)
            (if Hist.binInt i = 0 then
               (List.range i).foldl
                 (fun img j => DrawHistBinInt line self img (Hist.binInt j) (j * 3)
                   self.mHistPlotColor) (self.canvas L)
             else line
               ((List.range i).foldl
                 (fun img j => DrawHistBinInt line self img (Hist.binInt j) (j * 3)
                   self.mHistPlotColor) (self.canvas L))
               ⟨(i : ℤ) * 3 + self.mHistImageBorder,
                 (self.mHistImageBorder : ℤ) + self.mHistImageHeight⟩
               ⟨(i : ℤ) * 3 + self.mHistImageBorder,
                 (self.mHistImageBorder : ℤ) + self.mHistImageHeight - Hist.binInt i⟩
               self.mHistPlotColor 1) ∧
        ((∀ (img : Mat) (x y1 y2 : ℤ) (c : Scalar) (row col : ℕ),
            (line img ⟨x, y1⟩ ⟨x, y2⟩ c 1).data row col
              = if (col : ℤ) = x ∧ min y1 y2 ≤ (row : ℤ) ∧ (row : ℤ) ≤ max y1 y2 then c
                else img.data row col) →
          ∀ row : ℕ, bars.data row (i * 3 + self.mHistImageBorder)
            = if Hist.binInt i ≠ 0 ∧
                  (self.mHistImageBorder : ℤ) + self.mHistImageHeight - Hist.binInt i
                    ≤ (row : ℤ) ∧
                  (row : ℤ) ≤ (self.mHistImageBorder : ℤ) + self.mHistImageHeight
              then self.mHistPlotColor else self.mHistBackgroundColor)) := by
  have hfold : ∀ (f : Mat → ℕ → Mat) (l : List ℕ) (img : Mat),
      drawBins f l img = l.foldl f img := by
    intro f l
    induction l with
    | nil => intro img; rfl
    | cons j rest ih => intro img; simp only [drawBins, List.foldl_cons]; exact ih _
  constructor
  · intro ht V hV hV0 hVh
    obtain ⟨h0, h1⟩ := cvRound_height cvRound hr V self.mHistImageHeight hV0 hVh (by omega)
    have hnear : |(cvRound (.fin V) : ℚ) - V| ≤ 1 / 2 := by
      apply hr V (by linarith)
      have : (self.mHistImageHeight : ℚ) ≤ 2147483647 := by
        have : self.mHistImageHeight ≤ 2147483647 := by omega
        exact_mod_cast this
      linarith
    obtain ⟨hdec, hpix⟩ := foldl_bin line self
      (fun img j => DrawHistBinReal cvRound line self img (Hist.binReal j) (j * 3)
        self.mHistPlotColor)
      (fun j => toUnsigned (cvRound (Hist.binReal j))) (fun _ _ => rfl) L i hi
      (cvRound (.fin V)) h0 h1 (by simp only [hV]) hx hy
    have hD := drawHistogram_real cvRound line putText self Hist HistImage Color L hL hshape ht
    rw [hfold] at hD
    exact ⟨hnear, _, hD, hdec, hpix⟩
  · intro ht hV0 hVh
    obtain ⟨hdec, hpix⟩ := foldl_bin line self
      (fun img j => DrawHistBinInt line self img (Hist.binInt j) (j * 3) self.mHistPlotColor)
      (fun j => toUnsigned (Hist.binInt j)) (fun _ _ => rfl) L i hi
      (Hist.binInt i) hV0 hVh rfl hx hy
    have hD := drawHistogram_int cvRound line putText self Hist HistImage Color L hL hshape ht
    rw [hfold] at hD
    exact ⟨_, hD, hdec, hpix⟩

/-- C11 at the `2 x 1` histogram of `float` values 4.75 and 0.25, the
constructor's configuration with white as the plot and axis colour and black
as the background, a `line` that paints its segment and a `putText` that writes
nothing: the value 4.75 rounds to 5 and column 15 of the returned image is
white in the rows 310 .. 315 (the line of bin 0) and black in every other row;
the value 0.25 rounds to 0 and column 18 is black in every row but 315, the
row of the axis. -/
theorem C11_witness :
    cvRoundHalfAway (.fin (19 / 4)) = 5 ∧
    cvRoundHalfAway (.fin (1 / 4)) = 0 ∧
    (∀ row : ℕ,
      (DrawHistogram cvRoundHalfAway paintLine idText (CHistLib.new whiteScalar zeroScalar)
          quarterHist emptyMat zeroScalar).data row 15
        = if 310 ≤ row ∧ row ≤ 315 then whiteScalar else zeroScalar) ∧
    (∀ row : ℕ,
      (DrawHistogram cvRoundHalfAway paintLine idText (CHistLib.new whiteScalar zeroScalar)
          quarterHist emptyMat zeroScalar).data row 18
        = if row = 315 then whiteScalar else zeroScalar) := by
  have hbin0 : quarterHist.binReal 0 = .fin (19 / 4) := by
    simp [quarterHist, HistMat.binReal, HistMat.colVector]
  have hbin1 : quarterHist.binReal 1 = .fin (1 / 4) := by
    simp [quarterHist, HistMat.binReal, HistMat.colVector]
  have hx : 3 * 2 + (CHistLib.new whiteScalar zeroScalar).mHistImageBorder < 2147483648 := by
    simp [CHistLib.new]
  have hy : (CHistLib.new whiteScalar zeroScalar).mHistImageBorder
      + (CHistLib.new whiteScalar zeroScalar).mHistImageHeight < 2147483648 := by
    simp [CHistLib.new]
  obtain ⟨hn0, bars0, hd0, _, hp0⟩ :=
    (C11_bin_draws_line cvRoundHalfAway cvRoundHalfAway_nearest paintLine idText
      (CHistLib.new whiteScalar zeroScalar) quarterHist emptyMat zeroScalar 2 (le_refl 2)
      (Or.inr ⟨rfl, rfl⟩) hx hy 0 (by norm_num)).1 (Or.inl rfl) (19 / 4) hbin0 (by norm_num)
      (by simp [CHistLib.new]; norm_num)
  obtain ⟨hn1, bars1, hd1, _, hp1⟩ :=
    (C11_bin_draws_line cvRoundHalfAway cvRoundHalfAway_nearest paintLine idText
      (CHistLib.new whiteScalar zeroScalar) quarterHist emptyMat zeroScalar 2 (le_refl 2)
      (Or.inr ⟨rfl, rfl⟩) hx hy 1 (by norm_num)).1 (Or.inl rfl) (1 / 4) hbin1 (by norm_num)
      (by simp [CHistLib.new]; norm_num)
  have h5 : cvRoundHalfAway (.fin (19 / 4)) = 5 := by
    have h : |((cvRoundHalfAway (.fin (19 / 4)) : ℤ) : ℚ) - ((5 : ℤ) : ℚ)| < 1 := by
      rw [abs_le] at hn0
      rw [abs_lt]
      constructor <;> push_cast <;> linarith [hn0.1, hn0.2]
    have h' : |cvRoundHalfAway (.fin (19 / 4)) - 5| < 1 := by exact_mod_cast h
    have := abs_lt.mp h'
    omega
  have h0 : cvRoundHalfAway (.fin (1 / 4)) = 0 := by
    have h : |((cvRoundHalfAway (.fin (1 / 4)) : ℤ) : ℚ) - ((0 : ℤ) : ℚ)| < 1 := by
      rw [abs_le] at hn1
      rw [abs_lt]
      constructor <;> push_cast <;> linarith [hn1.1, hn1.2]
    have h' : |cvRoundHalfAway (.fin (1 / 4)) - 0| < 1 := by exact_mod_cast h
    have := abs_lt.mp h'
    omega
  have hd0' : DrawHistogram cvRoundHalfAway paintLine idText
      (CHistLib.new whiteScalar zeroScalar) quarterHist emptyMat zeroScalar
      = DrawHistBar paintLine idText (CHistLib.new whiteScalar zeroScalar) bars0 2 := hd0
  have hd1' : DrawHistogram cvRoundHalfAway paintLine idText
      (CHistLib.new whiteScalar zeroScalar) quarterHist emptyMat zeroScalar
      = DrawHistBar paintLine idText (CHistLib.new whiteScalar zeroScalar) bars1 2 := hd1
  refine ⟨h5, h0, ?_, ?_⟩
  · intro row
    have := hp0 (fun img x y1 y2 c row col => paintLine_vertical img x y1 y2 c 1 row col) row
    rw [h5] at this
    simp only [CHistLib.new] at this
    rw [show (0 * 3 + 15 : ℕ) = 15 from rfl] at this
    rw [hd0', drawHistBar_paintLine, this]
    split_ifs <;> first | rfl | (exfalso; omega)
  · intro row
    have := hp1 (fun img x y1 y2 c row col => paintLine_vertical img x y1 y2 c 1 row col) row
    rw [h0] at this
    simp only [CHistLib.new] at this
    rw [show (1 * 3 + 15 : ℕ) = 18 from rfl] at this
    rw [hd1', drawHistBar_paintLine, this]
    split_ifs <;> first | rfl | (exfalso; omega)


/-- C12: for a histogram vector of length `L ≥ 2` of a supported element type
whose values are all zero, whatever the target held before, `DrawHistogram`
yields the prepared target of `2 * border + imageHeight` rows by
`2 * border + 3 * L` columns, every element the background colour, with no
bin drawn on it: only `DrawHistBar` is applied to it when the axis is enabled,
and nothing when it is disabled. -/
theorem C12_zero_histogram_is_background (cvRound : Dbl → ℤ) (hr : CvRoundNearest cvRound)
    (line : Mat → Point → Point → Scalar → ℤ → Mat)
    (putText : Mat → String → Point → Scalar → Mat) (self : CHistLib)
    (Hist : HistMat) (HistImage : Mat) (Color : Scalar) (L : ℕ) (hL : 2 ≤ L)
    (hshape : (Hist.rows = 1 ∧ Hist.cols = L) ∨ (Hist.cols = 1 ∧ Hist.rows = L))
    (hrows : 2 * self.mHistImageBorder + self.mHistImageHeight < 4294967296)
    (hcols : 2 * self.mHistImageBorder + 3 * L < 4294967296)
    (hzero : ((Hist.type = .CV_32F ∨ Hist.type = .CV_64F) ∧
        ∀ i, i < L → Hist.binReal i = .fin 0) ∨
      (Hist.type = .CV_32S ∧ ∀ i, i < L → Hist.binInt i = 0)) :
    DrawHistogram cvRound line putText self Hist HistImage Color
      = (if self.mDrawXAxis then DrawHistBar line putText self (self.canvas L) L
        else self.canvas L) ∧
    (self.canvas L).rows = 2 * self.mHistImageBorder + self.mHistImageHeight ∧
    (self.canvas L).cols = 2 * self.mHistImageBorder + 3 * L ∧
    (∀ r c, (self.canvas L).data r c = self.mHistBackgroundColor) ∧
    (self.mDrawXAxis = false →
      (DrawHistogram cvRound line putText self Hist HistImage Color).rows
          = 2 * self.mHistImageBorder + self.mHistImageHeight ∧
      (DrawHistogram cvRound line putText self Hist HistImage Color).cols
          = 2 * self.mHistImageBorder + 3 * L ∧
      ∀ r c, (DrawHistogram cvRound line putText self Hist HistImage Color).data r c
          = self.mHistBackgroundColor) := by
  have hmain := drawHistogram_zero cvRound hr line putText self Hist HistImage Color L hL
    hshape hzero
  have hr' : (self.canvas L).rows = 2 * self.mHistImageBorder + self.mHistImageHeight :=
    Nat.mod_eq_of_lt hrows
  have hc' : (self.canvas L).cols = 2 * self.mHistImageBorder + 3 * L :=
    Nat.mod_eq_of_lt hcols
  refine ⟨hmain, hr', hc', fun _ _ => rfl, ?_⟩
  intro hax
  rw [hmain, hax]
  exact ⟨hr', hc', fun _ _ => rfl⟩

/-- C12 at the `1 x 3` histogram of `float` zeros, an empty target and the
constructor's configuration. -/
theorem C12_witness :
    (CHistLib.new zeroScalar zeroScalar).canvas 3
      = { rows := 330, cols := 39, type := .CV_8UC3, data := fun _ _ => zeroScalar } ∧
    DrawHistogram cvRoundHalfAway idLine idText (CHistLib.new zeroScalar zeroScalar) zeroHist
        emptyMat zeroScalar
      = DrawHistBar idLine idText (CHistLib.new zeroScalar zeroScalar)
          ((CHistLib.new zeroScalar zeroScalar).canvas 3) 3 :=
  ⟨rfl, (C12_zero_histogram_is_background cvRoundHalfAway cvRoundHalfAway_nearest idLine idText
    (CHistLib.new zeroScalar zeroScalar) zeroHist emptyMat zeroScalar 3 (by norm_num)
    (Or.inl ⟨rfl, rfl⟩) (by unfold CHistLib.new; norm_num) (by unfold CHistLib.new; norm_num)
    (Or.inl ⟨Or.inl rfl, fun i _ => by
      simp [zeroHist, HistMat.binReal, HistMat.rowVector]⟩)).1⟩

/-- C13, the code: when `calcHist` returns `mBinCount x 1` histograms and
`mBinCount ≥ 2`, what `DrawHistogramBGR` leaves in the target is what the draw
of the red histogram alone leaves in an empty target.  Each `DrawHistogram`
call creates the target anew and fills it with the background colour, so the
bars of the blue and of the green histogram are erased whether or not a later
bar covers them. -/
theorem C13_later_draw_erases_earlier {α : Type} (cvRound : Dbl → ℤ)
    (line : Mat → Point → Point → Scalar → ℤ → Mat)
    (putText : Mat → String → Point → Scalar → Mat)
    (calcHist : α → ℕ → ℕ → HistMat) (maxVal : HistMat → Dbl)
    (blue green red : Scalar) (self : CHistLib) (ImageBGR : α) (ImageHist : Mat)
    (hn : 2 ≤ self.mBinCount)
    (hshape : ∀ ch, ch < 3 → (calcHist ImageBGR ch self.mBinCount).rows = self.mBinCount ∧
      (calcHist ImageBGR ch self.mBinCount).cols = 1) :
    DrawHistogramBGR cvRound line putText calcHist maxVal blue green red self ImageBGR ImageHist
      = DrawHistogram cvRound line putText self
          (scaleHist self
            (Dbl.stdMax (maxVal (calcHist ImageBGR 0 self.mBinCount))
              (Dbl.stdMax (maxVal (calcHist ImageBGR 1 self.mBinCount))
                (maxVal (calcHist ImageBGR 2 self.mBinCount))))
            (calcHist ImageBGR 0 self.mBinCount).rows (calcHist ImageBGR 2 self.mBinCount))
          emptyMat red :=
  drawHistogramBGR_last_draw cvRound line putText calcHist maxVal blue green red self ImageBGR
    ImageHist hn hshape

/-- C13, the code at an image whose blue counts are in bin 0, green counts in
bin 1 and red counts in bin 2, with the constructor's configuration. -/
theorem C13_witness :
    DrawHistogramBGR cvRoundHalfAway idLine idText constCalcHist constMaxVal zeroScalar
        zeroScalar zeroScalar (CHistLib.new zeroScalar zeroScalar) () emptyMat
      = DrawHistogram cvRoundHalfAway idLine idText (CHistLib.new zeroScalar zeroScalar)
          (scaleHist (CHistLib.new zeroScalar zeroScalar)
            (Dbl.stdMax (constMaxVal (constCalcHist () 0 256))
              (Dbl.stdMax (constMaxVal (constCalcHist () 1 256))
                (constMaxVal (constCalcHist () 2 256))))
            (constCalcHist () 0 256).rows (constCalcHist () 2 256))
          emptyMat zeroScalar :=
  C13_later_draw_erases_earlier cvRoundHalfAway idLine idText constCalcHist constMaxVal
    zeroScalar zeroScalar zeroScalar (CHistLib.new zeroScalar zeroScalar) () emptyMat
    (by unfold CHistLib.new; norm_num) (fun _ _ => ⟨rfl, rfl⟩)

/-- C14, the code: `DrawHistogram` gives the same image whatever its `Color`
argument is, and at the `2 x 1` histogram of `int` values 5, 0 with the
constructor's configuration (plot colour `white`) and the argument `blue`, the
one bar is the line from `(15, 315)` to `(15, 310)` drawn in `white`. -/
theorem C14_bars_ignore_color_argument :
    (∀ (cvRound : Dbl → ℤ) (line : Mat → Point → Point → Scalar → ℤ → Mat)
        (putText : Mat → String → Point → Scalar → Mat) (self : CHistLib) (Hist : HistMat)
        (HistImage : Mat) (c1 c2 : Scalar),
      DrawHistogram cvRound line putText self Hist HistImage c1
        = DrawHistogram cvRound line putText self Hist HistImage c2) ∧
    (∀ (cvRound : Dbl → ℤ) (line : Mat → Point → Point → Scalar → ℤ → Mat)
        (putText : Mat → String → Point → Scalar → Mat) (white black blue : Scalar)
        (HistImage : Mat),
      DrawHistogram cvRound line putText (CHistLib.new white black) fiveZeroHist HistImage blue
        = DrawHistBar line putText (CHistLib.new white black)
            (line ((CHistLib.new white black).canvas 2) ⟨15, 315⟩ ⟨15, 310⟩ white 1) 2) := by
  constructor
  · intro cvRound line putText self Hist HistImage c1 c2
    rfl
  · intro cvRound line putText white black blue HistImage
    rw [drawHistogram_int cvRound line putText (CHistLib.new white black) fiveZeroHist HistImage
      blue 2 (by norm_num) (Or.inr ⟨rfl, rfl⟩) rfl]
    have e0 : fiveZeroHist.binInt 0 = 5 := by
      simp [fiveZeroHist, HistMat.binInt, HistMat.colVector]
    have e1 : fiveZeroHist.binInt 1 = 0 := by
      simp [fiveZeroHist, HistMat.binInt, HistMat.colVector]
    have hb0 := drawHistBinInt_line line (CHistLib.new white black)
      ((CHistLib.new white black).canvas 2) 5 0 white (by norm_num)
      (by unfold CHistLib.new; norm_num) (by unfold CHistLib.new; norm_num)
      (by unfold CHistLib.new; norm_num)
    have hb1 := drawHistBinInt_line line (CHistLib.new white black)
      (line ((CHistLib.new white black).canvas 2) ⟨15, 315⟩ ⟨15, 310⟩ white 1) 0 1 white
      (by norm_num) (by unfold CHistLib.new; norm_num) (by unfold CHistLib.new; norm_num)
      (by unfold CHistLib.new; norm_num)
    have hx : (CHistLib.new white black).mDrawXAxis = true := rfl
    have hp : (CHistLib.new white black).mHistPlotColor = white := rfl
    have hr2 : List.range 2 = [0, 1] := rfl
    have hline : line ((CHistLib.new white black).canvas 2)
        ⟨((0 : ℕ) : ℤ) * 3 + (CHistLib.new white black).mHistImageBorder,
          ((CHistLib.new white black).mHistImageBorder : ℤ)
            + (CHistLib.new white black).mHistImageHeight⟩
        ⟨((0 : ℕ) : ℤ) * 3 + (CHistLib.new white black).mHistImageBorder,
          ((CHistLib.new white black).mHistImageBorder : ℤ)
            + (CHistLib.new white black).mHistImageHeight - 5⟩ white 1
        = line ((CHistLib.new white black).canvas 2) ⟨15, 315⟩ ⟨15, 310⟩ white 1 := by
      unfold CHistLib.new
      norm_num
    rw [if_neg (by norm_num), hline] at hb0
    rw [if_pos rfl] at hb1
    simp only [hx, if_true, hp, hr2, drawBins, e0, e1, hb0, hb1]


/-- C15, refuted: with the constructor's image height 300, a bin whose count
equals the global maximum 14316562 is not scaled to 300 but to
`300 + 2 ^ (-15)`, above the image height: the float product `300 * 14316562`
is rounded before the division. -/
theorem C15_counterexample :
    scaleBin (CHistLib.new zeroScalar zeroScalar) (.fin 14316562) (.fin 14316562)
      = .fin (9830401 / 32768) ∧
    ((CHistLib.new zeroScalar zeroScalar).mHistImageHeight : ℚ) < 9830401 / 32768 := by
  refine ⟨scaleBin_large, ?_⟩
  unfold CHistLib.new
  norm_num

/-- C15 as amended: `DrawHistogramBGR` scales the three histograms with the one
factor `G = maxBGR`, the greatest of the three maxima, and draws them in turn;
for an image height `H` in `1 .. 2048` and `0 < G < 2 ^ 31`, a bin count
`c ≤ G` is scaled to the float `s = fl32 (fl32 (H * c) / fl32 G)`, which is not
negative and within the relative error `2 ^ (-22)` of `H * c / G`; the pixel
height `cvRound s` lies in `0 .. H` and is `H` when `c = G`; and while `H * G`
stays below `2 ^ 24` the float `s` itself does not exceed `H` and is `H` when
`c = G`. -/
theorem C15_scaling_by_shared_maximum {α : Type} (cvRound : Dbl → ℤ)
    (hr : CvRoundNearest cvRound)
    (line : Mat → Point → Point → Scalar → ℤ → Mat)
    (putText : Mat → String → Point → Scalar → Mat)
    (calcHist : α → ℕ → ℕ → HistMat) (maxVal : HistMat → Dbl)
    (blue green red : Scalar) (self : CHistLib) (ImageBGR : α) (ImageHist : Mat)
    (gB gG gR : ℕ)
    (hB : maxVal (calcHist ImageBGR 0 self.mBinCount) = .fin (gB : ℚ))
    (hG : maxVal (calcHist ImageBGR 1 self.mBinCount) = .fin (gG : ℚ))
    (hR : maxVal (calcHist ImageBGR 2 self.mBinCount) = .fin (gR : ℚ))
    (hh : 0 < self.mHistImageHeight) (hh2 : self.mHistImageHeight ≤ 2048)
    (hpos : 0 < max gB (max gG gR)) (hbig : max gB (max gG gR) < 2 ^ 31) :
    DrawHistogramBGR cvRound line putText calcHist maxVal blue green red self ImageBGR ImageHist
      = DrawHistogram cvRound line putText self
          (scaleHist self (.fin ((max gB (max gG gR) : ℕ) : ℚ))
            (calcHist ImageBGR 0 self.mBinCount).rows (calcHist ImageBGR 2 self.mBinCount))
          (DrawHistogram cvRound line putText self
            (scaleHist self (.fin ((max gB (max gG gR) : ℕ) : ℚ))
              (calcHist ImageBGR 0 self.mBinCount).rows (calcHist ImageBGR 1 self.mBinCount))
            (DrawHistogram cvRound line putText self
              (scaleHist self (.fin ((max gB (max gG gR) : ℕ) : ℚ))
                (calcHist ImageBGR 0 self.mBinCount).rows (calcHist ImageBGR 0 self.mBinCount))
              ImageHist blue)
            green)
          red ∧
    ∀ (Hist : HistMat) (n i c : ℕ), i < n → Hist.atReal i 0 = .fin (c : ℚ) →
      c ≤ max gB (max gG gR) →
      ∃ p g s : ℚ,
        fl32 ((self.mHistImageHeight : ℚ) * c) = .fin p ∧
        fl32 ((max gB (max gG gR) : ℕ) : ℚ) = .fin g ∧
        fl32 (p / g) = .fin s ∧
        (scaleHist self (.fin ((max gB (max gG gR) : ℕ) : ℚ)) n Hist).atReal i 0 = .fin s ∧
        0 ≤ s ∧
        |s - (self.mHistImageHeight : ℚ) * c / (max gB (max gG gR) : ℕ)|
          ≤ (self.mHistImageHeight : ℚ) * c / (max gB (max gG gR) : ℕ) / 2 ^ 22 ∧
        0 ≤ cvRound (.fin s) ∧ cvRound (.fin s) ≤ self.mHistImageHeight ∧
        (c = max gB (max gG gR) → cvRound (.fin s) = self.mHistImageHeight) ∧
        (self.mHistImageHeight * max gB (max gG gR) < 2 ^ 24 →
          s ≤ self.mHistImageHeight ∧
          (c = max gB (max gG gR) → s = self.mHistImageHeight)) := by
  constructor
  · unfold DrawHistogramBGR
    simp only [hB, hG, hR, stdMax_natCast]
  · intro Hist n i c hi hc hcG
    have hh24 : self.mHistImageHeight < 2 ^ 24 := by omega
    obtain ⟨p, g, s, hp, hg, hgne, hs, hs0, hbound, hexact⟩ :=
      fl32_scale self.mHistImageHeight c (max gB (max gG gR)) hh hh24 hpos hbig hcG
    obtain ⟨hr0, hr1, hr2⟩ := cvRound_scaled cvRound hr self.mHistImageHeight c
      (max gB (max gG gR)) hh2 hpos hcG s hs0 hbound
    refine ⟨p, g, s, hp, hg, hs, ?_, hs0, hbound, hr0, hr1, hr2, hexact⟩
    simp only [scaleHist, hi, and_self, if_true, hc, scaleBin,
      fl32_natCast self.mHistImageHeight hh24, Dbl.mulF, hp, Dbl.toFloat, hg, Dbl.divF, hgne,
      if_false, hs]

/-- C15 as amended, at the four-pixel image whose channel `ch` has its counts
in bin `ch`, with the constructor's configuration: the bin of count 4, the
shared maximum, is scaled to a float `s` with pixel height 300. -/
theorem C15_witness :
    ∃ p g s : ℚ,
      fl32 (((CHistLib.new zeroScalar zeroScalar).mHistImageHeight : ℚ) * (4 : ℕ)) = .fin p ∧
      fl32 ((max 4 (max 4 4) : ℕ) : ℚ) = .fin g ∧
      fl32 (p / g) = .fin s ∧
      (scaleHist (CHistLib.new zeroScalar zeroScalar)
        (.fin ((max 4 (max 4 4) : ℕ) : ℚ)) 256 (constCalcHist () 0 256)).atReal 0 0 = .fin s ∧
      0 ≤ s ∧
      |s - ((CHistLib.new zeroScalar zeroScalar).mHistImageHeight : ℚ) * (4 : ℕ)
            / (max 4 (max 4 4) : ℕ)|
        ≤ ((CHistLib.new zeroScalar zeroScalar).mHistImageHeight : ℚ) * (4 : ℕ)
            / (max 4 (max 4 4) : ℕ) / 2 ^ 22 ∧
      0 ≤ cvRoundHalfAway (.fin s) ∧
      cvRoundHalfAway (.fin s) ≤ (CHistLib.new zeroScalar zeroScalar).mHistImageHeight ∧
      (4 = max 4 (max 4 4) →
        cvRoundHalfAway (.fin s) = (CHistLib.new zeroScalar zeroScalar).mHistImageHeight) ∧
      ((CHistLib.new zeroScalar zeroScalar).mHistImageHeight * max 4 (max 4 4) < 2 ^ 24 →
        s ≤ (CHistLib.new zeroScalar zeroScalar).mHistImageHeight ∧
        (4 = max 4 (max 4 4) → s = (CHistLib.new zeroScalar zeroScalar).mHistImageHeight)) :=
  (C15_scaling_by_shared_maximum cvRoundHalfAway cvRoundHalfAway_nearest idLine idText
    constCalcHist constMaxVal
    zeroScalar zeroScalar zeroScalar (CHistLib.new zeroScalar zeroScalar) () emptyMat 4 4 4
    rfl rfl rfl (by unfold CHistLib.new; norm_num) (by unfold CHistLib.new; norm_num)
    (by norm_num) (by norm_num)).2 (constCalcHist () 0 256) 256 0 4 (by norm_num)
    (by simp [constCalcHist, HistMat.colVector]) (by norm_num)

/-- C16: `SetBinCount (n)` with `n = 0` or `n > 256` (so with 0 and with 300)
leaves what `GetBinCount` returns as it was; with `1 ≤ n ≤ 256` `GetBinCount`
returns `n` afterwards. -/
theorem C16_set_bin_count (self : CHistLib) (n : ℕ) :
    ((n = 0 ∨ 256 < n) → (self.SetBinCount n).GetBinCount = self.GetBinCount) ∧
    ((1 ≤ n ∧ n ≤ 256) → (self.SetBinCount n).GetBinCount = n) ∧
    (self.SetBinCount 0).GetBinCount = self.GetBinCount ∧
    (self.SetBinCount 300).GetBinCount = self.GetBinCount := by
  refine ⟨?_, ?_, ?_, ?_⟩
  · intro h
    rw [setBinCount_out_of_range self n h]
  · intro h
    rw [setBinCount_get, if_pos h]
  · rw [setBinCount_out_of_range self 0 (Or.inl rfl)]
  · rw [setBinCount_out_of_range self 300 (Or.inr (by norm_num))]

/-- C17: from the constructor's state (image height 300, bin count 256) every
finite sequence of setter calls with arbitrary arguments leads to a
configuration with `0 < binCount ≤ 256` and `0 < imageHeight ≤ 2048`, and a
call of `SetHistImageHeight` or `SetBinCount` with an argument out of range
returns the configuration it was given. -/
theorem C17_configuration_invariant (white black : Scalar) (cs : List SetterCall) :
    (CHistLib.new white black).mHistImageHeight = 300 ∧
    (CHistLib.new white black).mBinCount = 256 ∧
    (0 < ((CHistLib.new white black).calls cs).mBinCount ∧
      ((CHistLib.new white black).calls cs).mBinCount ≤ 256) ∧
    (0 < ((CHistLib.new white black).calls cs).mHistImageHeight ∧
      ((CHistLib.new white black).calls cs).mHistImageHeight ≤ 2048) ∧
    (∀ (self : CHistLib) (n : ℕ), (n = 0 ∨ 2048 < n) → self.SetHistImageHeight n = self) ∧
    (∀ (self : CHistLib) (n : ℕ), (n = 0 ∨ 256 < n) → self.SetBinCount n = self) := by
  have h := calls_keep_ranges cs (CHistLib.new white black)
    ⟨⟨by unfold CHistLib.new; norm_num, by unfold CHistLib.new; norm_num⟩,
     ⟨by unfold CHistLib.new; norm_num, by unfold CHistLib.new; norm_num⟩⟩
  exact ⟨rfl, rfl, h.1, h.2, setHistImageHeight_out_of_range, setBinCount_out_of_range⟩

/-- C18, the code: with a configured bin count below 256 the bucket array has
fewer than 256 entries, `bins[255]` does not exist, and for every image and
every `clipPercent` some bucket access of `NormalizeClipImageBGR` is out of
range. -/
theorem C18_short_bucket_array (cvRound : Dbl → ℤ) (mBinCount : ℕ) (img : List PixelHSV)
    (clipPercent : Dbl) (h : mBinCount < 256) :
    (List.replicate mBinCount 0)[255]? = none ∧
    clipBounds cvRound mBinCount img clipPercent = none ∧
    NormalizeClipImageBGR cvRound mBinCount img clipPercent = none :=
  ⟨List.getElem?_eq_none (by rw [List.length_replicate]; omega),
   clipBounds_short cvRound mBinCount img clipPercent h,
   normalizeClip_short cvRound mBinCount img clipPercent h⟩

/-- C18, the code after `SetBinCount (16)` from the constructor's state, at the
image with values 50, 125, 200 and `clipPercent = 1`. -/
theorem C18_witness :
    (List.replicate ((CHistLib.new zeroScalar zeroScalar).SetBinCount 16).GetBinCount 0)[255]?
      = none ∧
    clipBounds cvRoundHalfAway ((CHistLib.new zeroScalar zeroScalar).SetBinCount 16).GetBinCount
      midImage (.fin 1) = none ∧
    NormalizeClipImageBGR cvRoundHalfAway
      ((CHistLib.new zeroScalar zeroScalar).SetBinCount 16).GetBinCount midImage (.fin 1)
      = none :=
  C18_short_bucket_array cvRoundHalfAway
    ((CHistLib.new zeroScalar zeroScalar).SetBinCount 16).GetBinCount midImage (.fin 1)
    (by decide)

/-- C19: the remap that `NormalizeImageBGR` and `NormalizeClipImageBGR` apply to
every value byte, with bounds `min < max ≤ 255` (for which the unsigned
`max - min` of `NormalizeClipImageBGR` is the plain difference), is
order-preserving: `v1 ≤ v2` gives a remapped `v1` not above the remapped `v2`;
values at or below `min` map to `0`, values at or above `max` map to `255`. -/
theorem C19_remap_order_preserving (cvRound : Dbl → ℤ) (hr : CvRoundNearest cvRound)
    (mn mx : ℕ) (hlt : mn < mx) (hmx : mx ≤ 255) :
    ((mx : ℤ) - (mn : ℤ)) % 4294967296 = (mx : ℤ) - (mn : ℤ) ∧
    (∀ v1 v2 : Fin 256, v1 ≤ v2 →
      remapValue cvRound v1 (mn : ℤ) ((mx : ℤ) - (mn : ℤ))
        ≤ remapValue cvRound v2 (mn : ℤ) ((mx : ℤ) - (mn : ℤ))) ∧
    (∀ v : Fin 256, v.val ≤ mn → remapValue cvRound v (mn : ℤ) ((mx : ℤ) - (mn : ℤ)) = 0) ∧
    (∀ v : Fin 256, mx ≤ v.val →
      remapValue cvRound v (mn : ℤ) ((mx : ℤ) - (mn : ℤ)) = 255) := by
  have hm : mn < 256 := by omega
  have hM : mx < 256 := by omega
  have hlt' : (⟨mn, hm⟩ : Fin 256) < ⟨mx, hM⟩ := hlt
  refine ⟨by omega, ?_, ?_, ?_⟩
  · intro v1 v2 h
    exact remapValue_mono cvRound hr ⟨mn, hm⟩ ⟨mx, hM⟩ hlt' v1 v2 h
  · intro v hv
    exact (remapValue_ends cvRound hr ⟨mn, hm⟩ ⟨mx, hM⟩ hlt' v).1 hv
  · intro v hv
    exact (remapValue_ends cvRound hr ⟨mn, hm⟩ ⟨mx, hM⟩ hlt' v).2 hv

/-- C19 at the bounds 50 and 200: the value 40 maps to 0, the value 210 to 255,
and the remapped 100 is not above the remapped 150. -/
theorem C19_witness :
    remapValue cvRoundHalfAway 40 ((50 : ℕ) : ℤ) (((200 : ℕ) : ℤ) - ((50 : ℕ) : ℤ)) = 0 ∧
    remapValue cvRoundHalfAway 210 ((50 : ℕ) : ℤ) (((200 : ℕ) : ℤ) - ((50 : ℕ) : ℤ)) = 255 ∧
    remapValue cvRoundHalfAway 100 ((50 : ℕ) : ℤ) (((200 : ℕ) : ℤ) - ((50 : ℕ) : ℤ))
      ≤ remapValue cvRoundHalfAway 150 ((50 : ℕ) : ℤ) (((200 : ℕ) : ℤ) - ((50 : ℕ) : ℤ)) :=
  ⟨(C19_remap_order_preserving cvRoundHalfAway cvRoundHalfAway_nearest 50 200 (by norm_num)
      (by norm_num)).2.2.1 40 (by decide),
   (C19_remap_order_preserving cvRoundHalfAway cvRoundHalfAway_nearest 50 200 (by norm_num)
      (by norm_num)).2.2.2 210 (by decide),
   (C19_remap_order_preserving cvRoundHalfAway cvRoundHalfAway_nearest 50 200 (by norm_num)
      (by norm_num)).2.1 100 150 (by decide)⟩

/-- C20: for `L ≥ 2` bin values of any one element type, `DrawHistogram` gives
the same image for the `1 x L` row vector and for the `L x 1` column vector
that hold them. -/
theorem C20_row_and_column_vector_agree (cvRound : Dbl → ℤ)
    (line : Mat → Point → Point → Scalar → ℤ → Mat)
    (putText : Mat → String → Point → Scalar → Mat) (self : CHistLib)
    (type : MatType) (L : ℕ) (hL : 2 ≤ L) (valsReal : ℕ → Dbl) (valsInt : ℕ → ℤ)
    (HistImage : Mat) (Color : Scalar) :
    DrawHistogram cvRound line putText self (HistMat.rowVector type L valsReal valsInt)
        HistImage Color
      = DrawHistogram cvRound line putText self (HistMat.colVector type L valsReal valsInt)
          HistImage Color :=
  drawHistogram_row_col cvRound line putText self type L hL valsReal valsInt HistImage Color

/-- C20 at the three `float` values 1, 2, 3 and the constructor's
configuration. -/
theorem C20_witness :
    DrawHistogram cvRoundHalfAway idLine idText (CHistLib.new zeroScalar zeroScalar)
        (HistMat.rowVector .CV_32F 3 (fun i => .fin (i + 1)) (fun _ => 0)) emptyMat zeroScalar
      = DrawHistogram cvRoundHalfAway idLine idText (CHistLib.new zeroScalar zeroScalar)
          (HistMat.colVector .CV_32F 3 (fun i => .fin (i + 1)) (fun _ => 0)) emptyMat
          zeroScalar :=
  C20_row_and_column_vector_agree cvRoundHalfAway idLine idText
    (CHistLib.new zeroScalar zeroScalar) .CV_32F 3 (by norm_num) (fun i => .fin (i + 1))
    (fun _ => 0) emptyMat zeroScalar

end HistLib
